import Mathlib

/-!
Verification of the maze-solver core: a rectangular character grid is
validated and then searched by one of four algorithms (recursive DFS,
BFS, greedy best-first search, A*), which mark the discovered path in
place.  The definitions below are a shallow embedding of the source:
machine `usize` arithmetic becomes arithmetic modulo `2 ^ 64`, the
mutable grid becomes explicit state passing over `List (List Char)`,
the `HashSet` of visited coordinates becomes a `Finset`, and the
recursion / search loops take explicit fuel (with fuel adequacy proved
separately).
-/

namespace Maze

abbrev Coord := Nat × Nat

abbrev Grid := List (List Char)

/-- `usize` modulus: coordinates wrap modulo `2 ^ 64`. -/
def USIZE : Nat := 2 ^ 64

/-- `usize::overflowing_add`. -/
def wrapAdd (a b : Nat) : Nat := (a + b) % USIZE

/-- `const START : char = 'A'`. -/
def START : Char := 'A'

/-- `const END : char = 'B'`. -/
def ENDC : Char := 'B'

/-- The wall character `'█'`. -/
def WALL : Char := '█'

/-- The open-floor character `' '`. -/
def OPENC : Char := ' '

/-- The visited / in-progress marker `'@'`. -/
def VISC : Char := '@'

/-- The path marker `'*'`. -/
def PATHC : Char := '*'

/-- `const VALID_CHARS : &str = "AB█ "`. -/
def VALID_CHARS : List Char := ['A', 'B', '█', ' ']

/-- `const DIRECTIONS`: up, left, down, right offsets in `usize`
arithmetic (`usize::max_value()` is `2 ^ 64 - 1`). -/
def DIRECTIONS : List (Nat × Nat) :=
  [(USIZE - 1, 0), (0, USIZE - 1), (1, 0), (0, 1)]

/-- The row at index `r` (defaulting to `[]` out of bounds). -/
def rowAt (m : Grid) (r : Nat) : List Char := m.getD r []

/-- `maze[r].len()`. -/
def rowLen (m : Grid) (r : Nat) : Nat := (rowAt m r).length

/-- `maze[r][c]`; the default `'?'` is never a valid cell and is only
reachable out of bounds. -/
def getCell (m : Grid) (r c : Nat) : Char := (rowAt m r).getD c '?'

/-- `maze[r][c] = ch` (out-of-bounds writes are dropped, matching that
the source never performs them). -/
def setCell (m : Grid) (r c : Nat) (ch : Char) : Grid :=
  m.set r ((rowAt m r).set c ch)

/-- Scan one row left to right for the target character, returning the
column index of the first hit. -/
def rowFind (t : Char) : List Char → Nat → Option Nat
  | [], _ => none
  | c :: rest, i => if c = t then some i else rowFind t rest (i + 1)

/-- Scan rows top to bottom for the target character. -/
def locateFrom (t : Char) : Grid → Nat → Option Coord
  | [], _ => none
  | row :: rest, r =>
    match rowFind t row 0 with
    | some c => some (r, c)
    | none => locateFrom t rest (r + 1)

/-- `get_start`: first `'A'` in row-major scan order. -/
def get_start (m : Grid) : Option Coord := locateFrom START m 0

/-- `get_end`: first `'B'` in row-major scan order. -/
def get_end (m : Grid) : Option Coord := locateFrom ENDC m 0

/-- The error enumeration of the source. -/
inductive Error where
  | InvalidAlgorithm
  | InvalidCharacter
  | FileNotFound
  | MangledRows
  | StartNotFound
  | EndNotFound
  | EmptyMaze
deriving DecidableEq, Repr

/-- `is_maze_valid`: the chain of checks in source order. -/
def is_maze_valid (m : Grid) : Except Error Unit :=
  if m.length = 0 then .error .EmptyMaze
  else if ¬ m.all (fun row => row.length = rowLen m 0) then .error .MangledRows
  else if get_start m = none then .error .StartNotFound
  else if get_end m = none then .error .EndNotFound
  else if ¬ m.all (fun row => row.all (fun c => VALID_CHARS.contains c)) then
    .error .InvalidCharacter
  else .ok ()

instance : DecidableEq (Except Error Unit)
  | .ok (), .ok () => isTrue rfl
  | .ok (), .error _ => isFalse (by intro h; cases h)
  | .error _, .ok () => isFalse (by intro h; cases h)
  | .error e1, .error e2 =>
    match decEq e1 e2 with
    | isTrue h => isTrue (by rw [h])
    | isFalse h => isFalse (by intro hh; cases hh; exact h rfl)

/-- `manhattan_dist`. -/
def manhattan_dist (p1 p2 : Coord) : Nat :=
  (if p1.1 > p2.1 then p1.1 - p2.1 else p2.1 - p1.1) +
  (if p1.2 > p2.2 then p1.2 - p2.2 else p2.2 - p1.2)

/-- A frontier entry: the coordinate together with the path taken to
reach it (the priority key of the heap algorithms is recomputable from
the entry, see `keyGBFS` / `keyAStar`). -/
abbrev Entry := Coord × List Coord

/-- The wrapped neighbor coordinates of a cell, in `DIRECTIONS` order
(up, left, down, right). -/
def neighborCoords (r c : Nat) : List Coord :=
  DIRECTIONS.map (fun d => (wrapAdd r d.1, wrapAdd c d.2))

/-- The neighbor filter of the loop searches:
`row < maze.len() && col < maze[row].len() && maze[row][col] != '█'`. -/
def passable (m : Grid) (rc : Coord) : Bool :=
  decide (rc.1 < m.length ∧ rc.2 < rowLen m rc.1 ∧ getCell m rc.1 rc.2 ≠ WALL)

/-- The `for_each` over filtered neighbors: push each passable,
not-yet-visited coordinate (tagging it visited as it is pushed). -/
def enqueueAll (m : Grid) (path : List Coord) :
    List Coord → List Entry → Finset Coord → List Entry × Finset Coord
  | [], fr, vis => (fr, vis)
  | rc :: rest, fr, vis =>
    if passable m rc then
      if rc ∈ vis then enqueueAll m path rest fr vis
      else enqueueAll m path rest (fr ++ [(rc, path)]) (insert rc vis)
    else enqueueAll m path rest fr vis

/-- Mark every coordinate of the list with the path marker (the
`for (ri, ci) in path.into_iter().skip(1)` loop receives the tail). -/
def markPath : Grid → List Coord → Grid
  | m, [] => m
  | m, rc :: rest => markPath (setCell m rc.1 rc.2 PATHC) rest

/-- The body shared by BFS / GBFS / A*: pop an entry with `sel`, stop
on the End marker (marking the carried path), otherwise optionally
mark `'@'`, extend the path and enqueue fresh passable neighbors.
Fuel-indexed; `none` means the fuel ran out (ruled out by
`searchLoop_total`). -/
def searchLoop (sel : List Entry → Option (Entry × List Entry)) (dv : Bool) :
    Nat → Grid → List Entry → Finset Coord → Option (Bool × Grid)
  | 0, _, _, _ => none
  | fuel + 1, m, fr, vis =>
    match sel fr with
    | none => some (false, m)
    | some (e, rest) =>
      if getCell m e.1.1 e.1.2 = ENDC then some (true, markPath m e.2.tail)
      else
        let m1 := if dv ∧ getCell m e.1.1 e.1.2 ≠ START then
          setCell m e.1.1 e.1.2 VISC else m
        let path1 := e.2 ++ [e.1]
        let st := enqueueAll m1 path1 (neighborCoords e.1.1 e.1.2) rest vis
        searchLoop sel dv fuel m1 st.1 st.2

/-- FIFO pop: `VecDeque::pop_front`. -/
def fifoSel : List Entry → Option (Entry × List Entry)
  | [] => none
  | e :: rest => some (e, rest)

/-- Strict lexicographic order on coordinates (the `Ord` instance of
`(usize, usize)`). -/
def coordLt (a b : Coord) : Prop := a.1 < b.1 ∨ (a.1 = b.1 ∧ a.2 < b.2)

instance : DecidablePred fun ab : Coord × Coord => coordLt ab.1 ab.2 :=
  fun _ => by unfold coordLt; infer_instance

instance (a b : Coord) : Decidable (coordLt a b) := by
  unfold coordLt; infer_instance

/-- Strict lexicographic order on paths (the `Ord` instance of
`Vec<(usize, usize)>`). -/
def pathLt : List Coord → List Coord → Prop
  | [], [] => False
  | [], _ :: _ => True
  | _ :: _, [] => False
  | a :: xs, b :: ys => coordLt a b ∨ (a = b ∧ pathLt xs ys)

instance : ∀ (xs ys : List Coord), Decidable (pathLt xs ys)
  | [], [] => by unfold pathLt; infer_instance
  | [], _ :: _ => by unfold pathLt; infer_instance
  | _ :: _, [] => by unfold pathLt; infer_instance
  | a :: xs, b :: ys =>
    have := instDecidablePathLt xs ys
    by unfold pathLt; infer_instance

/-- `e1` is strictly below `e2` in the `BinaryHeap` order of
`(Reverse(key), row, col, path)`: larger key first (reversed), then
smaller row, smaller column, lexicographically smaller path. -/
def entryLt (key : Entry → Nat) (e1 e2 : Entry) : Prop :=
  key e2 < key e1 ∨ (key e1 = key e2 ∧
    (e1.1.1 < e2.1.1 ∨ (e1.1.1 = e2.1.1 ∧
      (e1.1.2 < e2.1.2 ∨ (e1.1.2 = e2.1.2 ∧ pathLt e1.2 e2.2)))))

instance (key : Entry → Nat) (e1 e2 : Entry) : Decidable (entryLt key e1 e2) := by
  unfold entryLt; infer_instance

/-- `BinaryHeap::pop`: remove the maximum entry (ties, which cannot
occur for distinct entries, resolve to the earliest). -/
def popMax (key : Entry → Nat) : List Entry → Option (Entry × List Entry)
  | [] => none
  | e :: rest =>
    match popMax key rest with
    | none => some (e, [])
    | some (mx, others) =>
      if entryLt key e mx then some (mx, e :: others) else some (e, rest)

/-- The GBFS priority of an entry: Manhattan distance to the end. -/
def keyGBFS (e0 : Coord) (en : Entry) : Nat := manhattan_dist en.1 e0

/-- The A* priority of an entry: Manhattan distance to the end plus
the length of the path taken so far. -/
def keyAStar (e0 : Coord) (en : Entry) : Nat :=
  manhattan_dist en.1 e0 + en.2.length

/-- Total number of cells; the fuel bound is linear in it. -/
def totalCells (m : Grid) : Nat := (m.map List.length).sum

/-- Fuel adequate for every run of the loop searches
(`searchLoop_total`). -/
def searchFuel (m : Grid) : Nat := 4 * totalCells m + 2

/-- `bfs`, seeded with the start coordinate and an empty path. -/
def bfs (m : Grid) (start : Coord) (dv : Bool) : Option (Bool × Grid) :=
  searchLoop fifoSel dv (searchFuel m) m [(start, [])] ∅

/-- `greedy_best_first_search`. -/
def greedy_best_first_search (m : Grid) (start e0 : Coord) (dv : Bool) :
    Option (Bool × Grid) :=
  searchLoop (popMax (keyGBFS e0)) dv (searchFuel m) m [(start, [])] ∅

/-- `a_star`. -/
def a_star (m : Grid) (start e0 : Coord) (dv : Bool) : Option (Bool × Grid) :=
  searchLoop (popMax (keyAStar e0)) dv (searchFuel m) m [(start, [])] ∅

/-- The rejection check opening `dfs` (out of bounds, `'@'`, wall, or
already in the visited set). -/
def dfsReject (m : Grid) (vis : Finset Coord) (row col : Nat) : Prop :=
  m.length ≤ row ∨ rowLen m row ≤ col ∨ getCell m row col = VISC ∨
    getCell m row col = WALL ∨ (row, col) ∈ vis

instance (m : Grid) (vis : Finset Coord) (row col : Nat) :
    Decidable (dfsReject m vis row col) := by
  unfold dfsReject; infer_instance

/-- The in-progress marking of `dfs` (lines 98-100 of the source): a
non-Start cell on the recursion stack is set to `'@'`. -/
def dfsMark (m : Grid) (row col : Nat) : Grid :=
  if getCell m row col = START then m else setCell m row col VISC

/-- The post-processing of a `dfs` frame (lines 111-117): revert a
dead end to open floor unless visited cells are displayed, then mark
the cell as path on success. -/
def dfsPost (dv res : Bool) (m : Grid) (row col : Nat) : Grid :=
  let m2 := if ¬ dv ∧ getCell m row col ≠ START then
    setCell m row col OPENC else m
  if res ∧ getCell m2 row col ≠ START then setCell m2 row col PATHC else m2

/-- `dfs`, fuel-indexed.  The `DIRECTIONS.iter().any(...)` call is
unrolled into the four short-circuited recursive calls (up, left,
down, right), threading the mutated maze and visited set. -/
def dfs (dv : Bool) : Nat → Grid → Nat → Nat → Finset Coord →
    Option (Bool × Grid × Finset Coord)
  | 0, _, _, _, _ => none
  | fuel + 1, m, row, col, vis =>
    if dfsReject m vis row col then some (false, m, vis)
    else if getCell m row col = ENDC then some (true, m, vis)
    else
      let vis1 := insert (row, col) vis
      let m1 := dfsMark m row col
      match dfs dv fuel m1 (wrapAdd row (USIZE - 1)) (wrapAdd col 0) vis1 with
      | none => none
      | some (true, ma, va) => some (true, dfsPost dv true ma row col, va)
      | some (false, ma, va) =>
      match dfs dv fuel ma (wrapAdd row 0) (wrapAdd col (USIZE - 1)) va with
      | none => none
      | some (true, mb, vb) => some (true, dfsPost dv true mb row col, vb)
      | some (false, mb, vb) =>
      match dfs dv fuel mb (wrapAdd row 1) (wrapAdd col 0) vb with
      | none => none
      | some (true, mc, vc) => some (true, dfsPost dv true mc row col, vc)
      | some (false, mc, vc) =>
      match dfs dv fuel mc (wrapAdd row 0) (wrapAdd col 1) vc with
      | none => none
      | some (res, mz, vz) => some (res, dfsPost dv res mz row col, vz)

/-- Fuel adequate for every `dfs` run (`dfs_total`). -/
def dfsFuel (m : Grid) : Nat := totalCells m + 2

/-- A complete `dfs` run as performed by `maze_solver`: from the start
coordinate with an empty visited set. -/
def dfsRun (m : Grid) (start : Coord) (dv : Bool) :
    Option (Bool × Grid × Finset Coord) :=
  dfs dv (dfsFuel m) m start.1 start.2 ∅

/-- Number of cells carrying the path marker. -/
def countStar (m : Grid) : Nat := (m.map (fun row => row.count PATHC)).sum

/-!  ### Characterization of the row-major scans (`get_start` / `get_end`)  -/

theorem rowFind_some_iff (t : Char) :
    ∀ (l : List Char) (i j : Nat), rowFind t l i = some j ↔
      ∃ k, k < l.length ∧ j = i + k ∧ l.getD k '?' = t ∧
        ∀ k' < k, l.getD k' '?' ≠ t := by
  intro l
  induction l with
  | nil => intro i j; simp [rowFind]
  | cons c rest ih =>
    intro i j
    by_cases hc : c = t
    · simp only [rowFind, if_pos hc]
      constructor
      · rintro h
        refine ⟨0, by simp, by simpa using h.symm, by simpa using hc, by simp⟩
      · rintro ⟨k, hk, hj, hget, hmin⟩
        rcases Nat.eq_zero_or_pos k with h0 | h0
        · subst h0; simp [hj]
        · exact absurd (by simpa using hc) (hmin 0 h0)
    · simp only [rowFind, if_neg hc]
      rw [ih]
      constructor
      · rintro ⟨k, hk, hj, hget, hmin⟩
        refine ⟨k + 1, by simpa using hk, by omega, by simpa using hget, ?_⟩
        intro k' hk'
        cases k' with
        | zero => simpa using hc
        | succ k'' => exact fun h => hmin k'' (by omega) (by simpa using h)
      · rintro ⟨k, hk, hj, hget, hmin⟩
        cases k with
        | zero => exact absurd (by simpa using hget) hc
        | succ k'' =>
          refine ⟨k'', by simpa using hk, by omega, by simpa using hget, ?_⟩
          intro k' hk' h
          exact hmin (k' + 1) (by omega) (by simpa using h)

theorem rowFind_none_iff (t : Char) :
    ∀ (l : List Char) (i : Nat), rowFind t l i = none ↔
      ∀ k < l.length, l.getD k '?' ≠ t := by
  intro l
  induction l with
  | nil => intro i; simp [rowFind]
  | cons c rest ih =>
    intro i
    by_cases hc : c = t
    · simp only [rowFind, if_pos hc]
      constructor
      · intro h; cases h
      · intro h; exact absurd (by simpa using hc) (h 0 (by simp))
    · simp only [rowFind, if_neg hc]
      rw [ih]
      constructor
      · intro h k hk
        cases k with
        | zero => simpa using hc
        | succ k'' => exact fun hg => h k'' (by simpa using hk) (by simpa using hg)
      · intro h k hk hg
        exact h (k + 1) (by simpa using hk) (by simpa using hg)

theorem locateFrom_none_iff (t : Char) :
    ∀ (m : Grid) (r : Nat), locateFrom t m r = none ↔
      ∀ dr, dr < m.length → rowFind t (m.getD dr []) 0 = none := by
  intro m
  induction m with
  | nil => intro r; simp [locateFrom]
  | cons row rest ih =>
    intro r
    simp only [locateFrom]
    cases h : rowFind t row 0 with
    | some c =>
      simp only []
      constructor
      · intro hh; cases hh
      · intro hall
        have := hall 0 (by simp)
        simp [h] at this
    | none =>
      simp only []
      rw [ih (r + 1)]
      constructor
      · intro hall dr hdr
        cases dr with
        | zero => simpa using h
        | succ dr' => exact hall dr' (by simpa using hdr)
      · intro hall dr hdr
        exact hall (dr + 1) (by simpa using hdr)

theorem locateFrom_some_iff (t : Char) :
    ∀ (m : Grid) (r : Nat) (rc : Coord), locateFrom t m r = some rc ↔
      ∃ dr c, dr < m.length ∧ rc = (r + dr, c) ∧
        rowFind t (m.getD dr []) 0 = some c ∧
        ∀ dr' < dr, rowFind t (m.getD dr' []) 0 = none := by
  intro m
  induction m with
  | nil => intro r rc; simp [locateFrom]
  | cons row rest ih =>
    intro r rc
    simp only [locateFrom]
    cases h : rowFind t row 0 with
    | some c =>
      simp only []
      constructor
      · rintro hh
        have hrc : rc = (r, c) := by cases hh; rfl
        exact ⟨0, c, by simp, by simpa using hrc, by simpa using h, by simp⟩
      · rintro ⟨dr, c', hdr, hrc, hrow, hmin⟩
        rcases Nat.eq_zero_or_pos dr with h0 | h0
        · subst h0
          simp only [List.getD_cons_zero] at hrow
          rw [h] at hrow
          cases hrow
          simpa using hrc.symm
        · have := hmin 0 h0
          simp [h] at this
    | none =>
      simp only []
      rw [ih (r + 1)]
      constructor
      · rintro ⟨dr, c, hdr, hrc, hrow, hmin⟩
        refine ⟨dr + 1, c, by simpa using hdr, by rw [hrc]; congr 1; omega,
          by simpa using hrow, ?_⟩
        intro dr' hdr'
        cases dr' with
        | zero => simpa using h
        | succ dr'' => exact hmin dr'' (by omega)
      · rintro ⟨dr, c, hdr, hrc, hrow, hmin⟩
        cases dr with
        | zero =>
          simp only [List.getD_cons_zero] at hrow
          rw [h] at hrow; cases hrow
        | succ dr'' =>
          refine ⟨dr'', c, by simpa using hdr, by rw [hrc]; congr 1; omega,
            by simpa using hrow, ?_⟩
          intro dr' hdr'
          exact hmin (dr' + 1) (by omega)

/-- The row-major scan, characterized at the level of cells: `some rc`
is returned exactly when `rc` holds the target and every strictly
earlier in-bounds cell (rows top to bottom, columns left to right)
does not. -/
theorem locate_spec (t : Char) (m : Grid) (rc : Coord) :
    locateFrom t m 0 = some rc ↔
      rc.1 < m.length ∧ rc.2 < rowLen m rc.1 ∧ getCell m rc.1 rc.2 = t ∧
        ∀ rc' : Coord, coordLt rc' rc → rc'.1 < m.length →
          rc'.2 < rowLen m rc'.1 → getCell m rc'.1 rc'.2 ≠ t := by
  rw [locateFrom_some_iff]
  constructor
  · rintro ⟨dr, c, hdr, hrc, hrow, hmin⟩
    subst hrc
    rw [rowFind_some_iff] at hrow
    obtain ⟨k, hk, hck, hget, hkmin⟩ := hrow
    simp only [Nat.zero_add] at hck
    subst hck
    refine ⟨by simpa using hdr, by simpa [rowLen, rowAt] using hk,
      by simpa [getCell, rowAt] using hget, ?_⟩
    rintro ⟨r', c'⟩ hlt hr' hc'
    rcases hlt with h | ⟨heq, hltc⟩
    · have := hmin r' (by simpa using h)
      rw [rowFind_none_iff] at this
      exact this c' (by simpa [rowLen, rowAt] using hc')
    · simp only at heq hltc
      subst heq
      simpa [getCell, rowAt] using hkmin c' hltc
  · rintro ⟨hr, hc, hget, hmin⟩
    refine ⟨rc.1, rc.2, hr, by simp, ?_, ?_⟩
    · rw [rowFind_some_iff]
      refine ⟨rc.2, by simpa [rowLen, rowAt] using hc, by simp,
        by simpa [getCell, rowAt] using hget, ?_⟩
      intro k' hk' h
      exact hmin (rc.1, k') (Or.inr ⟨rfl, hk'⟩) hr
        (by simpa [rowLen, rowAt] using Nat.lt_trans hk' hc)
        (by simpa [getCell, rowAt] using h)
    · intro dr' hdr'
      rw [rowFind_none_iff]
      intro k hk h
      exact hmin (dr', k) (Or.inl hdr') (Nat.lt_trans hdr' hr)
        (by simpa [rowLen, rowAt] using hk) (by simpa [getCell, rowAt] using h)

/-- The scan returns `none` exactly when no in-bounds cell holds the
target. -/
theorem locate_none_spec (t : Char) (m : Grid) :
    locateFrom t m 0 = none ↔
      ∀ r c, r < m.length → c < rowLen m r → getCell m r c ≠ t := by
  rw [locateFrom_none_iff]
  constructor
  · intro h r c hr hc
    have := h r hr
    rw [rowFind_none_iff] at this
    exact this c (by simpa [rowLen, rowAt] using hc)
  · intro h dr hdr
    rw [rowFind_none_iff]
    intro k hk
    exact h dr k hdr (by simpa [rowLen, rowAt] using hk)

/-- The grid has an in-bounds cell holding the character `t`. -/
def hasChar (m : Grid) (t : Char) : Prop :=
  ∃ r c, r < m.length ∧ c < rowLen m r ∧ getCell m r c = t

/-- All rows share the first row's length. -/
def rectangular (m : Grid) : Prop := ∀ row ∈ m, row.length = rowLen m 0

/-- Every cell is a recognized symbol. -/
def charsValid (m : Grid) : Prop := ∀ row ∈ m, ∀ ch ∈ row, ch ∈ VALID_CHARS

theorem get_start_none_iff (m : Grid) :
    get_start m = none ↔ ¬ hasChar m START := by
  rw [get_start, locate_none_spec, hasChar]
  push_neg
  constructor
  · intro h r c hr hc; exact h r c hr hc
  · intro h r c hr hc; exact h r c hr hc

theorem get_end_none_iff (m : Grid) :
    get_end m = none ↔ ¬ hasChar m ENDC := by
  rw [get_end, locate_none_spec, hasChar]
  push_neg
  constructor
  · intro h r c hr hc; exact h r c hr hc
  · intro h r c hr hc; exact h r c hr hc

theorem rect_all_iff (m : Grid) :
    (m.all (fun row => row.length = rowLen m 0) = true) ↔ rectangular m := by
  simp [List.all_eq_true, rectangular]

theorem chars_all_iff (m : Grid) :
    (m.all (fun row => row.all (fun c => VALID_CHARS.contains c)) = true) ↔
      charsValid m := by
  simp [List.all_eq_true, charsValid, List.contains, List.elem_iff]

/-- C2: the validator returns the first applicable failure in the
fixed priority order EmptyMaze (zero rows), MangledRows (a row differs
from the first row's length), StartNotFound, EndNotFound,
InvalidCharacter, and succeeds exactly when none of these conditions
holds; being a function it reports at most one failure per call, and
the unrelated error values are never returned. -/
theorem claim2_validator_first_failure (m : Grid) :
    (is_maze_valid m = .ok () ↔
      (m.length ≠ 0 ∧ rectangular m ∧ hasChar m START ∧ hasChar m ENDC ∧
        charsValid m)) ∧
    (is_maze_valid m = .error .EmptyMaze ↔ m.length = 0) ∧
    (is_maze_valid m = .error .MangledRows ↔
      (m.length ≠ 0 ∧ ¬ rectangular m)) ∧
    (is_maze_valid m = .error .StartNotFound ↔
      (m.length ≠ 0 ∧ rectangular m ∧ ¬ hasChar m START)) ∧
    (is_maze_valid m = .error .EndNotFound ↔
      (m.length ≠ 0 ∧ rectangular m ∧ hasChar m START ∧ ¬ hasChar m ENDC)) ∧
    (is_maze_valid m = .error .InvalidCharacter ↔
      (m.length ≠ 0 ∧ rectangular m ∧ hasChar m START ∧ hasChar m ENDC ∧
        ¬ charsValid m)) ∧
    ¬ is_maze_valid m = .error .FileNotFound ∧
    ¬ is_maze_valid m = .error .InvalidAlgorithm := by
  have hR := rect_all_iff m
  have hC := chars_all_iff m
  unfold is_maze_valid
  split_ifs with h1 h2 h3 h4 h5 <;>
    simp_all [hR, hC, get_start_none_iff, get_end_none_iff, not_not]

/-- C10: `get_start` (resp. `get_end`) scans rows top to bottom and
columns left to right and returns the coordinate of the first cell
holding the Start (resp. End) marker — so with duplicates the first
occurrence in scan order wins — and returns `none` exactly when no
cell holds the marker. -/
theorem claim10_scan_order (m : Grid) (rc : Coord) :
    (get_start m = some rc ↔
      rc.1 < m.length ∧ rc.2 < rowLen m rc.1 ∧ getCell m rc.1 rc.2 = START ∧
        ∀ rc' : Coord, coordLt rc' rc → rc'.1 < m.length →
          rc'.2 < rowLen m rc'.1 → getCell m rc'.1 rc'.2 ≠ START) ∧
    (get_start m = none ↔
      ∀ r c, r < m.length → c < rowLen m r → getCell m r c ≠ START) ∧
    (get_end m = some rc ↔
      rc.1 < m.length ∧ rc.2 < rowLen m rc.1 ∧ getCell m rc.1 rc.2 = ENDC ∧
        ∀ rc' : Coord, coordLt rc' rc → rc'.1 < m.length →
          rc'.2 < rowLen m rc'.1 → getCell m rc'.1 rc'.2 ≠ ENDC) ∧
    (get_end m = none ↔
      ∀ r c, r < m.length → c < rowLen m r → getCell m r c ≠ ENDC) :=
  ⟨locate_spec START m rc, locate_none_spec START m,
    locate_spec ENDC m rc, locate_none_spec ENDC m⟩

/-!  ### Grid access and update lemmas  -/

theorem length_setCell (m : Grid) (r c : Nat) (ch : Char) :
    (setCell m r c ch).length = m.length := by
  simp [setCell]

theorem rowLen_setCell (m : Grid) (r c : Nat) (ch : Char) (r' : Nat) :
    rowLen (setCell m r c ch) r' = rowLen m r' := by
  by_cases h : r = r'
  · subst h
    by_cases hr : r < m.length
    · simp only [rowLen, rowAt, setCell, List.getD_eq_getElem?_getD,
        List.getElem?_set_self hr, Option.getD_some, List.length_set]
    · unfold setCell
      rw [List.set_eq_of_length_le (Nat.le_of_not_lt hr)]
  · simp only [rowLen, rowAt, setCell, List.getD_eq_getElem?_getD,
      List.getElem?_set_ne h]

theorem getCell_set_self (m : Grid) (r c : Nat) (ch : Char)
    (hr : r < m.length) (hc : c < rowLen m r) :
    getCell (setCell m r c ch) r c = ch := by
  have hc' : c < ((m[r]?).getD []).length := by
    simpa only [rowLen, rowAt, List.getD_eq_getElem?_getD] using hc
  simp only [getCell, rowAt, setCell, List.getD_eq_getElem?_getD,
    List.getElem?_set_self hr, Option.getD_some,
    List.getElem?_set_self hc']

theorem getCell_set_ne (m : Grid) (r c : Nat) (ch : Char) (r' c' : Nat)
    (h : ¬ (r' = r ∧ c' = c)) :
    getCell (setCell m r c ch) r' c' = getCell m r' c' := by
  by_cases hr : r = r'
  · subst hr
    have hc : c' ≠ c := fun hcc => h ⟨rfl, hcc⟩
    by_cases hrl : r < m.length
    · simp only [getCell, rowAt, setCell, List.getD_eq_getElem?_getD,
        List.getElem?_set_self hrl, Option.getD_some,
        List.getElem?_set_ne (Ne.symm hc)]
    · unfold setCell
      rw [List.set_eq_of_length_le (Nat.le_of_not_lt hrl)]
  · simp only [getCell, rowAt, setCell, List.getD_eq_getElem?_getD,
      List.getElem?_set_ne hr]

/-- The coordinates admissible as grid indices. -/
def allCoords (m : Grid) : Finset Coord :=
  (Finset.range m.length).biUnion
    (fun r => {r} ×ˢ Finset.range (rowLen m r))

theorem mem_allCoords (m : Grid) (rc : Coord) :
    rc ∈ allCoords m ↔ rc.1 < m.length ∧ rc.2 < rowLen m rc.1 := by
  cases rc with
  | mk r c =>
    simp only [allCoords, Finset.mem_biUnion, Finset.mem_range,
      Finset.mem_product, Finset.mem_singleton]
    constructor
    · rintro ⟨a, ha, h1, h2⟩
      have hra : r = a := h1
      subst hra
      exact ⟨ha, h2⟩
    · rintro ⟨h1, h2⟩
      exact ⟨r, h1, rfl, h2⟩

theorem card_allCoords (m : Grid) : (allCoords m).card = totalCells m := by
  rw [allCoords, Finset.card_biUnion]
  · have : ∀ r, ((({r} : Finset Nat) ×ˢ Finset.range (rowLen m r)).card)
        = rowLen m r := by
      intro r; simp
    rw [Finset.sum_congr rfl (fun r _ => this r)]
    clear this
    induction m with
    | nil => simp [totalCells]
    | cons row rest ih =>
      rw [totalCells, List.map_cons, List.sum_cons]
      rw [List.length_cons, Finset.sum_range_succ']
      have h0 : rowLen (row :: rest) 0 = row.length := rfl
      have hs : ∀ i, rowLen (row :: rest) (i + 1) = rowLen rest i := by
        intro i; rfl
      rw [h0, Finset.sum_congr rfl (fun i _ => hs i), Nat.add_comm]
      rw [totalCells] at ih
      rw [ih]
  · intro a _ b _ hab
    apply Finset.disjoint_left.mpr
    rintro ⟨x, y⟩ hx hy
    simp only [Finset.mem_product, Finset.mem_singleton] at hx hy
    exact hab (hx.1.symm.trans hy.1)

theorem allCoords_setCell (m : Grid) (r c : Nat) (ch : Char) :
    allCoords (setCell m r c ch) = allCoords m := by
  unfold allCoords
  rw [length_setCell]
  congr 1
  funext a
  rw [rowLen_setCell]

/-!  ### Wrap-around arithmetic  -/

theorem USIZE_pos : 0 < USIZE := by unfold USIZE; positivity

theorem wrapAdd_zero (a : Nat) (h : a < USIZE) : wrapAdd a 0 = a := by
  unfold wrapAdd
  rw [Nat.add_zero]
  exact Nat.mod_eq_of_lt h

theorem wrapAdd_one (a : Nat) (h : a + 1 < USIZE) : wrapAdd a 1 = a + 1 := by
  unfold wrapAdd
  exact Nat.mod_eq_of_lt h

theorem wrapAdd_up (a : Nat) (h0 : 0 < a) (h : a < USIZE) :
    wrapAdd a (USIZE - 1) = a - 1 := by
  unfold wrapAdd
  have h1 : a + (USIZE - 1) = USIZE + (a - 1) := by
    have := USIZE_pos
    omega
  rw [h1, Nat.add_mod_left]
  exact Nat.mod_eq_of_lt (by omega)

theorem wrapAdd_up_zero : wrapAdd 0 (USIZE - 1) = USIZE - 1 := by
  unfold wrapAdd
  have := USIZE_pos
  rw [Nat.zero_add]
  exact Nat.mod_eq_of_lt (by omega)

/-!  ### Machine-size grids, in-bounds coordinates, adjacency  -/

/-- Bounds true of any real `Vec`-backed grid: every dimension is
below `2 ^ 64`. -/
def sized (m : Grid) : Prop :=
  m.length < USIZE ∧ ∀ row ∈ m, row.length < USIZE

instance (m : Grid) : Decidable (sized m) := by
  unfold sized; infer_instance

theorem sized_rowLen (m : Grid) (h : sized m) (r : Nat) :
    rowLen m r < USIZE := by
  by_cases hr : r < m.length
  · have : rowAt m r ∈ m := by
      unfold rowAt
      rw [List.getD_eq_getElem?_getD, List.getElem?_eq_getElem hr]
      exact List.getElem_mem hr
    exact h.2 _ this
  · have : rowAt m r = [] := by
      unfold rowAt
      rw [List.getD_eq_getElem?_getD, List.getElem?_eq_none (Nat.le_of_not_lt hr)]
      rfl
    unfold rowLen
    rw [this]
    exact USIZE_pos

/-- In-bounds grid index. -/
def inBounds (m : Grid) (rc : Coord) : Prop :=
  rc.1 < m.length ∧ rc.2 < rowLen m rc.1

instance (m : Grid) (rc : Coord) : Decidable (inBounds m rc) := by
  unfold inBounds; infer_instance

theorem passable_iff (m : Grid) (rc : Coord) :
    passable m rc = true ↔
      inBounds m rc ∧ getCell m rc.1 rc.2 ≠ WALL := by
  unfold passable inBounds
  rw [decide_eq_true_iff]
  tauto

/-- 4-adjacency of grid coordinates. -/
def adjacent (a b : Coord) : Prop :=
  (a.1 = b.1 ∧ (a.2 + 1 = b.2 ∨ b.2 + 1 = a.2)) ∨
  (a.2 = b.2 ∧ (a.1 + 1 = b.1 ∨ b.1 + 1 = a.1))

instance (a b : Coord) : Decidable (adjacent a b) := by
  unfold adjacent; infer_instance

theorem adjacent_ne {a b : Coord} (h : adjacent a b) : a ≠ b := by
  rcases h with ⟨h1, h2⟩ | ⟨h1, h2⟩ <;>
    (intro hab; cases hab; omega)

/-- On a sized grid, the wrapped neighbor list of an in-bounds cell
contains exactly the in-bounds 4-adjacent coordinates: in particular
the wrap-around of row or column `0` is rejected by the bounds
checks. -/
theorem mem_neighborCoords_iff (m : Grid) (hs : sized m) (rc : Coord)
    (hin : inBounds m rc) (n : Coord) (hnb : inBounds m n) :
    n ∈ neighborCoords rc.1 rc.2 ↔ adjacent rc n := by
  obtain ⟨hr, hc⟩ := hin
  have hlenU : m.length < USIZE := hs.1
  have hrowU : rowLen m rc.1 < USIZE := sized_rowLen m hs rc.1
  have hnU : rowLen m n.1 < USIZE := sized_rowLen m hs n.1
  have hrU : rc.1 < USIZE := Nat.lt_trans hr hlenU
  have hcU : rc.2 < USIZE := Nat.lt_trans hc hrowU
  have hnrU : n.1 < m.length := hnb.1
  have hncU : n.2 < rowLen m n.1 := hnb.2
  simp only [neighborCoords, DIRECTIONS, List.map_cons, List.map_nil,
    List.mem_cons, List.not_mem_nil, or_false]
  constructor
  · rintro (h | h | h | h)
    · -- up
      rcases Nat.eq_zero_or_pos rc.1 with h0 | h0
      · exfalso
        rw [h0] at h
        rw [wrapAdd_up_zero] at h
        have : n.1 = USIZE - 1 := by rw [h]
        omega
      · rw [wrapAdd_up rc.1 h0 hrU, wrapAdd_zero rc.2 hcU] at h
        right
        rw [h]
        exact ⟨rfl, Or.inr (by omega)⟩
    · -- left
      rcases Nat.eq_zero_or_pos rc.2 with h0 | h0
      · exfalso
        rw [h0] at h
        rw [wrapAdd_up_zero, wrapAdd_zero rc.1 hrU] at h
        have h2 : n.2 = USIZE - 1 := by rw [h]
        omega
      · rw [wrapAdd_up rc.2 h0 hcU, wrapAdd_zero rc.1 hrU] at h
        left
        rw [h]
        exact ⟨rfl, Or.inr (by omega)⟩
    · -- down
      rw [wrapAdd_one rc.1 (by omega), wrapAdd_zero rc.2 hcU] at h
      right
      rw [h]
      exact ⟨rfl, Or.inl rfl⟩
    · -- right
      rw [wrapAdd_zero rc.1 hrU, wrapAdd_one rc.2 (by omega)] at h
      left
      rw [h]
      exact ⟨rfl, Or.inl rfl⟩
  · rintro (⟨h1, h2 | h2⟩ | ⟨h1, h2 | h2⟩)
    · -- right: n = (rc.1, rc.2 + 1)
      refine Or.inr (Or.inr (Or.inr ?_))
      rw [wrapAdd_zero rc.1 hrU, wrapAdd_one rc.2 (by omega)]
      rw [Prod.ext_iff]
      exact ⟨by omega, by omega⟩
    · -- left: n.2 + 1 = rc.2
      refine Or.inr (Or.inl ?_)
      rw [wrapAdd_zero rc.1 hrU, wrapAdd_up rc.2 (by omega) hcU]
      rw [Prod.ext_iff]
      exact ⟨by omega, by omega⟩
    · -- down: n = (rc.1 + 1, rc.2)
      refine Or.inr (Or.inr (Or.inl ?_))
      rw [wrapAdd_one rc.1 (by omega), wrapAdd_zero rc.2 hcU]
      rw [Prod.ext_iff]
      exact ⟨by omega, by omega⟩
    · -- up: n.1 + 1 = rc.1
      refine Or.inl ?_
      rw [wrapAdd_up rc.1 (by omega) hrU, wrapAdd_zero rc.2 hcU]
      rw [Prod.ext_iff]
      exact ⟨by omega, by omega⟩

/-!  ### Skeleton equivalence  -/

/-- Two grids with the same shape whose cells agree on the wall,
End and Start classifications.  All in-search mutations (the `'@'`
markings) preserve the skeleton, and all branching decisions of the
searches are skeleton functions. -/
def skelEq (m m' : Grid) : Prop :=
  m.length = m'.length ∧ (∀ r, rowLen m r = rowLen m' r) ∧
  ∀ r c, ((getCell m r c = WALL) ↔ (getCell m' r c = WALL)) ∧
         ((getCell m r c = ENDC) ↔ (getCell m' r c = ENDC)) ∧
         ((getCell m r c = START) ↔ (getCell m' r c = START))

theorem skelEq_refl (m : Grid) : skelEq m m :=
  ⟨rfl, fun _ => rfl, fun _ _ => ⟨Iff.rfl, Iff.rfl, Iff.rfl⟩⟩

theorem skelEq_trans {m1 m2 m3 : Grid} (h1 : skelEq m1 m2)
    (h2 : skelEq m2 m3) : skelEq m1 m3 := by
  refine ⟨h1.1.trans h2.1, fun r => (h1.2.1 r).trans (h2.2.1 r), fun r c => ?_⟩
  obtain ⟨a1, b1, c1⟩ := h1.2.2 r c
  obtain ⟨a2, b2, c2⟩ := h2.2.2 r c
  exact ⟨a1.trans a2, b1.trans b2, c1.trans c2⟩

theorem skelEq_symm {m1 m2 : Grid} (h : skelEq m1 m2) : skelEq m2 m1 := by
  refine ⟨h.1.symm, fun r => (h.2.1 r).symm, fun r c => ?_⟩
  obtain ⟨a, b, c'⟩ := h.2.2 r c
  exact ⟨a.symm, b.symm, c'.symm⟩

theorem passable_of_skelEq {m m' : Grid} (h : skelEq m m') (rc : Coord) :
    passable m rc = passable m' rc := by
  unfold passable
  rw [decide_eq_decide]
  rw [h.1, h.2.1 rc.1]
  constructor
  · rintro ⟨a, b, c'⟩
    exact ⟨a, b, fun hw => c' ((h.2.2 rc.1 rc.2).1.mpr hw)⟩
  · rintro ⟨a, b, c'⟩
    exact ⟨a, b, fun hw => c' ((h.2.2 rc.1 rc.2).1.mp hw)⟩

theorem endCell_of_skelEq {m m' : Grid} (h : skelEq m m') (r c : Nat) :
    (getCell m r c = ENDC) ↔ (getCell m' r c = ENDC) :=
  (h.2.2 r c).2.1

theorem startCell_of_skelEq {m m' : Grid} (h : skelEq m m') (r c : Nat) :
    (getCell m r c = START) ↔ (getCell m' r c = START) :=
  (h.2.2 r c).2.2

theorem allCoords_of_skelEq {m m' : Grid} (h : skelEq m m') :
    allCoords m = allCoords m' := by
  unfold allCoords
  rw [h.1]
  congr 1
  funext r
  rw [h.2.1 r]

/-- Writing a non-special character over a non-special cell preserves
the skeleton. -/
theorem skelEq_setCell (m : Grid) (r c : Nat) (ch : Char)
    (hold : getCell m r c ≠ WALL ∧ getCell m r c ≠ ENDC ∧
      getCell m r c ≠ START)
    (hnew : ch ≠ WALL ∧ ch ≠ ENDC ∧ ch ≠ START) :
    skelEq m (setCell m r c ch) := by
  refine ⟨(length_setCell m r c ch).symm,
    fun r' => (rowLen_setCell m r c ch r').symm, fun r' c' => ?_⟩
  by_cases hsame : r' = r ∧ c' = c
  · obtain ⟨rfl, rfl⟩ := hsame
    by_cases hb : r' < m.length ∧ c' < rowLen m r'
    · rw [getCell_set_self m r' c' ch hb.1 hb.2]
      exact ⟨by tauto, by tauto, by tauto⟩
    · have : getCell (setCell m r' c' ch) r' c' = getCell m r' c' := by
        by_cases hr : r' < m.length
        · have hc : rowLen m r' ≤ c' := by
            rcases Nat.lt_or_ge c' (rowLen m r') with h | h
            · exact absurd ⟨hr, h⟩ hb
            · exact h
          have hle : (rowAt m r').length ≤ c' := by
            simpa [rowLen] using hc
          unfold setCell
          rw [List.set_eq_of_length_le hle]
          unfold getCell rowAt
          simp only [List.getD_eq_getElem?_getD, List.getElem?_set_self hr,
            Option.getD_some]
        · unfold setCell
          rw [List.set_eq_of_length_le (Nat.le_of_not_lt hr)]
      rw [this]
      exact ⟨Iff.rfl, Iff.rfl, Iff.rfl⟩
  · rw [getCell_set_ne m r c ch r' c' hsame]
    exact ⟨Iff.rfl, Iff.rfl, Iff.rfl⟩

/-!  ### Trails, balls and reachability  -/

/-- A walk through the grid: each listed cell is 4-adjacent to its
predecessor and passable (in bounds and not a wall).  The origin
itself is not required to be passable, matching the searches, which
never test the start cell against the wall filter. -/
def isTrail (m : Grid) : Coord → List Coord → Prop
  | _, [] => True
  | a, b :: rest => adjacent a b ∧ passable m b = true ∧ isTrail m b rest

instance : ∀ (m : Grid) (a : Coord) (l : List Coord),
    Decidable (isTrail m a l)
  | _, _, [] => by unfold isTrail; infer_instance
  | m, a, b :: rest =>
    have := instDecidableIsTrail m b rest
    by unfold isTrail; infer_instance

/-- The final cell of a walk (its origin if the walk is empty). -/
def trailEnd (s : Coord) (l : List Coord) : Coord := l.getLastD s

theorem isTrail_append_one (m : Grid) (s : Coord) (l : List Coord)
    (t : Coord) :
    isTrail m s (l ++ [t]) ↔
      isTrail m s l ∧ adjacent (trailEnd s l) t ∧ passable m t = true := by
  induction l generalizing s with
  | nil => simp [isTrail, trailEnd, and_comm]
  | cons b rest ih =>
    rw [List.cons_append]
    show (adjacent s b ∧ passable m b = true ∧ isTrail m b (rest ++ [t])) ↔
      (adjacent s b ∧ passable m b = true ∧ isTrail m b rest) ∧
        adjacent (trailEnd s (b :: rest)) t ∧ passable m t = true
    rw [ih b]
    have hLast : trailEnd s (b :: rest) = trailEnd b rest := by
      cases rest <;> simp [trailEnd, List.getLastD]
    rw [hLast]
    tauto

theorem trailEnd_append_one (s : Coord) (l : List Coord) (t : Coord) :
    trailEnd s (l ++ [t]) = t := by
  simp [trailEnd, List.getLastD_concat]

theorem isTrail_mem_passable (m : Grid) :
    ∀ (a : Coord) (l : List Coord), isTrail m a l →
      ∀ x ∈ l, passable m x = true := by
  intro a l
  induction l generalizing a with
  | nil => intro _ x hx; cases hx
  | cons b rest ihl =>
    intro htr x hx
    rcases List.mem_cons.mp hx with h | h
    · rw [h]; exact htr.2.1
    · exact ihl b htr.2.2 x h

/-- Passable neighbors, i.e. the cells a search will consider from a
given cell. -/
def nbrFilter (m : Grid) (rc : Coord) : List Coord :=
  (neighborCoords rc.1 rc.2).filter (passable m)

theorem mem_nbrFilter (m : Grid) (rc n : Coord) :
    n ∈ nbrFilter m rc ↔
      n ∈ neighborCoords rc.1 rc.2 ∧ passable m n = true := by
  simp [nbrFilter, List.mem_filter]

theorem mem_nbrFilter_adj (m : Grid) (hs : sized m) (rc : Coord)
    (hin : inBounds m rc) (n : Coord) :
    n ∈ nbrFilter m rc ↔ adjacent rc n ∧ passable m n = true := by
  rw [mem_nbrFilter]
  constructor
  · rintro ⟨h1, h2⟩
    have hnb : inBounds m n := ((passable_iff m n).mp h2).1
    exact ⟨(mem_neighborCoords_iff m hs rc hin n hnb).mp h1, h2⟩
  · rintro ⟨h1, h2⟩
    have hnb : inBounds m n := ((passable_iff m n).mp h2).1
    exact ⟨(mem_neighborCoords_iff m hs rc hin n hnb).mpr h1, h2⟩

/-- One breadth step: a set together with all passable neighbors of
its members. -/
def expandS (m : Grid) (S : Finset Coord) : Finset Coord :=
  S ∪ S.biUnion (fun rc => (nbrFilter m rc).toFinset)

theorem subset_expandS (m : Grid) (S : Finset Coord) : S ⊆ expandS m S :=
  Finset.subset_union_left

theorem mem_expandS (m : Grid) (S : Finset Coord) (rc : Coord) :
    rc ∈ expandS m S ↔ rc ∈ S ∨ ∃ z ∈ S, rc ∈ nbrFilter m z := by
  simp [expandS]

theorem expandS_mono (m : Grid) {S T : Finset Coord} (h : S ⊆ T) :
    expandS m S ⊆ expandS m T := by
  intro rc hrc
  rw [mem_expandS] at hrc ⊢
  rcases hrc with h1 | ⟨z, hz, hn⟩
  · exact Or.inl (h h1)
  · exact Or.inr ⟨z, h hz, hn⟩

/-- Cells reachable from `s` by a walk of at most `n` steps. -/
def ball (m : Grid) (s : Coord) : Nat → Finset Coord
  | 0 => {s}
  | n + 1 => expandS m (ball m s n)

theorem ball_mono_succ (m : Grid) (s : Coord) (n : Nat) :
    ball m s n ⊆ ball m s (n + 1) := subset_expandS m _

theorem ball_mono (m : Grid) (s : Coord) {n n' : Nat} (h : n ≤ n') :
    ball m s n ⊆ ball m s n' := by
  induction h with
  | refl => exact fun _ h => h
  | step _ ih => exact fun x hx => ball_mono_succ m s _ (ih hx)

theorem self_mem_ball (m : Grid) (s : Coord) (n : Nat) : s ∈ ball m s n :=
  ball_mono m s (Nat.zero_le n) (by simp [ball])

theorem ball_passable (m : Grid) (s : Coord) :
    ∀ n, ∀ rc ∈ ball m s n, rc = s ∨ passable m rc = true := by
  intro n
  induction n with
  | zero => intro rc h; simp [ball] at h; exact Or.inl h
  | succ n ih =>
    intro rc h
    rw [ball, mem_expandS] at h
    rcases h with h | ⟨z, _, hn⟩
    · exact ih rc h
    · exact Or.inr ((mem_nbrFilter m z rc).mp hn).2

theorem ball_subset_allCoords (m : Grid) (s : Coord)
    (hin : inBounds m s) (n : Nat) : ball m s n ⊆ allCoords m := by
  intro rc hrc
  rw [mem_allCoords]
  rcases ball_passable m s n rc hrc with h | h
  · rw [h]; exact hin
  · exact ((passable_iff m rc).mp h).1

theorem trail_mem_ball (m : Grid) (hs : sized m) (s : Coord)
    (hin : inBounds m s) (l : List Coord) (h : isTrail m s l) :
    trailEnd s l ∈ ball m s l.length := by
  induction l using List.reverseRecOn with
  | nil => simp [trailEnd, ball]
  | append_singleton l t ih =>
    rw [isTrail_append_one] at h
    obtain ⟨h1, h2, h3⟩ := h
    have hend := ih h1
    rw [trailEnd_append_one]
    have hendIn : inBounds m (trailEnd s l) := by
      rcases ball_passable m s l.length _ hend with he | he
      · rw [he]; exact hin
      · exact ((passable_iff m _).mp he).1
    have : t ∈ nbrFilter m (trailEnd s l) :=
      (mem_nbrFilter_adj m hs _ hendIn t).mpr ⟨h2, h3⟩
    have hlen : (l ++ [t]).length = l.length + 1 := by simp
    rw [hlen, ball, mem_expandS]
    exact Or.inr ⟨trailEnd s l, hend, this⟩

theorem ball_to_trail (m : Grid) (hs : sized m) (s : Coord)
    (hin : inBounds m s) :
    ∀ n, ∀ rc ∈ ball m s n, ∃ l, isTrail m s l ∧ trailEnd s l = rc ∧
      l.length ≤ n := by
  intro n
  induction n with
  | zero =>
    intro rc h
    simp only [ball, Finset.mem_singleton] at h
    exact ⟨[], trivial, by simp [trailEnd, h], by simp⟩
  | succ n ih =>
    intro rc h
    rw [ball, mem_expandS] at h
    rcases h with h | ⟨z, hz, hn⟩
    · obtain ⟨l, h1, h2, h3⟩ := ih rc h
      exact ⟨l, h1, h2, Nat.le_succ_of_le h3⟩
    · obtain ⟨l, h1, h2, h3⟩ := ih z hz
      have hzIn : inBounds m z := by
        rcases ball_passable m s n z hz with he | he
        · rw [he]; exact hin
        · exact ((passable_iff m z).mp he).1
      rw [mem_nbrFilter_adj m hs z hzIn rc] at hn
      refine ⟨l ++ [rc], ?_, trailEnd_append_one s l rc, ?_⟩
      · rw [isTrail_append_one]
        exact ⟨h1, h2 ▸ hn.1, hn.2⟩
      · rw [List.length_append]
        simpa using h3

/-- Iteration bound after which the reachable set has saturated. -/
def reachBound (m : Grid) : Nat := totalCells m + 2

theorem ball_stab_exists (m : Grid) (s : Coord) (hin : inBounds m s) :
    ∃ k < reachBound m, ball m s (k + 1) = ball m s k := by
  by_contra hcon
  push_neg at hcon
  have grow : ∀ n, n ≤ reachBound m → n + 1 ≤ (ball m s n).card := by
    intro n
    induction n with
    | zero => intro _; simp [ball]
    | succ n ih =>
      intro hle
      have h1 : n + 1 ≤ (ball m s n).card := ih (by omega)
      have h2 : ball m s n ⊂ ball m s (n + 1) :=
        HasSubset.Subset.ssubset_of_ne (ball_mono_succ m s n)
          (Ne.symm (hcon n (by omega)))
      have := Finset.card_lt_card h2
      omega
  have h1 : reachBound m + 1 ≤ (ball m s (reachBound m)).card :=
    grow _ (Nat.le_refl _)
  have h2 : (ball m s (reachBound m)).card ≤ totalCells m := by
    rw [← card_allCoords]
    exact Finset.card_le_card (ball_subset_allCoords m s hin _)
  rw [reachBound] at h1 h2
  omega

theorem ball_absorb (m : Grid) (s : Coord) (hin : inBounds m s) (k : Nat) :
    ball m s k ⊆ ball m s (reachBound m) := by
  obtain ⟨k0, hk0, hstab⟩ := ball_stab_exists m s hin
  have hconst : ∀ j, ball m s (k0 + j) = ball m s k0 := by
    intro j
    induction j with
    | zero => rfl
    | succ j ih =>
      have : k0 + (j + 1) = (k0 + j) + 1 := by omega
      rw [this, ball, ih, ← ball, hstab]
  rcases Nat.le_total k (reachBound m) with h | h
  · exact ball_mono m s h
  · have : ball m s k = ball m s k0 := by
      have hk : k = k0 + (k - k0) := by omega
      rw [hk, hconst]
    rw [this]
    exact ball_mono m s (by omega)

/-- Some cell holding the End marker is reachable from `s` (decidably,
via the saturated ball). -/
def reachesEnd (m : Grid) (s : Coord) : Prop :=
  ∃ rc ∈ ball m s (reachBound m), getCell m rc.1 rc.2 = ENDC

instance (m : Grid) (s : Coord) : Decidable (reachesEnd m s) := by
  unfold reachesEnd; infer_instance

theorem reachesEnd_iff_trail (m : Grid) (hs : sized m) (s : Coord)
    (hin : inBounds m s) :
    reachesEnd m s ↔ ∃ l, isTrail m s l ∧
      getCell m (trailEnd s l).1 (trailEnd s l).2 = ENDC := by
  constructor
  · rintro ⟨rc, hrc, hend⟩
    obtain ⟨l, h1, h2, _⟩ := ball_to_trail m hs s hin _ rc hrc
    exact ⟨l, h1, by rw [h2]; exact hend⟩
  · rintro ⟨l, h1, h2⟩
    have := trail_mem_ball m hs s hin l h1
    exact ⟨trailEnd s l, ball_absorb m s hin _ this, h2⟩

/-!  ### Frontier selectors  -/

/-- What the loop proofs need of a frontier discipline: popping fails
exactly on the empty frontier and otherwise splits it into a member
and the rest. -/
def SelSpec (sel : List Entry → Option (Entry × List Entry)) : Prop :=
  (∀ fr, sel fr = none ↔ fr = []) ∧
  (∀ fr e rest, sel fr = some (e, rest) → List.Perm fr (e :: rest))

theorem fifoSel_spec : SelSpec fifoSel := by
  constructor
  · intro fr
    cases fr <;> simp [fifoSel]
  · intro fr e rest h
    cases fr with
    | nil => cases h
    | cons x xs =>
      simp only [fifoSel] at h
      cases h
      exact List.Perm.refl _

/-- Helper: the `none` case of `popMax` (used inside its own
specification proof). -/
theorem popMax_noneCase (key : Entry → Nat) :
    ∀ fr, popMax key fr = none ↔ fr = [] := by
  intro fr
  induction fr with
  | nil => simp [popMax]
  | cons e rest ih =>
    simp only [popMax]
    cases h : popMax key rest with
    | none => simp
    | some p =>
      cases p with
      | mk mx others => by_cases hlt : entryLt key e mx <;> simp [hlt]

theorem popMax_spec (key : Entry → Nat) : SelSpec (popMax key) := by
  constructor
  · intro fr
    induction fr with
    | nil => simp [popMax]
    | cons e rest ih =>
      simp only [popMax]
      cases h : popMax key rest with
      | none => simp
      | some p =>
        cases p with
        | mk mx others => by_cases hlt : entryLt key e mx <;> simp [hlt]
  · intro fr
    induction fr with
    | nil => intro e rest h; cases h
    | cons x xs ih =>
      intro e rest h
      cases hx : popMax key xs with
      | none =>
        have hxs : xs = [] := (popMax_noneCase key xs).mp hx
        subst hxs
        simp only [popMax] at h
        cases h
        exact List.Perm.refl _
      | some p =>
        cases p with
        | mk mx others =>
          simp only [popMax, hx] at h
          by_cases hlt : entryLt key x mx
          · rw [if_pos hlt] at h
            have hinj := Option.some.inj h
            have h1 : e = mx := (congrArg Prod.fst hinj).symm
            have h2 : rest = x :: others := (congrArg Prod.snd hinj).symm
            subst h1
            subst h2
            exact ((ih e others hx).cons x).trans (List.Perm.swap _ _ _)
          · rw [if_neg hlt] at h
            have hinj := Option.some.inj h
            have h1 : e = x := (congrArg Prod.fst hinj).symm
            have h2 : rest = xs := (congrArg Prod.snd hinj).symm
            subst h1
            subst h2
            exact List.Perm.refl _

/-!  ### Enqueue lemmas  -/

theorem enqueueAll_vis_mono (m : Grid) (path : List Coord) :
    ∀ (nbrs : List Coord) (fr : List Entry) (vis : Finset Coord),
      vis ⊆ (enqueueAll m path nbrs fr vis).2 := by
  intro nbrs
  induction nbrs with
  | nil => intro fr vis; simp [enqueueAll]
  | cons rc rest ih =>
    intro fr vis
    simp only [enqueueAll]
    by_cases hp : passable m rc
    · rw [if_pos hp]
      by_cases hv : rc ∈ vis
      · rw [if_pos hv]; exact ih fr vis
      · rw [if_neg hv]
        exact fun x hx => ih _ _ (Finset.mem_insert_of_mem hx)
    · rw [if_neg hp]; exact ih fr vis

theorem enqueueAll_vis_sub (m : Grid) (path : List Coord) :
    ∀ (nbrs : List Coord) (fr : List Entry) (vis : Finset Coord),
      ∀ x ∈ (enqueueAll m path nbrs fr vis).2,
        x ∈ vis ∨ (x ∈ nbrs ∧ passable m x = true) := by
  intro nbrs
  induction nbrs with
  | nil => intro fr vis x hx; exact Or.inl hx
  | cons rc rest ih =>
    intro fr vis x hx
    simp only [enqueueAll] at hx
    by_cases hp : passable m rc
    · rw [if_pos hp] at hx
      by_cases hv : rc ∈ vis
      · rw [if_pos hv] at hx
        rcases ih fr vis x hx with h | ⟨h1, h2⟩
        · exact Or.inl h
        · exact Or.inr ⟨List.mem_cons_of_mem _ h1, h2⟩
      · rw [if_neg hv] at hx
        rcases ih _ _ x hx with h | ⟨h1, h2⟩
        · rcases Finset.mem_insert.mp h with h' | h'
          · exact Or.inr ⟨h' ▸ List.mem_cons_self _ _, h' ▸ hp⟩
          · exact Or.inl h'
        · exact Or.inr ⟨List.mem_cons_of_mem _ h1, h2⟩
    · rw [if_neg hp] at hx
      rcases ih fr vis x hx with h | ⟨h1, h2⟩
      · exact Or.inl h
      · exact Or.inr ⟨List.mem_cons_of_mem _ h1, h2⟩

theorem enqueueAll_vis_covers (m : Grid) (path : List Coord) :
    ∀ (nbrs : List Coord) (fr : List Entry) (vis : Finset Coord),
      ∀ n ∈ nbrs, passable m n = true →
        n ∈ (enqueueAll m path nbrs fr vis).2 := by
  intro nbrs
  induction nbrs with
  | nil => intro fr vis n hn; cases hn
  | cons rc rest ih =>
    intro fr vis n hn hp
    rcases List.mem_cons.mp hn with h | h
    · subst h
      simp only [enqueueAll, if_pos hp]
      by_cases hv : n ∈ vis
      · rw [if_pos hv]
        exact enqueueAll_vis_mono m path rest fr vis hv
      · rw [if_neg hv]
        exact enqueueAll_vis_mono m path rest _ _ (Finset.mem_insert_self _ _)
    · simp only [enqueueAll]
      by_cases hp' : passable m rc
      · rw [if_pos hp']
        by_cases hv : rc ∈ vis
        · rw [if_pos hv]; exact ih fr vis n h hp
        · rw [if_neg hv]; exact ih _ _ n h hp
      · rw [if_neg hp']; exact ih fr vis n h hp

theorem enqueueAll_fr (m : Grid) (path : List Coord) :
    ∀ (nbrs : List Coord) (fr : List Entry) (vis : Finset Coord),
      ∃ ext, (enqueueAll m path nbrs fr vis).1 = fr ++ ext ∧
        ∀ e ∈ ext, e.2 = path ∧ e.1 ∈ nbrs ∧ passable m e.1 = true ∧
          e.1 ∉ vis ∧ e.1 ∈ (enqueueAll m path nbrs fr vis).2 := by
  intro nbrs
  induction nbrs with
  | nil => intro fr vis; exact ⟨[], by simp [enqueueAll], by simp⟩
  | cons rc rest ih =>
    intro fr vis
    by_cases hp : passable m rc
    · by_cases hv : rc ∈ vis
      · simp only [enqueueAll, if_pos hp, if_pos hv]
        obtain ⟨ext, h1, h2⟩ := ih fr vis
        refine ⟨ext, h1, fun e he => ?_⟩
        obtain ⟨a, b, c, d, f⟩ := h2 e he
        exact ⟨a, List.mem_cons_of_mem _ b, c, d, f⟩
      · simp only [enqueueAll, if_pos hp, if_neg hv]
        obtain ⟨ext, h1, h2⟩ := ih (fr ++ [(rc, path)]) (insert rc vis)
        refine ⟨(rc, path) :: ext, by rw [h1]; simp, fun e he => ?_⟩
        rcases List.mem_cons.mp he with h | h
        · subst h
          refine ⟨rfl, List.mem_cons_self _ _, hp, hv, ?_⟩
          exact enqueueAll_vis_mono m path rest _ _ (Finset.mem_insert_self _ _)
        · obtain ⟨a, b, c, d, f⟩ := h2 e h
          exact ⟨a, List.mem_cons_of_mem _ b, c,
            fun hin => d (Finset.mem_insert_of_mem hin), f⟩
    · simp only [enqueueAll, if_neg hp]
      obtain ⟨ext, h1, h2⟩ := ih fr vis
      refine ⟨ext, h1, fun e he => ?_⟩
      obtain ⟨a, b, c, d, f⟩ := h2 e he
      exact ⟨a, List.mem_cons_of_mem _ b, c, d, f⟩

theorem enqueueAll_count (m : Grid) (path : List Coord) :
    ∀ (nbrs : List Coord) (fr : List Entry) (vis : Finset Coord),
      (enqueueAll m path nbrs fr vis).1.length + vis.card =
        fr.length + (enqueueAll m path nbrs fr vis).2.card := by
  intro nbrs
  induction nbrs with
  | nil => intro fr vis; simp [enqueueAll]
  | cons rc rest ih =>
    intro fr vis
    simp only [enqueueAll]
    by_cases hp : passable m rc
    · rw [if_pos hp]
      by_cases hv : rc ∈ vis
      · rw [if_pos hv]; exact ih fr vis
      · rw [if_neg hv]
        have := ih (fr ++ [(rc, path)]) (insert rc vis)
        rw [Finset.card_insert_of_not_mem hv] at this
        simp only [List.length_append, List.length_cons, List.length_nil] at this
        omega
    · rw [if_neg hp]; exact ih fr vis

theorem totalCells_eq_card (m : Grid) : totalCells m = (allCoords m).card :=
  (card_allCoords m).symm

theorem allCoords_congr {m m' : Grid} (h1 : m'.length = m.length)
    (h2 : ∀ r, rowLen m' r = rowLen m r) : allCoords m' = allCoords m := by
  unfold allCoords
  rw [h1]
  congr 1
  funext r
  rw [h2 r]

/-!  ### Termination of the loop searches  -/

theorem searchLoop_total (sel : List Entry → Option (Entry × List Entry))
    (hsel : SelSpec sel) (dv : Bool) :
    ∀ (fuel : Nat) (m : Grid) (fr : List Entry) (vis : Finset Coord),
      vis ⊆ allCoords m →
      4 * (totalCells m - vis.card) + fr.length + 1 ≤ fuel →
      (searchLoop sel dv fuel m fr vis).isSome := by
  intro fuel
  induction fuel with
  | zero => intro m fr vis _ hle; omega
  | succ fuel ih =>
    intro m fr vis hsub hle
    cases hs : sel fr with
    | none => simp [searchLoop, hs]
    | some p =>
      obtain ⟨e, rest⟩ := p
      by_cases hend : getCell m e.1.1 e.1.2 = ENDC
      · simp [searchLoop, hs, hend]
      · have hrest : fr.length = rest.length + 1 := by
          have hperm := hsel.2 fr e rest hs
          simpa using hperm.length_eq
        have key : ∀ (m1 : Grid), allCoords m1 = allCoords m →
            (searchLoop sel dv fuel m1
              (enqueueAll m1 (e.2 ++ [e.1])
                (neighborCoords e.1.1 e.1.2) rest vis).1
              (enqueueAll m1 (e.2 ++ [e.1])
                (neighborCoords e.1.1 e.1.2) rest vis).2).isSome := by
          intro m1 hAC
          have hT : totalCells m1 = totalCells m := by
            rw [totalCells_eq_card, totalCells_eq_card, hAC]
          have hsub1 : (enqueueAll m1 (e.2 ++ [e.1])
              (neighborCoords e.1.1 e.1.2) rest vis).2 ⊆ allCoords m1 := by
            intro x hx
            rcases enqueueAll_vis_sub m1 (e.2 ++ [e.1]) _ rest vis x hx with
              h | ⟨_, h2⟩
            · rw [hAC]; exact hsub h
            · rw [mem_allCoords]; exact ((passable_iff m1 x).mp h2).1
          apply ih m1 _ _ hsub1
          have hcount := enqueueAll_count m1 (e.2 ++ [e.1])
            (neighborCoords e.1.1 e.1.2) rest vis
          have hc1 : vis.card ≤ (enqueueAll m1 (e.2 ++ [e.1])
              (neighborCoords e.1.1 e.1.2) rest vis).2.card :=
            Finset.card_le_card (enqueueAll_vis_mono m1 _ _ rest vis)
          have hc2 : (enqueueAll m1 (e.2 ++ [e.1])
              (neighborCoords e.1.1 e.1.2) rest vis).2.card ≤ totalCells m1 := by
            rw [totalCells_eq_card]
            exact Finset.card_le_card hsub1
          omega
        by_cases hdv : dv ∧ getCell m e.1.1 e.1.2 ≠ START
        · simp only [searchLoop, hs, if_neg hend, if_pos hdv]
          exact key _ (allCoords_setCell m e.1.1 e.1.2 VISC)
        · simp only [searchLoop, hs, if_neg hend, if_neg hdv]
          exact key m rfl

theorem bfs_total (m : Grid) (start : Coord) (dv : Bool) :
    (bfs m start dv).isSome := by
  apply searchLoop_total fifoSel fifoSel_spec dv (searchFuel m) m _ ∅
  · simp
  · simp only [Finset.card_empty, searchFuel, List.length_cons,
      List.length_nil]
    omega

theorem gbfs_total (m : Grid) (start e0 : Coord) (dv : Bool) :
    (greedy_best_first_search m start e0 dv).isSome := by
  apply searchLoop_total _ (popMax_spec (keyGBFS e0)) dv (searchFuel m) m _ ∅
  · simp
  · simp only [Finset.card_empty, searchFuel, List.length_cons,
      List.length_nil]
    omega

theorem a_star_total (m : Grid) (start e0 : Coord) (dv : Bool) :
    (a_star m start e0 dv).isSome := by
  apply searchLoop_total _ (popMax_spec (keyAStar e0)) dv (searchFuel m) m _ ∅
  · simp
  · simp only [Finset.card_empty, searchFuel, List.length_cons,
      List.length_nil]
    omega

/-!  ### Basic postcondition of `dfs`  -/

theorem inBounds_of_skelEq {m m' : Grid} (h : skelEq m m') (x : Coord) :
    inBounds m x ↔ inBounds m' x := by
  unfold inBounds
  rw [h.1, h.2.1 x.1]

/-- What every `dfs` call guarantees about its final maze and visited
set: the skeleton is preserved, the visited set only grows and gains
only in-bounds cells, and cells already visited on entry are never
rewritten. -/
structure DfsStep (m : Grid) (vis : Finset Coord) (m' : Grid)
    (v' : Finset Coord) : Prop where
  skel : skelEq m m'
  mono : vis ⊆ v'
  sub : ∀ x ∈ v', x ∈ vis ∨ inBounds m x
  untouched : ∀ x ∈ vis, getCell m' x.1 x.2 = getCell m x.1 x.2

theorem DfsStep.rfl (m : Grid) (vis : Finset Coord) : DfsStep m vis m vis :=
  ⟨skelEq_refl m, fun _ h => h, fun _ h => Or.inl h, fun _ _ => Eq.refl _⟩

theorem DfsStep.trans {m : Grid} {vis : Finset Coord} {m1 : Grid}
    {v1 : Finset Coord} {m2 : Grid} {v2 : Finset Coord}
    (h1 : DfsStep m vis m1 v1) (h2 : DfsStep m1 v1 m2 v2) :
    DfsStep m vis m2 v2 := by
  refine ⟨skelEq_trans h1.skel h2.skel, fun x hx => h2.mono (h1.mono hx),
    fun x hx => ?_, fun x hx => ?_⟩
  · rcases h2.sub x hx with h | h
    · exact h1.sub x h
    · exact Or.inr ((inBounds_of_skelEq h1.skel x).mpr h)
  · rw [h2.untouched x (h1.mono hx), h1.untouched x hx]

/-- The in-progress marking together with the visited-set insertion is
a `DfsStep` (under the rejection-check facts of the frame). -/
theorem DfsStep.markStep (m : Grid) (vis : Finset Coord) (row col : Nat)
    (hb : inBounds m (row, col)) (hv : (row, col) ∉ vis)
    (hnw : getCell m row col ≠ WALL) (hne : getCell m row col ≠ ENDC) :
    DfsStep m vis (dfsMark m row col) (insert (row, col) vis) := by
  unfold dfsMark
  by_cases hA : getCell m row col = START
  · rw [if_pos hA]
    exact ⟨skelEq_refl m, fun x hx => Finset.mem_insert_of_mem hx,
      fun x hx => by
        rcases Finset.mem_insert.mp hx with h | h
        · exact Or.inr (h ▸ hb)
        · exact Or.inl h,
      fun _ _ => Eq.refl _⟩
  · rw [if_neg hA]
    refine ⟨skelEq_setCell m row col VISC ⟨hnw, hne, hA⟩
      (by unfold VISC WALL ENDC START; refine ⟨?_, ?_, ?_⟩ <;> decide),
      fun x hx => Finset.mem_insert_of_mem hx,
      fun x hx => ?_, fun x hx => ?_⟩
    · rcases Finset.mem_insert.mp hx with h | h
      · exact Or.inr (h ▸ hb)
      · exact Or.inl h
    · apply getCell_set_ne
      rintro ⟨h1, h2⟩
      apply hv
      have : x = (row, col) := Prod.ext h1 h2
      rw [← this] at *
      exact hx

/-- An out-of-bounds write leaves every cell's content unchanged. -/
theorem getCell_set_oob (m : Grid) (r c : Nat) (ch : Char)
    (hb : ¬ (r < m.length ∧ c < rowLen m r)) (r' c' : Nat) :
    getCell (setCell m r c ch) r' c' = getCell m r' c' := by
  by_cases hsame : r' = r ∧ c' = c
  · obtain ⟨rfl, rfl⟩ := hsame
    by_cases hr : r' < m.length
    · have hc : rowLen m r' ≤ c' := by
        rcases Nat.lt_or_ge c' (rowLen m r') with h | h
        · exact absurd ⟨hr, h⟩ hb
        · exact h
      have hle : (rowAt m r').length ≤ c' := by
        simpa [rowLen] using hc
      unfold setCell
      rw [List.set_eq_of_length_le hle]
      unfold getCell rowAt
      simp only [List.getD_eq_getElem?_getD, List.getElem?_set_self hr,
        Option.getD_some]
    · unfold setCell
      rw [List.set_eq_of_length_le (Nat.le_of_not_lt hr)]
  · exact getCell_set_ne m r c ch r' c' hsame

/-- After a write to a cell the content there is either the written
character or (out of bounds) the old one. -/
theorem getCell_set_self_or (m : Grid) (r c : Nat) (ch : Char) :
    getCell (setCell m r c ch) r c = ch ∨
      getCell (setCell m r c ch) r c = getCell m r c := by
  by_cases hb : r < m.length ∧ c < rowLen m r
  · exact Or.inl (getCell_set_self m r c ch hb.1 hb.2)
  · exact Or.inr (getCell_set_oob m r c ch hb r c)

/-- The frame post-processing preserves the skeleton and touches only
the frame's own cell (given that the cell carries the in-progress
marker or the Start marker, as it does after the recursion). -/
theorem dfsPost_step (dv res : Bool) (mz : Grid) (row col : Nat)
    (hA : getCell mz row col = VISC ∨ getCell mz row col = START) :
    skelEq mz (dfsPost dv res mz row col) ∧
    ∀ x : Coord, x ≠ (row, col) →
      getCell (dfsPost dv res mz row col) x.1 x.2 = getCell mz x.1 x.2 := by
  have hset : ∀ (g : Grid) (ch : Char) (x : Coord), x ≠ (row, col) →
      getCell (setCell g row col ch) x.1 x.2 = getCell g x.1 x.2 := by
    intro g ch x hx
    apply getCell_set_ne
    rintro ⟨h1, h2⟩
    exact hx (Prod.ext h1 h2)
  rcases hA with hA | hA
  · -- the cell carries the in-progress marker '@'
    have hnW : getCell mz row col ≠ WALL := by rw [hA]; decide
    have hnE : getCell mz row col ≠ ENDC := by rw [hA]; decide
    have hnS : getCell mz row col ≠ START := by rw [hA]; decide
    have hskelO : skelEq mz (setCell mz row col OPENC) :=
      skelEq_setCell mz row col OPENC ⟨hnW, hnE, hnS⟩
        (by refine ⟨?_, ?_, ?_⟩ <;> decide)
    unfold dfsPost
    by_cases hdv : ¬ dv ∧ getCell mz row col ≠ START
    · rw [if_pos hdv]
      have hc2 : getCell (setCell mz row col OPENC) row col = OPENC ∨
          getCell (setCell mz row col OPENC) row col = VISC := by
        rcases getCell_set_self_or mz row col OPENC with h | h
        · exact Or.inl h
        · exact Or.inr (h.trans hA)
      by_cases hres : res ∧ getCell (setCell mz row col OPENC) row col ≠ START
      · rw [if_pos hres]
        have hold : getCell (setCell mz row col OPENC) row col ≠ WALL ∧
            getCell (setCell mz row col OPENC) row col ≠ ENDC ∧
            getCell (setCell mz row col OPENC) row col ≠ START := by
          rcases hc2 with h | h <;> rw [h] <;>
            exact ⟨by decide, by decide, by decide⟩
        refine ⟨skelEq_trans hskelO
          (skelEq_setCell _ row col PATHC hold
            (by refine ⟨?_, ?_, ?_⟩ <;> decide)), fun x hx => ?_⟩
        rw [hset _ PATHC x hx, hset _ OPENC x hx]
      · rw [if_neg hres]
        exact ⟨hskelO, fun x hx => hset _ OPENC x hx⟩
    · rw [if_neg hdv]
      by_cases hres : res ∧ getCell mz row col ≠ START
      · rw [if_pos hres]
        refine ⟨skelEq_setCell mz row col PATHC ⟨hnW, hnE, hnS⟩
          (by refine ⟨?_, ?_, ?_⟩ <;> decide), fun x hx => hset _ PATHC x hx⟩
      · rw [if_neg hres]
        exact ⟨skelEq_refl mz, fun _ _ => Eq.refl _⟩
  · -- the cell carries the Start marker: nothing is written
    have h1 : ¬ (¬ dv ∧ getCell mz row col ≠ START) := by
      intro h; exact h.2 hA
    have h2 : ¬ (res ∧ getCell mz row col ≠ START) := by
      intro h; exact h.2 hA
    unfold dfsPost
    rw [if_neg h1, if_neg h2]
    exact ⟨skelEq_refl mz, fun _ _ => Eq.refl _⟩

theorem dfsReject_facts {m : Grid} {vis : Finset Coord} {row col : Nat}
    (h : ¬ dfsReject m vis row col) :
    row < m.length ∧ col < rowLen m row ∧ getCell m row col ≠ VISC ∧
      getCell m row col ≠ WALL ∧ (row, col) ∉ vis := by
  unfold dfsReject at h
  push_neg at h
  exact ⟨by omega, by omega, h.2.2.1, h.2.2.2.1, h.2.2.2.2⟩

theorem dfsMark_cell (m : Grid) (row col : Nat)
    (hb : row < m.length ∧ col < rowLen m row) :
    getCell (dfsMark m row col) row col = VISC ∨
      getCell (dfsMark m row col) row col = START := by
  unfold dfsMark
  by_cases hA : getCell m row col = START
  · rw [if_pos hA]; exact Or.inr hA
  · rw [if_neg hA]; exact Or.inl (getCell_set_self m row col VISC hb.1 hb.2)

/-- Every successful or failed `dfs` call is a `DfsStep`. -/
theorem dfs_basic (dv : Bool) :
    ∀ (fuel : Nat) (m : Grid) (row col : Nat) (vis : Finset Coord)
      (b : Bool) (m' : Grid) (v' : Finset Coord),
      dfs dv fuel m row col vis = some (b, m', v') → DfsStep m vis m' v' := by
  intro fuel
  induction fuel with
  | zero =>
    intro m row col vis b m' v' h
    simp only [dfs] at h
    exact Option.noConfusion h
  | succ fuel ih =>
    intro m row col vis b m' v' h
    simp only [dfs] at h
    by_cases hrej : dfsReject m vis row col
    · rw [if_pos hrej] at h
      have hinj := Option.some.inj h
      have hm : m' = m := (congrArg (fun t => t.2.1) hinj).symm
      have hv : v' = vis := (congrArg (fun t => t.2.2) hinj).symm
      rw [hm, hv]
      exact DfsStep.rfl m vis
    · rw [if_neg hrej] at h
      obtain ⟨hbr, hbc, hAt, hW, hV⟩ := dfsReject_facts hrej
      by_cases hend : getCell m row col = ENDC
      · rw [if_pos hend] at h
        have hinj := Option.some.inj h
        have hm : m' = m := (congrArg (fun t => t.2.1) hinj).symm
        have hv : v' = vis := (congrArg (fun t => t.2.2) hinj).symm
        rw [hm, hv]
        exact DfsStep.rfl m vis
      · rw [if_neg hend] at h
        have step0 : DfsStep m vis (dfsMark m row col)
            (insert (row, col) vis) :=
          DfsStep.markStep m vis row col ⟨hbr, hbc⟩ hV hW hend
        have finish : ∀ (res : Bool) (mz : Grid) (vz : Finset Coord),
            DfsStep (dfsMark m row col) (insert (row, col) vis) mz vz →
            some (res, dfsPost dv res mz row col, vz) = some (b, m', v') →
            DfsStep m vis m' v' := by
          intro res mz vz hchain heq
          have hinj := Option.some.inj heq
          have hm : m' = dfsPost dv res mz row col :=
            (congrArg (fun t => t.2.1) hinj).symm
          have hv : v' = vz := (congrArg (fun t => t.2.2) hinj).symm
          rw [hm, hv]
          have hcell : getCell mz row col = VISC ∨
              getCell mz row col = START := by
            have hmem : (row, col) ∈ insert (row, col) vis :=
              Finset.mem_insert_self _ _
            have hu := hchain.untouched (row, col) hmem
            rcases dfsMark_cell m row col ⟨hbr, hbc⟩ with hc | hc
            · exact Or.inl (hu.trans hc)
            · exact Or.inr (hu.trans hc)
          obtain ⟨hskelP, hotherP⟩ := dfsPost_step dv res mz row col hcell
          have hfull := step0.trans hchain
          refine ⟨skelEq_trans hfull.skel hskelP, hfull.mono,
            hfull.sub, fun x hx => ?_⟩
          have hxne : x ≠ (row, col) := by
            intro he
            rw [he] at hx
            exact hV hx
          rw [hotherP x hxne]
          exact hfull.untouched x hx
        cases h1 : dfs dv fuel (dfsMark m row col) (wrapAdd row (USIZE - 1))
            (wrapAdd col 0) (insert (row, col) vis) with
        | none => simp only [h1] at h; exact Option.noConfusion h
        | some t1 =>
          obtain ⟨b1, ma, va⟩ := t1
          have S1 := ih _ _ _ _ _ _ _ h1
          cases b1 with
          | true =>
            simp only [h1] at h
            exact finish true ma va S1 h
          | false =>
            simp only [h1] at h
            cases h2 : dfs dv fuel ma (wrapAdd row 0)
                (wrapAdd col (USIZE - 1)) va with
            | none => simp only [h2] at h; exact Option.noConfusion h
            | some t2 =>
              obtain ⟨b2, mb, vb⟩ := t2
              have S2 := S1.trans (ih _ _ _ _ _ _ _ h2)
              cases b2 with
              | true =>
                simp only [h2] at h
                exact finish true mb vb S2 h
              | false =>
                simp only [h2] at h
                cases h3 : dfs dv fuel mb (wrapAdd row 1)
                    (wrapAdd col 0) vb with
                | none => simp only [h3] at h; exact Option.noConfusion h
                | some t3 =>
                  obtain ⟨b3, mc, vc⟩ := t3
                  have S3 := S2.trans (ih _ _ _ _ _ _ _ h3)
                  cases b3 with
                  | true =>
                    simp only [h3] at h
                    exact finish true mc vc S3 h
                  | false =>
                    simp only [h3] at h
                    cases h4 : dfs dv fuel mc (wrapAdd row 0)
                        (wrapAdd col 1) vc with
                    | none => simp only [h4] at h; exact Option.noConfusion h
                    | some t4 =>
                      obtain ⟨b4, mz, vz⟩ := t4
                      have S4 := S3.trans (ih _ _ _ _ _ _ _ h4)
                      simp only [h4] at h
                      exact finish b4 mz vz S4 h

theorem allCoords_dfsMark (m : Grid) (row col : Nat) :
    allCoords (dfsMark m row col) = allCoords m := by
  unfold dfsMark
  by_cases hA : getCell m row col = START
  · rw [if_pos hA]
  · rw [if_neg hA]
    exact allCoords_setCell m row col VISC

/-- Fuel adequacy for `dfs`: one unit of fuel beyond the number of
yet-unvisited cells always suffices. -/
theorem dfs_total (dv : Bool) :
    ∀ (fuel : Nat) (m : Grid) (row col : Nat) (vis : Finset Coord),
      vis ⊆ allCoords m → totalCells m - vis.card + 1 ≤ fuel →
      (dfs dv fuel m row col vis).isSome := by
  intro fuel
  induction fuel with
  | zero => intro m row col vis _ hle; omega
  | succ fuel ih =>
    intro m row col vis hsub hle
    simp only [dfs]
    by_cases hrej : dfsReject m vis row col
    · rw [if_pos hrej]; simp
    · rw [if_neg hrej]
      obtain ⟨hbr, hbc, _, _, hV⟩ := dfsReject_facts hrej
      by_cases hend : getCell m row col = ENDC
      · rw [if_pos hend]; simp
      · rw [if_neg hend]
        have hmem : (row, col) ∈ allCoords m :=
          (mem_allCoords m _).mpr ⟨hbr, hbc⟩
        have hcard : vis.card < totalCells m := by
          rw [totalCells_eq_card]
          exact Finset.card_lt_card
            ((Finset.ssubset_iff_of_subset hsub).mpr ⟨(row, col), hmem, hV⟩)
        have hstep : ∀ (mz : Grid) (vz : Finset Coord) (r' c' : Nat),
            DfsStep (dfsMark m row col) (insert (row, col) vis) mz vz →
            (dfs dv fuel mz r' c' vz).isSome := by
          intro mz vz r' c' hch
          have hACz : allCoords mz = allCoords m := by
            have h1 : allCoords mz = allCoords (dfsMark m row col) :=
              allCoords_congr hch.skel.1.symm (fun r => (hch.skel.2.1 r).symm)
            rw [h1, allCoords_dfsMark]
          apply ih
          · intro x hx
            rcases hch.sub x hx with hx1 | hx2
            · rcases Finset.mem_insert.mp hx1 with hxe | hxv
              · rw [hACz, hxe]; exact hmem
              · rw [hACz]; exact hsub hxv
            · rw [hACz, mem_allCoords]
              have hMdims : inBounds (dfsMark m row col) x ↔ inBounds m x := by
                unfold inBounds dfsMark
                by_cases hA : getCell m row col = START
                · rw [if_pos hA]
                · rw [if_neg hA, length_setCell, rowLen_setCell]
              exact hMdims.mp hx2
          · have h5 : insert (row, col) vis ⊆ vz := hch.mono
            have h6 : vis.card + 1 ≤ vz.card := by
              rw [← Finset.card_insert_of_not_mem hV]
              exact Finset.card_le_card h5
            have h7 : totalCells mz = totalCells m := by
              rw [totalCells_eq_card, totalCells_eq_card, hACz]
            omega
        cases h1 : dfs dv fuel (dfsMark m row col) (wrapAdd row (USIZE - 1))
            (wrapAdd col 0) (insert (row, col) vis) with
        | none =>
          exfalso
          have := hstep _ _ (wrapAdd row (USIZE - 1)) (wrapAdd col 0)
            (DfsStep.rfl _ _)
          rw [h1] at this
          exact Bool.noConfusion this
        | some t1 =>
          obtain ⟨b1, ma, va⟩ := t1
          cases b1 with
          | true => simp [h1]
          | false =>
            have S1 := dfs_basic dv fuel _ _ _ _ _ _ _ h1
            cases h2 : dfs dv fuel ma (wrapAdd row 0)
                (wrapAdd col (USIZE - 1)) va with
            | none =>
              exfalso
              have := hstep _ _ (wrapAdd row 0) (wrapAdd col (USIZE - 1)) S1
              rw [h2] at this
              exact Bool.noConfusion this
            | some t2 =>
              obtain ⟨b2, mb, vb⟩ := t2
              cases b2 with
              | true => simp [h1, h2]
              | false =>
                have S2 := S1.trans (dfs_basic dv fuel _ _ _ _ _ _ _ h2)
                cases h3 : dfs dv fuel mb (wrapAdd row 1)
                    (wrapAdd col 0) vb with
                | none =>
                  exfalso
                  have := hstep _ _ (wrapAdd row 1) (wrapAdd col 0) S2
                  rw [h3] at this
                  exact Bool.noConfusion this
                | some t3 =>
                  obtain ⟨b3, mc, vc⟩ := t3
                  cases b3 with
                  | true => simp [h1, h2, h3]
                  | false =>
                    have S3 := S2.trans (dfs_basic dv fuel _ _ _ _ _ _ _ h3)
                    cases h4 : dfs dv fuel mc (wrapAdd row 0)
                        (wrapAdd col 1) vc with
                    | none =>
                      exfalso
                      have := hstep _ _ (wrapAdd row 0) (wrapAdd col 1) S3
                      rw [h4] at this
                      exact Bool.noConfusion this
                    | some t4 =>
                      obtain ⟨b4, mz, vz⟩ := t4
                      simp [h1, h2, h3, h4]

/-- `dfsRun` always returns. -/
theorem dfsRun_total (m : Grid) (start : Coord) (dv : Bool) :
    (dfsRun m start dv).isSome := by
  apply dfs_total dv (dfsFuel m) m start.1 start.2 ∅
  · simp
  · unfold dfsFuel
    simp only [Finset.card_empty]
    omega

/-- C9: on every validated grid each of the four searches terminates
with a boolean verdict — success or failure — and never diverges or
exhausts its (sufficient) fuel: there is no third outcome. -/
theorem claim9_termination (m : Grid) (s e0 : Coord) (dv : Bool)
    (hval : is_maze_valid m = .ok ()) (hs : get_start m = some s)
    (he : get_end m = some e0) :
    (∃ b m', bfs m s dv = some (b, m')) ∧
    (∃ b m', greedy_best_first_search m s e0 dv = some (b, m')) ∧
    (∃ b m', a_star m s e0 dv = some (b, m')) ∧
    (∃ b m' v', dfsRun m s dv = some (b, m', v')) := by
  refine ⟨?_, ?_, ?_, ?_⟩
  · obtain ⟨x, hx⟩ := Option.isSome_iff_exists.mp (bfs_total m s dv)
    exact ⟨x.1, x.2, by rw [hx]⟩
  · obtain ⟨x, hx⟩ := Option.isSome_iff_exists.mp (gbfs_total m s e0 dv)
    exact ⟨x.1, x.2, by rw [hx]⟩
  · obtain ⟨x, hx⟩ := Option.isSome_iff_exists.mp (a_star_total m s e0 dv)
    exact ⟨x.1, x.2, by rw [hx]⟩
  · obtain ⟨x, hx⟩ := Option.isSome_iff_exists.mp (dfsRun_total m s dv)
    exact ⟨x.1, x.2.1, x.2.2, by rw [hx]⟩

/-- Witness for C9 at a concrete validated grid. -/
theorem claim9_termination_w :
    is_maze_valid [['A', ' '], [' ', 'B']] = .ok () ∧
    ((∃ b m', bfs [['A', ' '], [' ', 'B']] (0, 0) false = some (b, m')) ∧
     (∃ b m', greedy_best_first_search [['A', ' '], [' ', 'B']] (0, 0) (1, 1)
        false = some (b, m')) ∧
     (∃ b m', a_star [['A', ' '], [' ', 'B']] (0, 0) (1, 1) false =
        some (b, m')) ∧
     (∃ b m' v', dfsRun [['A', ' '], [' ', 'B']] (0, 0) false =
        some (b, m', v'))) :=
  ⟨by decide, claim9_termination [['A', ' '], [' ', 'B']] (0, 0) (1, 1) false
    (by decide) (by decide) (by decide)⟩

/-!  ### Facts provided by validation  -/

theorem getCell_default (m : Grid) (r c : Nat)
    (h : ¬ (r < m.length ∧ c < rowLen m r)) : getCell m r c = '?' := by
  by_cases hr : r < m.length
  · have hc : rowLen m r ≤ c := by
      rcases Nat.lt_or_ge c (rowLen m r) with h' | h'
      · exact absurd ⟨hr, h'⟩ h
      · exact h'
    have hnone : (rowAt m r)[c]? = none :=
      List.getElem?_eq_none (by simpa [rowLen] using hc)
    unfold getCell
    rw [List.getD_eq_getElem?_getD, hnone]
    rfl
  · have hrow : rowAt m r = [] := by
      unfold rowAt
      rw [List.getD_eq_getElem?_getD,
        List.getElem?_eq_none (Nat.le_of_not_lt hr)]
      rfl
    unfold getCell
    rw [hrow]
    rfl

theorem rowAt_mem (m : Grid) (r : Nat) (hr : r < m.length) :
    rowAt m r ∈ m := by
  unfold rowAt
  rw [List.getD_eq_getElem?_getD, List.getElem?_eq_getElem hr]
  exact List.getElem_mem hr

/-- Extract `charsValid` from a successful validation (helper for the
above, independent of the C2 claim theorem). -/
theorem validator_chars {m : Grid} (hv : is_maze_valid m = .ok ()) :
    charsValid m := by
  unfold is_maze_valid at hv
  split_ifs at hv with h1 h2 h3 h4 h5
  exact (chars_all_iff m).mp h5

theorem valid_cell_mem {m : Grid} (hv : is_maze_valid m = .ok ()) (r c : Nat)
    (hr : r < m.length) (hc : c < rowLen m r) :
    getCell m r c ∈ VALID_CHARS := by
  have hAll : charsValid m := validator_chars hv
  have hrow : rowAt m r ∈ m := rowAt_mem m r hr
  have : getCell m r c ∈ rowAt m r := by
    unfold getCell
    rw [List.getD_eq_getElem?_getD,
      List.getElem?_eq_getElem (by simpa [rowLen] using hc)]
    exact List.getElem_mem (by simpa [rowLen] using hc)
  exact hAll _ hrow _ this

theorem valid_no_vis {m : Grid} (hv : is_maze_valid m = .ok ()) :
    ∀ r c, getCell m r c ≠ VISC := by
  intro r c
  by_cases hb : r < m.length ∧ c < rowLen m r
  · have := valid_cell_mem hv r c hb.1 hb.2
    unfold VALID_CHARS at this
    intro he
    rw [he] at this
    simp [VISC] at this
  · rw [getCell_default m r c hb]
    decide

theorem valid_no_star {m : Grid} (hv : is_maze_valid m = .ok ()) :
    ∀ r c, getCell m r c ≠ PATHC := by
  intro r c
  by_cases hb : r < m.length ∧ c < rowLen m r
  · have := valid_cell_mem hv r c hb.1 hb.2
    unfold VALID_CHARS at this
    intro he
    rw [he] at this
    simp [PATHC] at this
  · rw [getCell_default m r c hb]
    decide

theorem start_facts {m : Grid} {s : Coord} (hs : get_start m = some s) :
    inBounds m s ∧ getCell m s.1 s.2 = START := by
  rw [get_start, locate_spec] at hs
  exact ⟨⟨hs.1, hs.2.1⟩, hs.2.2.1⟩

theorem end_facts {m : Grid} {e0 : Coord} (he : get_end m = some e0) :
    inBounds m e0 ∧ getCell m e0.1 e0.2 = ENDC := by
  rw [get_end, locate_spec] at he
  exact ⟨⟨he.1, he.2.1⟩, he.2.2.1⟩

theorem passable_start {m : Grid} {s : Coord} (hin : inBounds m s)
    (hA : getCell m s.1 s.2 = START) : passable m s = true := by
  rw [passable_iff]
  exact ⟨hin, by rw [hA]; decide⟩

/-!  ### The loop invariant  -/

/-- Ambient facts about the original grid and start coordinate. -/
structure Ctx (m0 : Grid) (s : Coord) : Prop where
  sz : sized m0
  sIn : inBounds m0 s
  sA : getCell m0 s.1 s.2 = START
  noVis : ∀ r c, getCell m0 r c ≠ VISC
  noStar : ∀ r c, getCell m0 r c ≠ PATHC

theorem Ctx.of_valid {m0 : Grid} {s : Coord} (hsz : sized m0)
    (hv : is_maze_valid m0 = .ok ()) (hs : get_start m0 = some s) :
    Ctx m0 s :=
  ⟨hsz, (start_facts hs).1, (start_facts hs).2, valid_no_vis hv,
    valid_no_star hv⟩

/-- The per-entry invariant: the coordinate is passable and already
tagged visited (or is the start), and the carried path is either the
seed's empty path or a duplicate-free walk from the start whose
intermediate cells avoid the End marker. -/
def entryInv (m0 : Grid) (s : Coord) (vis : Finset Coord) (e : Entry) :
    Prop :=
  passable m0 e.1 = true ∧ (e.1 ∈ vis ∨ e.1 = s) ∧
  ((e.2 = [] ∧ e.1 = s) ∨
    (∃ q, e.2 = s :: q ∧ isTrail m0 s (q ++ [e.1]) ∧
      (∀ x ∈ q, getCell m0 x.1 x.2 ≠ ENDC) ∧ (s :: q).Nodup ∧
      (∀ x ∈ q, x ∈ vis) ∧ (e.1 = s ∨ e.1 ∉ s :: q)))

theorem entryInv_mono {m0 : Grid} {s : Coord} {vis vis' : Finset Coord}
    (hsub : vis ⊆ vis') {e : Entry} (h : entryInv m0 s vis e) :
    entryInv m0 s vis' e := by
  obtain ⟨h1, h2, h3⟩ := h
  refine ⟨h1, ?_, ?_⟩
  · rcases h2 with h | h
    · exact Or.inl (hsub h)
    · exact Or.inr h
  · rcases h3 with h | ⟨q, a, b, c, d, f, g⟩
    · exact Or.inl h
    · exact Or.inr ⟨q, a, b, c, d, fun x hx => hsub (f x hx), g⟩

/-- The global invariant of the search loops, relating the current
maze, frontier and visited set to the original grid. -/
structure LoopInv (m0 : Grid) (s : Coord) (m : Grid) (fr : List Entry)
    (vis : Finset Coord) : Prop where
  skel : skelEq m0 m
  visSub : ∀ x ∈ vis, passable m0 x = true
  pastSeed : ∀ n ∈ nbrFilter m0 s, n ∈ vis
  entries : ∀ e ∈ fr, entryInv m0 s vis e
  closed : ∀ x ∈ vis, (∃ e ∈ fr, e.1 = x) ∨
    (getCell m0 x.1 x.2 ≠ ENDC ∧ ∀ n ∈ nbrFilter m0 x, n ∈ vis)
  noStar : ∀ r c, getCell m r c ≠ PATHC

theorem getCell_set_cases (m : Grid) (rr cc : Nat) (ch : Char)
    (r c : Nat) :
    getCell (setCell m rr cc ch) r c = ch ∨
      getCell (setCell m rr cc ch) r c = getCell m r c := by
  by_cases hsame : r = rr ∧ c = cc
  · obtain ⟨rfl, rfl⟩ := hsame
    exact getCell_set_self_or m r c ch
  · exact Or.inr (getCell_set_ne m rr cc ch r c hsame)

theorem enqueueAll_vis_to_fr (m : Grid) (path : List Coord) :
    ∀ (nbrs : List Coord) (fr : List Entry) (vis : Finset Coord),
      ∀ x ∈ (enqueueAll m path nbrs fr vis).2, x ∉ vis →
        (x, path) ∈ (enqueueAll m path nbrs fr vis).1 := by
  intro nbrs
  induction nbrs with
  | nil => intro fr vis x hx hnx; exact absurd hx hnx
  | cons rc rest ih =>
    intro fr vis x hx hnx
    simp only [enqueueAll] at hx ⊢
    by_cases hp : passable m rc
    · rw [if_pos hp] at hx ⊢
      by_cases hv : rc ∈ vis
      · rw [if_pos hv] at hx ⊢
        exact ih fr vis x hx hnx
      · rw [if_neg hv] at hx ⊢
        by_cases hxe : x = rc
        · subst hxe
          obtain ⟨ext, hfr, _⟩ := enqueueAll_fr m path rest
            (fr ++ [(x, path)]) (insert x vis)
          rw [hfr]
          simp
        · exact ih _ _ x hx (by
            intro hmem
            rcases Finset.mem_insert.mp hmem with h | h
            · exact hxe h
            · exact hnx h)
    · rw [if_neg hp] at hx ⊢
      exact ih fr vis x hx hnx

/-- Core preservation lemma: expanding a popped non-End entry
preserves the loop invariant, for any maze `m1` that extends `m` by a
skeleton-preserving, star-free write (the optional `'@'` marking). -/
theorem LoopInv.stepAux {m0 : Grid} {s : Coord} (ctx : Ctx m0 s)
    {sel : List Entry → Option (Entry × List Entry)} (hsel : SelSpec sel)
    {m : Grid} {fr : List Entry} {vis : Finset Coord}
    (inv : LoopInv m0 s m fr vis)
    {e : Entry} {rest : List Entry} (hpop : sel fr = some (e, rest))
    (hend : getCell m e.1.1 e.1.2 ≠ ENDC)
    (m1 : Grid) (hskel1 : skelEq m m1)
    (hns1 : ∀ r c, getCell m1 r c ≠ PATHC) :
    LoopInv m0 s m1
      (enqueueAll m1 (e.2 ++ [e.1]) (neighborCoords e.1.1 e.1.2) rest vis).1
      (enqueueAll m1 (e.2 ++ [e.1]) (neighborCoords e.1.1 e.1.2) rest vis).2
      := by
  have hperm : List.Perm fr (e :: rest) := hsel.2 fr e rest hpop
  have hEinv : entryInv m0 s vis e :=
    inv.entries e (hperm.mem_iff.mpr (List.mem_cons_self e rest))
  obtain ⟨hEp, hEvis, hEpath⟩ := hEinv
  have hEin : inBounds m0 e.1 := ((passable_iff m0 e.1).mp hEp).1
  have hskel01 : skelEq m0 m1 := skelEq_trans inv.skel hskel1
  have hpass1 : ∀ x, passable m1 x = passable m0 x :=
    fun x => (passable_of_skelEq hskel01 x).symm
  have hend0 : getCell m0 e.1.1 e.1.2 ≠ ENDC := by
    intro h
    exact hend ((endCell_of_skelEq inv.skel e.1.1 e.1.2).mp h)
  obtain ⟨ext, hfr1, hext⟩ := enqueueAll_fr m1 (e.2 ++ [e.1])
    (neighborCoords e.1.1 e.1.2) rest vis
  have hvmono := enqueueAll_vis_mono m1 (e.2 ++ [e.1])
    (neighborCoords e.1.1 e.1.2) rest vis
  have hvsub := enqueueAll_vis_sub m1 (e.2 ++ [e.1])
    (neighborCoords e.1.1 e.1.2) rest vis
  have hvcov := enqueueAll_vis_covers m1 (e.2 ++ [e.1])
    (neighborCoords e.1.1 e.1.2) rest vis
  refine ⟨hskel01, ?_, ?_, ?_, ?_, hns1⟩
  · -- visSub
    intro x hx
    rcases hvsub x hx with h | ⟨_, h2⟩
    · exact inv.visSub x h
    · rw [hpass1 x] at h2
      exact h2
  · -- pastSeed
    exact fun n hn => hvmono (inv.pastSeed n hn)
  · -- entries
    intro e' he'
    rw [hfr1] at he'
    rcases List.mem_append.mp he' with hrest | hextm
    · exact entryInv_mono hvmono
        (inv.entries e' (hperm.mem_iff.mpr (List.mem_cons_of_mem e hrest)))
    · obtain ⟨hpath', hnb', hp1', hnv', hv1'⟩ := hext e' hextm
      have hp0' : passable m0 e'.1 = true := by rw [← hpass1]; exact hp1'
      have hin' : inBounds m0 e'.1 := ((passable_iff m0 e'.1).mp hp0').1
      refine ⟨hp0', Or.inl hv1', ?_⟩
      rcases hEpath with ⟨hnil, hes⟩ | ⟨q, hq, htr, hnoEnd, hnd, hqvis, hlast⟩
      · -- popped the seed: paths become [s]
        right
        refine ⟨[], by rw [hpath', hnil, hes]; rfl, ?_, by simp, by simp,
          by simp, ?_⟩
        · show adjacent s e'.1 ∧ passable m0 e'.1 = true ∧ True
          refine ⟨?_, hp0', trivial⟩
          have := (mem_neighborCoords_iff m0 ctx.sz e.1
            (hes ▸ ctx.sIn) e'.1 hin').mp (by exact hnb')
          rw [hes] at this
          exact this
        · right
          have hne : e'.1 ≠ s := by
            have hadj := (mem_neighborCoords_iff m0 ctx.sz e.1
              (hes ▸ ctx.sIn) e'.1 hin').mp hnb'
            rw [hes] at hadj
            exact fun hh => adjacent_ne hadj hh.symm
          simp [hne]
      · -- popped a path-carrying entry
        rcases hlast with hes | hnotin
        · -- the re-enqueued start pushes nothing: contradiction
          exfalso
          apply hnv'
          apply inv.pastSeed
          rw [mem_nbrFilter]
          constructor
          · rw [← hes]; exact hnb'
          · exact hp0'
        · have hEvis' : e.1 ∈ vis := by
            rcases hEvis with h | h
            · exact h
            · exfalso
              exact hnotin (h ▸ List.mem_cons_self s q)
          right
          refine ⟨q ++ [e.1], by rw [hpath', hq]; simp, ?_, ?_, ?_, ?_, ?_⟩
          · -- the extended walk
            rw [isTrail_append_one]
            refine ⟨htr, ?_, hp0'⟩
            rw [trailEnd_append_one]
            exact (mem_neighborCoords_iff m0 ctx.sz e.1 hEin e'.1 hin').mp
              hnb'
          · -- intermediate cells avoid the End marker
            intro x hxq
            rcases List.mem_append.mp hxq with h | h
            · exact hnoEnd x h
            · rw [List.mem_singleton.mp h]
              exact hend0
          · -- no duplicates
            have hre : s :: (q ++ [e.1]) = (s :: q) ++ [e.1] := by simp
            rw [hre, List.nodup_append]
            refine ⟨hnd, List.nodup_singleton _, ?_⟩
            intro a ha hb
            rw [List.mem_singleton.mp hb] at ha
            exact hnotin ha
          · -- path cells are visited
            intro x hxq
            rcases List.mem_append.mp hxq with h | h
            · exact hvmono (hqvis x h)
            · rw [List.mem_singleton.mp h]
              exact hvmono hEvis'
          · -- the new coordinate is fresh
            by_cases hes' : e'.1 = s
            · exact Or.inl hes'
            · right
              intro hmem
              rcases List.mem_cons.mp hmem with h | h
              · exact hes' h
              · rcases List.mem_append.mp h with h' | h'
                · exact hnv' (hqvis e'.1 h')
                · rw [List.mem_singleton.mp h'] at hnv'
                  exact hnv' hEvis'
  · -- closed
    intro x hx
    by_cases hxv : x ∈ vis
    · rcases inv.closed x hxv with ⟨e', he', heq⟩ | ⟨h1, h2⟩
      · rcases List.mem_cons.mp (hperm.mem_iff.mp he') with he'' | he''
        · -- the popped entry: now expanded
          right
          have hxe : x = e.1 := by rw [← heq, he'']
          subst hxe
          refine ⟨hend0, ?_⟩
          intro n hn
          rw [mem_nbrFilter] at hn
          exact hvcov n hn.1 (by rw [hpass1]; exact hn.2)
        · left
          exact ⟨e', by rw [hfr1]; exact List.mem_append_left ext he'', heq⟩
      · right
        exact ⟨h1, fun n hn => hvmono (h2 n hn)⟩
    · left
      exact ⟨(x, e.2 ++ [e.1]),
        enqueueAll_vis_to_fr m1 (e.2 ++ [e.1]) _ rest vis x hx hxv, rfl⟩

/-!  ### Marking the path and counting the marks  -/

theorem markPath_length (m : Grid) (q : List Coord) :
    (markPath m q).length = m.length := by
  induction q generalizing m with
  | nil => rfl
  | cons rc rest ih => rw [markPath, ih, length_setCell]

theorem markPath_rowLen (m : Grid) (q : List Coord) (r : Nat) :
    rowLen (markPath m q) r = rowLen m r := by
  induction q generalizing m with
  | nil => rfl
  | cons rc rest ih => rw [markPath, ih, rowLen_setCell]

theorem markPath_other (m : Grid) (q : List Coord) (x : Coord)
    (hx : x ∉ q) : getCell (markPath m q) x.1 x.2 = getCell m x.1 x.2 := by
  induction q generalizing m with
  | nil => rfl
  | cons rc rest ih =>
    rw [markPath, ih _ (fun h => hx (List.mem_cons_of_mem rc h))]
    apply getCell_set_ne
    rintro ⟨h1, h2⟩
    exact hx (List.mem_cons.mpr (Or.inl (Prod.ext h1 h2)))

theorem markPath_star (m : Grid) (q : List Coord)
    (hq : ∀ x ∈ q, inBounds m x) (r c : Nat) :
    getCell (markPath m q) r c = PATHC ↔
      ((r, c) ∈ q ∨ getCell m r c = PATHC) := by
  induction q generalizing m with
  | nil => simp [markPath]
  | cons rc rest ih =>
    rw [markPath]
    have hq' : ∀ x ∈ rest, inBounds (setCell m rc.1 rc.2 PATHC) x := by
      intro x hx
      have := hq x (List.mem_cons_of_mem rc hx)
      unfold inBounds at this ⊢
      rw [length_setCell, rowLen_setCell]
      exact this
    rw [ih _ hq']
    constructor
    · rintro (h | h)
      · exact Or.inl (List.mem_cons_of_mem rc h)
      · by_cases hsame : r = rc.1 ∧ c = rc.2
        · have : (r, c) = rc := Prod.ext hsame.1 hsame.2
          exact Or.inl (this ▸ List.mem_cons_self rc rest)
        · rw [getCell_set_ne m rc.1 rc.2 PATHC r c hsame] at h
          exact Or.inr h
    · rintro (h | h)
      · rcases List.mem_cons.mp h with h' | h'
        · right
          have hb := hq rc (List.mem_cons_self rc rest)
          rw [← h']
          rw [← h'] at hb
          exact getCell_set_self m r c PATHC hb.1 hb.2
        · exact Or.inl h'
      · by_cases hsame : r = rc.1 ∧ c = rc.2
        · right
          have hb := hq rc (List.mem_cons_self rc rest)
          obtain ⟨rfl, rfl⟩ : rc = (r, c) := by
            exact (Prod.ext hsame.1 hsame.2).symm
          exact getCell_set_self m r c PATHC hb.1 hb.2
        · right
          rw [getCell_set_ne m rc.1 rc.2 PATHC r c hsame]
          exact h

theorem row_count_eq (row : List Char) :
    row.count PATHC =
      ((Finset.range row.length).filter
        (fun c => row.getD c '?' = PATHC)).card := by
  induction row with
  | nil => simp
  | cons ch rest ih =>
    rw [List.count_cons]
    rw [Finset.card_filter, List.length_cons, Finset.sum_range_succ']
    have hshift : ∀ i, (if (ch :: rest).getD (i + 1) '?' = PATHC
        then 1 else 0) = (if rest.getD i '?' = PATHC then 1 else 0) := by
      intro i; rfl
    rw [Finset.sum_congr rfl (fun i _ => hshift i), ← Finset.card_filter, ih]
    have h0 : (if (ch :: rest).getD 0 '?' = PATHC then 1 else 0) =
        (if ch == PATHC then 1 else 0) := by
      simp only [List.getD_cons_zero]
      by_cases h : ch = PATHC
      · simp [h]
      · simp [h, beq_eq_false_iff_ne.mpr h]
    rw [h0]

theorem countStar_sum (m : Grid) :
    countStar m = ∑ r in Finset.range m.length,
      ((Finset.range (rowLen m r)).filter
        (fun c => getCell m r c = PATHC)).card := by
  induction m with
  | nil => simp [countStar]
  | cons row rest ih =>
    have hL : countStar (row :: rest) = row.count PATHC + countStar rest := by
      rw [countStar, List.map_cons, List.sum_cons]
      rfl
    rw [hL, List.length_cons, Finset.sum_range_succ']
    have hs : ∀ i, ((Finset.range (rowLen (row :: rest) (i + 1))).filter
        (fun c => getCell (row :: rest) (i + 1) c = PATHC)).card =
        ((Finset.range (rowLen rest i)).filter
        (fun c => getCell rest i c = PATHC)).card := by
      intro i; rfl
    rw [Finset.sum_congr rfl (fun i _ => hs i)]
    have h0 : ((Finset.range (rowLen (row :: rest) 0)).filter
        (fun c => getCell (row :: rest) 0 c = PATHC)).card =
        row.count PATHC := by
      rw [row_count_eq]
      rfl
    rw [h0, ih, Nat.add_comm]

theorem countStar_eq (m : Grid) :
    countStar m = ((allCoords m).filter
      (fun rc => getCell m rc.1 rc.2 = PATHC)).card := by
  unfold allCoords
  rw [Finset.filter_biUnion, Finset.card_biUnion]
  · have hone : ∀ r ∈ Finset.range m.length,
        ((({r} : Finset Nat) ×ˢ Finset.range (rowLen m r)).filter
          (fun rc => getCell m rc.1 rc.2 = PATHC)).card =
        ((Finset.range (rowLen m r)).filter
          (fun c => getCell m r c = PATHC)).card := by
      intro r _
      rw [Finset.singleton_product, Finset.filter_map, Finset.card_map]
      rfl
    rw [Finset.sum_congr rfl hone]
    exact countStar_sum m
  · intro a _ b _ hab
    apply Finset.disjoint_left.mpr
    rintro ⟨x, y⟩ hx hy
    simp only [Finset.mem_filter, Finset.mem_product,
      Finset.mem_singleton] at hx hy
    exact hab (hx.1.1.symm.trans hy.1.1)

theorem countStar_zero {m : Grid} (h : ∀ r c, getCell m r c ≠ PATHC) :
    countStar m = 0 := by
  rw [countStar_eq]
  rw [Finset.card_eq_zero]
  apply Finset.filter_false_of_mem
  intro rc _
  exact h rc.1 rc.2

/-- If the star cells are exactly a duplicate-free in-bounds list, the
star count is its length. -/
theorem countStar_of_star_iff (m : Grid) (q : List Coord)
    (hnd : q.Nodup) (hin : ∀ x ∈ q, inBounds m x)
    (hstar : ∀ r c, getCell m r c = PATHC ↔ (r, c) ∈ q) :
    countStar m = q.length := by
  rw [countStar_eq]
  have hset : (allCoords m).filter (fun rc => getCell m rc.1 rc.2 = PATHC) =
      q.toFinset := by
    apply Finset.ext
    intro rc
    rw [Finset.mem_filter, List.mem_toFinset, mem_allCoords]
    constructor
    · rintro ⟨_, h2⟩
      exact (hstar rc.1 rc.2).mp h2
    · intro h
      exact ⟨hin rc h, (hstar rc.1 rc.2).mpr h⟩
  rw [hset, List.toFinset_card_of_nodup hnd]

/-!  ### Invariant maintenance and the master loop specification  -/

/-- `LoopInv.stepAux` instantiated at the maze actually produced by
the loop body (with the optional `'@'` marking). -/
theorem LoopInv.step {m0 : Grid} {s : Coord} (ctx : Ctx m0 s)
    {sel : List Entry → Option (Entry × List Entry)} (hsel : SelSpec sel)
    (dv : Bool) {m : Grid} {fr : List Entry} {vis : Finset Coord}
    (inv : LoopInv m0 s m fr vis)
    {e : Entry} {rest : List Entry} (hpop : sel fr = some (e, rest))
    (hend : getCell m e.1.1 e.1.2 ≠ ENDC) :
    LoopInv m0 s
      (if dv ∧ getCell m e.1.1 e.1.2 ≠ START then
        setCell m e.1.1 e.1.2 VISC else m)
      (enqueueAll
        (if dv ∧ getCell m e.1.1 e.1.2 ≠ START then
          setCell m e.1.1 e.1.2 VISC else m)
        (e.2 ++ [e.1]) (neighborCoords e.1.1 e.1.2) rest vis).1
      (enqueueAll
        (if dv ∧ getCell m e.1.1 e.1.2 ≠ START then
          setCell m e.1.1 e.1.2 VISC else m)
        (e.2 ++ [e.1]) (neighborCoords e.1.1 e.1.2) rest vis).2 := by
  apply LoopInv.stepAux ctx hsel inv hpop hend
  · by_cases hc : dv ∧ getCell m e.1.1 e.1.2 ≠ START
    · rw [if_pos hc]
      have hperm : List.Perm fr (e :: rest) := hsel.2 fr e rest hpop
      have hEinv : entryInv m0 s vis e :=
        inv.entries e (hperm.mem_iff.mpr (List.mem_cons_self e rest))
      have hW0 : getCell m0 e.1.1 e.1.2 ≠ WALL :=
        ((passable_iff m0 e.1).mp hEinv.1).2
      have hW : getCell m e.1.1 e.1.2 ≠ WALL := by
        intro hh
        exact hW0 ((inv.skel.2.2 e.1.1 e.1.2).1.mpr hh)
      exact skelEq_setCell m e.1.1 e.1.2 VISC ⟨hW, hend, hc.2⟩
        (by refine ⟨?_, ?_, ?_⟩ <;> decide)
    · rw [if_neg hc]
      exact skelEq_refl m
  · by_cases hc : dv ∧ getCell m e.1.1 e.1.2 ≠ START
    · rw [if_pos hc]
      intro r c
      rcases getCell_set_cases m e.1.1 e.1.2 VISC r c with h | h
      · rw [h]; decide
      · rw [h]; exact inv.noStar r c
    · rw [if_neg hc]
      exact inv.noStar

/-- The invariant after the first iteration (popping the seed). -/
theorem LoopInv.init {m0 : Grid} {s : Coord} (ctx : Ctx m0 s) :
    LoopInv m0 s m0
      (enqueueAll m0 [s] (neighborCoords s.1 s.2) [] ∅).1
      (enqueueAll m0 [s] (neighborCoords s.1 s.2) [] ∅).2 := by
  obtain ⟨ext, hfr1, hext⟩ := enqueueAll_fr m0 [s]
    (neighborCoords s.1 s.2) [] ∅
  have hvsub := enqueueAll_vis_sub m0 [s] (neighborCoords s.1 s.2) [] ∅
  have hvcov := enqueueAll_vis_covers m0 [s] (neighborCoords s.1 s.2) [] ∅
  refine ⟨skelEq_refl m0, ?_, ?_, ?_, ?_, ctx.noStar⟩
  · intro x hx
    rcases hvsub x hx with h | ⟨_, h2⟩
    · cases h
    · exact h2
  · intro n hn
    rw [mem_nbrFilter] at hn
    exact hvcov n hn.1 hn.2
  · intro e' he'
    rw [hfr1] at he'
    rcases List.mem_append.mp he' with h | h
    · cases h
    · obtain ⟨hpath', hnb', hp1', _, hv1'⟩ := hext e' h
      have hin' : inBounds m0 e'.1 := ((passable_iff m0 e'.1).mp hp1').1
      have hadj : adjacent s e'.1 :=
        (mem_neighborCoords_iff m0 ctx.sz s ctx.sIn e'.1 hin').mp hnb'
      refine ⟨hp1', Or.inl hv1', Or.inr ⟨[], by rw [hpath'], ?_,
        by simp, by simp, by simp, ?_⟩⟩
      · exact ⟨hadj, hp1', trivial⟩
      · right
        have : e'.1 ≠ s := fun hh => adjacent_ne hadj hh.symm
        simp [this]
  · intro x hx
    have hnx : x ∉ (∅ : Finset Coord) := Finset.not_mem_empty x
    exact Or.inl ⟨(x, [s]),
      enqueueAll_vis_to_fr m0 [s] (neighborCoords s.1 s.2) [] ∅ x hx hnx,
      rfl⟩

/-- On an exhausted frontier the visited set is saturated: no walk
from the start reaches an End cell. -/
theorem LoopInv.noReach {m0 : Grid} {s : Coord} (ctx : Ctx m0 s)
    {m : Grid} {vis : Finset Coord} (inv : LoopInv m0 s m [] vis) :
    ¬ ∃ l, isTrail m0 s l ∧
      getCell m0 (trailEnd s l).1 (trailEnd s l).2 = ENDC := by
  have key : ∀ l, isTrail m0 s l → trailEnd s l = s ∨
      (trailEnd s l ∈ vis ∧
        getCell m0 (trailEnd s l).1 (trailEnd s l).2 ≠ ENDC) := by
    intro l
    induction l using List.reverseRecOn with
    | nil => intro _; exact Or.inl rfl
    | append_singleton l t ihl =>
      intro htr
      rw [isTrail_append_one] at htr
      obtain ⟨h1, h2, h3⟩ := htr
      rw [trailEnd_append_one]
      have htvis : t ∈ vis := by
        rcases ihl h1 with hcase | hcase
        · apply inv.pastSeed
          rw [mem_nbrFilter_adj m0 ctx.sz s ctx.sIn t]
          exact ⟨hcase ▸ h2, h3⟩
        · rcases inv.closed _ hcase.1 with ⟨e', he', _⟩ | ⟨_, hnbrs⟩
          · cases he'
          · apply hnbrs
            have hein : inBounds m0 (trailEnd s l) :=
              ((passable_iff m0 _).mp (inv.visSub _ hcase.1)).1
            rw [mem_nbrFilter_adj m0 ctx.sz _ hein t]
            exact ⟨h2, h3⟩
      right
      refine ⟨htvis, ?_⟩
      rcases inv.closed t htvis with ⟨e', he', _⟩ | ⟨hne, _⟩
      · cases he'
      · exact hne
  rintro ⟨l, htr, hendl⟩
  rcases key l htr with h | h
  · rw [h] at hendl
    rw [ctx.sA] at hendl
    exact absurd hendl (by decide)
  · exact h.2 hendl

/-- What a successful search guarantees: the marked cells are exactly
the interior of a duplicate-free 4-adjacent walk from Start to a cell
holding the End marker, Start and End cells are intact, and the star
count is the interior's length. -/
def SuccessPost (m0 : Grid) (s : Coord) (m' : Grid) : Prop :=
  ∃ t q, isTrail m0 s (q ++ [t]) ∧ getCell m0 t.1 t.2 = ENDC ∧
    ((s :: q) ++ [t]).Nodup ∧ (∀ x ∈ q, getCell m0 x.1 x.2 ≠ ENDC) ∧
    (∀ r c, (getCell m' r c = PATHC ↔ (r, c) ∈ q)) ∧
    (∀ x : Coord, getCell m0 x.1 x.2 = ENDC → getCell m' x.1 x.2 = ENDC) ∧
    getCell m' s.1 s.2 = START ∧ countStar m' = q.length

/-- What a failed search guarantees: no walk reaches an End cell, and
the grid carries no path marker while Start and End cells are
intact. -/
def FailPost (m0 : Grid) (s : Coord) (m' : Grid) : Prop :=
  (¬ ∃ l, isTrail m0 s l ∧
    getCell m0 (trailEnd s l).1 (trailEnd s l).2 = ENDC) ∧
  (∀ r c, getCell m' r c ≠ PATHC) ∧
  (∀ x : Coord, getCell m0 x.1 x.2 = ENDC → getCell m' x.1 x.2 = ENDC) ∧
  getCell m' s.1 s.2 = START

/-- Master specification of the search loop, by induction on fuel. -/
theorem searchLoop_spec {m0 : Grid} {s : Coord} (ctx : Ctx m0 s)
    {sel : List Entry → Option (Entry × List Entry)} (hsel : SelSpec sel)
    (dv : Bool) :
    ∀ (fuel : Nat) (m : Grid) (fr : List Entry) (vis : Finset Coord),
      LoopInv m0 s m fr vis →
      ∀ (b : Bool) (m' : Grid),
        searchLoop sel dv fuel m fr vis = some (b, m') →
        (b = false → FailPost m0 s m') ∧ (b = true → SuccessPost m0 s m') := by
  intro fuel
  induction fuel with
  | zero =>
    intro m fr vis _ b m' h
    simp only [searchLoop] at h
    exact Option.noConfusion h
  | succ fuel ih =>
    intro m fr vis inv b m' h
    simp only [searchLoop] at h
    cases hpop : sel fr with
    | none =>
      rw [hpop] at h
      have hinj := Option.some.inj h
      have hb : b = false := (congrArg Prod.fst hinj).symm
      have hm : m' = m := (congrArg Prod.snd hinj).symm
      have hfr : fr = [] := (hsel.1 fr).mp hpop
      subst hfr
      constructor
      · intro _
        refine ⟨LoopInv.noReach ctx inv, ?_, ?_, ?_⟩
        · rw [hm]; exact inv.noStar
        · intro x hx
          rw [hm]
          exact (endCell_of_skelEq inv.skel x.1 x.2).mp hx
        · rw [hm]
          exact (startCell_of_skelEq inv.skel s.1 s.2).mp ctx.sA
      · intro hbt
        rw [hb] at hbt
        exact Bool.noConfusion hbt
    | some p =>
      obtain ⟨e, rest⟩ := p
      simp only [hpop] at h
      by_cases hend : getCell m e.1.1 e.1.2 = ENDC
      · rw [if_pos hend] at h
        have hinj := Option.some.inj h
        have hb : b = true := (congrArg Prod.fst hinj).symm
        have hm : m' = markPath m e.2.tail :=
          (congrArg Prod.snd hinj).symm
        constructor
        · intro hbf
          rw [hb] at hbf
          exact Bool.noConfusion hbf
        · intro _
          -- analyze the popped entry
          have hperm : List.Perm fr (e :: rest) := hsel.2 fr e rest hpop
          have hEinv : entryInv m0 s vis e :=
            inv.entries e (hperm.mem_iff.mpr (List.mem_cons_self e rest))
          obtain ⟨hEp, _, hEpath⟩ := hEinv
          have hend0 : getCell m0 e.1.1 e.1.2 = ENDC :=
            (endCell_of_skelEq inv.skel e.1.1 e.1.2).mpr hend
          have hes : e.1 ≠ s := by
            intro hh
            rw [hh] at hend0
            rw [ctx.sA] at hend0
            exact absurd hend0 (by decide)
          rcases hEpath with ⟨_, hcon⟩ | ⟨q, hq, htr, hnoEnd, hnd, _, hlast⟩
          · exact absurd hcon hes
          · have hlast' : e.1 ∉ s :: q := by
              rcases hlast with h' | h'
              · exact absurd h' hes
              · exact h'
            have htail : e.2.tail = q := by rw [hq]; rfl
            have hqin : ∀ x ∈ q, inBounds m x := by
              intro x hx
              have hxin0 : inBounds m0 x := by
                have := isTrail_mem_passable m0 s (q ++ [e.1]) htr x
                  (List.mem_append_left [e.1] hx)
                exact ((passable_iff m0 x).mp this).1
              exact (inBounds_of_skelEq inv.skel x).mp hxin0
            refine ⟨e.1, q, htr, hend0, ?_, hnoEnd, ?_, ?_, ?_, ?_⟩
            · rw [List.nodup_append]
              refine ⟨hnd, List.nodup_singleton _, ?_⟩
              intro a ha hb'
              rw [List.mem_singleton.mp hb'] at ha
              exact hlast' ha
            · intro r c
              rw [hm, htail]
              rw [markPath_star m q hqin r c]
              constructor
              · rintro (h' | h')
                · exact h'
                · exact absurd h' (inv.noStar r c)
              · exact Or.inl
            · intro x hx
              rw [hm, htail]
              have hxq : x ∉ q := by
                intro hq'
                exact hnoEnd x hq' hx
              rw [markPath_other m q x hxq]
              exact (endCell_of_skelEq inv.skel x.1 x.2).mp hx
            · rw [hm, htail]
              have hsq : s ∉ q := by
                intro hq'
                exact (List.nodup_cons.mp hnd).1 hq'
              rw [markPath_other m q s hsq]
              exact (startCell_of_skelEq inv.skel s.1 s.2).mp ctx.sA
            · rw [hm, htail]
              have hqin' : ∀ x ∈ q, inBounds (markPath m q) x := by
                intro x hx
                have := hqin x hx
                unfold inBounds at this ⊢
                rw [markPath_length, markPath_rowLen]
                exact this
              apply countStar_of_star_iff (markPath m q) q
                (List.nodup_cons.mp hnd).2 hqin'
              intro r c
              rw [markPath_star m q hqin r c]
              constructor
              · rintro (h' | h')
                · exact h'
                · exact absurd h' (inv.noStar r c)
              · exact Or.inl
      · rw [if_neg hend] at h
        exact ih _ _ _ (LoopInv.step ctx hsel dv inv hpop hend) b m' h

/-!  ### The `dfs` specification  -/

/-- Invariant threaded through the recursive `dfs` calls. -/
structure DfsInv (m0 m : Grid) (vis : Finset Coord) : Prop where
  skel : skelEq m0 m
  atVis : ∀ r c, getCell m r c = VISC → (r, c) ∈ vis
  noStar : ∀ r c, getCell m r c ≠ PATHC
  visPass : ∀ x ∈ vis, passable m0 x = true

/-- A failed `dfs` call maintains the invariant, visits its root (when
not rejected), and saturates: every newly visited cell is passable,
does not hold the End marker, and has all its passable neighbors
visited. -/
theorem dfs_false_spec {m0 : Grid} (ctx0 : sized m0) (dv : Bool) :
    ∀ (fuel : Nat) (m : Grid) (row col : Nat) (vis : Finset Coord)
      (m' : Grid) (v' : Finset Coord), DfsInv m0 m vis →
      dfs dv fuel m row col vis = some (false, m', v') →
      DfsInv m0 m' v' ∧
      (¬ dfsReject m vis row col → (row, col) ∈ v') ∧
      (∀ x ∈ v', x ∉ vis → (passable m0 x = true ∧
        getCell m0 x.1 x.2 ≠ ENDC ∧ ∀ n ∈ nbrFilter m0 x, n ∈ v')) := by
  intro fuel
  induction fuel with
  | zero =>
    intro m row col vis m' v' _ h
    simp only [dfs] at h
    exact Option.noConfusion h
  | succ fuel ih =>
    intro m row col vis m' v' inv h
    simp only [dfs] at h
    by_cases hrej : dfsReject m vis row col
    · rw [if_pos hrej] at h
      have hinj := Option.some.inj h
      have hm : m' = m := (congrArg (fun t => t.2.1) hinj).symm
      have hv : v' = vis := (congrArg (fun t => t.2.2) hinj).symm
      subst hm
      subst hv
      exact ⟨inv, fun hc => absurd hrej hc, fun x hx1 hx2 => absurd hx1 hx2⟩
    · rw [if_neg hrej] at h
      obtain ⟨hbr, hbc, hAt, hW, hV⟩ := dfsReject_facts hrej
      by_cases hend : getCell m row col = ENDC
      · rw [if_pos hend] at h
        have hb : (true : Bool) = false :=
          congrArg Prod.fst (Option.some.inj h)
        exact Bool.noConfusion hb
      · rw [if_neg hend] at h
        -- frame facts
        have hpass0 : passable m0 (row, col) = true := by
          rw [passable_iff]
          constructor
          · exact (inBounds_of_skelEq inv.skel (row, col)).mpr ⟨hbr, hbc⟩
          · intro hw0
            exact hW ((inv.skel.2.2 row col).1.mp hw0)
        have hend0 : getCell m0 row col ≠ ENDC := by
          intro he0
          exact hend ((inv.skel.2.2 row col).2.1.mp he0)
        have hinv1 : DfsInv m0 (dfsMark m row col) (insert (row, col) vis) := by
          refine ⟨?_, ?_, ?_, ?_⟩
          · unfold dfsMark
            by_cases hA : getCell m row col = START
            · rw [if_pos hA]; exact inv.skel
            · rw [if_neg hA]
              exact skelEq_trans inv.skel
                (skelEq_setCell m row col VISC ⟨hW, hend, hA⟩
                  (by refine ⟨?_, ?_, ?_⟩ <;> decide))
          · intro r c hrc
            unfold dfsMark at hrc
            by_cases hA : getCell m row col = START
            · rw [if_pos hA] at hrc
              exact Finset.mem_insert_of_mem (inv.atVis r c hrc)
            · rw [if_neg hA] at hrc
              by_cases hsame : r = row ∧ c = col
              · rw [Finset.mem_insert]
                exact Or.inl (Prod.ext hsame.1 hsame.2)
              · rw [getCell_set_ne m row col VISC r c hsame] at hrc
                exact Finset.mem_insert_of_mem (inv.atVis r c hrc)
          · intro r c
            unfold dfsMark
            by_cases hA : getCell m row col = START
            · rw [if_pos hA]; exact inv.noStar r c
            · rw [if_neg hA]
              rcases getCell_set_cases m row col VISC r c with hc | hc
              · rw [hc]; decide
              · rw [hc]; exact inv.noStar r c
          · intro x hx
            rcases Finset.mem_insert.mp hx with hx1 | hx1
            · rw [hx1]; exact hpass0
            · exact inv.visPass x hx1
        -- a helper for chaining failed sibling calls
        have chain : ∀ (mA : Grid) (vA : Finset Coord) (r' c' : Nat)
            (mB : Grid) (vB : Finset Coord),
            DfsInv m0 mA vA →
            (∀ x ∈ vA, x ∉ insert (row, col) vis →
              (passable m0 x = true ∧ getCell m0 x.1 x.2 ≠ ENDC ∧
                ∀ n ∈ nbrFilter m0 x, n ∈ vA)) →
            dfs dv fuel mA r' c' vA = some (false, mB, vB) →
            DfsInv m0 mB vB ∧
            (∀ x ∈ vB, x ∉ insert (row, col) vis →
              (passable m0 x = true ∧ getCell m0 x.1 x.2 ≠ ENDC ∧
                ∀ n ∈ nbrFilter m0 x, n ∈ vB)) := by
          intro mA vA r' c' mB vB hinvA hsatA hcall
          obtain ⟨hinvB, _, hsatB⟩ := ih mA r' c' vA mB vB hinvA hcall
          have hmono : vA ⊆ vB := (dfs_basic dv fuel mA r' c' vA _ _ _ hcall).mono
          refine ⟨hinvB, ?_⟩
          intro x hx hnx
          by_cases hxA : x ∈ vA
          · obtain ⟨a, b, c⟩ := hsatA x hxA hnx
            exact ⟨a, b, fun n hn => hmono (c n hn)⟩
          · exact hsatB x hx hxA
        -- saturation after all four siblings, plus root neighbor closure
        have root_sat : ∀ (mZ : Grid) (vZ : Finset Coord),
            DfsInv m0 mZ vZ →
            (∀ x ∈ vZ, x ∉ insert (row, col) vis →
              (passable m0 x = true ∧ getCell m0 x.1 x.2 ≠ ENDC ∧
                ∀ n ∈ nbrFilter m0 x, n ∈ vZ)) →
            (∀ n ∈ nbrFilter m0 (row, col), n ∈ vZ) →
            (insert (row, col) vis ⊆ vZ) →
            (∀ x ∈ vZ, x ∉ vis → (passable m0 x = true ∧
              getCell m0 x.1 x.2 ≠ ENDC ∧ ∀ n ∈ nbrFilter m0 x, n ∈ vZ)) := by
          intro mZ vZ hinvZ hsatZ hrootZ hsubZ x hx hnx
          by_cases hxr : x = (row, col)
          · subst hxr
            exact ⟨hpass0, hend0, hrootZ⟩
          · apply hsatZ x hx
            intro hmem
            rcases Finset.mem_insert.mp hmem with h' | h'
            · exact hxr h'
            · exact hnx h'
        -- a rejected or failed call leaves the target coordinate visited
        have covered : ∀ (mA : Grid) (vA : Finset Coord) (n : Coord)
            (mB : Grid) (vB : Finset Coord),
            DfsInv m0 mA vA → passable m0 n = true →
            dfs dv fuel mA n.1 n.2 vA = some (false, mB, vB) →
            n ∈ vB := by
          intro mA vA n mB vB hinvA hp hcall
          have hmono := (dfs_basic dv fuel mA n.1 n.2 vA _ _ _ hcall).mono
          by_cases hrej' : dfsReject mA vA n.1 n.2
          · have hinb : inBounds mA n := by
              have h0 : inBounds m0 n := ((passable_iff m0 n).mp hp).1
              exact (inBounds_of_skelEq hinvA.skel n).mp h0
            have hnw : getCell mA n.1 n.2 ≠ WALL := by
              intro hw
              exact ((passable_iff m0 n).mp hp).2
                ((hinvA.skel.2.2 n.1 n.2).1.mpr hw)
            unfold dfsReject at hrej'
            rcases hrej' with h' | h' | h' | h' | h'
            · exact absurd hinb.1 (by omega)
            · exact absurd hinb.2 (by omega)
            · exact hmono (hinvA.atVis n.1 n.2 h')
            · exact absurd h' hnw
            · exact hmono h'
          · exact (ih mA n.1 n.2 vA mB vB hinvA hcall).2.1 hrej'
        -- walk the four sibling calls
        cases h1 : dfs dv fuel (dfsMark m row col) (wrapAdd row (USIZE - 1))
            (wrapAdd col 0) (insert (row, col) vis) with
        | none => simp only [h1] at h; exact Option.noConfusion h
        | some t1 =>
        obtain ⟨b1, ma, va⟩ := t1
        cases b1 with
        | true =>
          simp only [h1] at h
          have hb := congrArg Prod.fst (Option.some.inj h)
          exact Bool.noConfusion hb
        | false =>
        simp only [h1] at h
        have vac : ∀ x ∈ insert (row, col) vis, x ∉ insert (row, col) vis →
            (passable m0 x = true ∧ getCell m0 x.1 x.2 ≠ ENDC ∧
              ∀ n ∈ nbrFilter m0 x, n ∈ insert (row, col) vis) :=
          fun x hx hnx => absurd hx hnx
        obtain ⟨A1, SAT1⟩ := chain _ _ _ _ _ _ hinv1 vac h1
        cases h2 : dfs dv fuel ma (wrapAdd row 0) (wrapAdd col (USIZE - 1))
            va with
        | none => simp only [h2] at h; exact Option.noConfusion h
        | some t2 =>
        obtain ⟨b2, mb, vb⟩ := t2
        cases b2 with
        | true =>
          simp only [h2] at h
          have hb := congrArg Prod.fst (Option.some.inj h)
          exact Bool.noConfusion hb
        | false =>
        simp only [h2] at h
        obtain ⟨A2, SAT2⟩ := chain _ _ _ _ _ _ A1 SAT1 h2
        cases h3 : dfs dv fuel mb (wrapAdd row 1) (wrapAdd col 0) vb with
        | none => simp only [h3] at h; exact Option.noConfusion h
        | some t3 =>
        obtain ⟨b3, mc, vc⟩ := t3
        cases b3 with
        | true =>
          simp only [h3] at h
          have hb := congrArg Prod.fst (Option.some.inj h)
          exact Bool.noConfusion hb
        | false =>
        simp only [h3] at h
        obtain ⟨A3, SAT3⟩ := chain _ _ _ _ _ _ A2 SAT2 h3
        cases h4 : dfs dv fuel mc (wrapAdd row 0) (wrapAdd col 1) vc with
        | none => simp only [h4] at h; exact Option.noConfusion h
        | some t4 =>
        obtain ⟨b4, mz, vz⟩ := t4
        cases b4 with
        | true =>
          simp only [h4] at h
          have hb := congrArg Prod.fst (Option.some.inj h)
          exact Bool.noConfusion hb
        | false =>
        simp only [h4] at h
        obtain ⟨A4, SAT4⟩ := chain _ _ _ _ _ _ A3 SAT3 h4
        have hinj := Option.some.inj h
        have hm : m' = dfsPost dv false mz row col :=
          (congrArg (fun t => t.2.1) hinj).symm
        have hv : v' = vz := (congrArg (fun t => t.2.2) hinj).symm
        subst hm
        subst hv
        -- subset chains
        have mono1 : insert (row, col) vis ⊆ va :=
          (dfs_basic dv fuel _ _ _ _ _ _ _ h1).mono
        have mono2 : va ⊆ vb := (dfs_basic dv fuel _ _ _ _ _ _ _ h2).mono
        have mono3 : vb ⊆ vc := (dfs_basic dv fuel _ _ _ _ _ _ _ h3).mono
        have mono4 : vc ⊆ v' := (dfs_basic dv fuel _ _ _ _ _ _ _ h4).mono
        have hsubZ : insert (row, col) vis ⊆ v' :=
          fun x hx => mono4 (mono3 (mono2 (mono1 hx)))
        -- every passable neighbor of the root is visited at the end
        have hrootZ : ∀ n ∈ nbrFilter m0 (row, col), n ∈ v' := by
          intro n hn
          rw [mem_nbrFilter] at hn
          obtain ⟨hmem, hp0⟩ := hn
          simp only [neighborCoords, DIRECTIONS, List.map_cons, List.map_nil,
            List.mem_cons, List.not_mem_nil, or_false] at hmem
          rcases hmem with hm' | hm' | hm' | hm'
          · subst hm'
            exact mono4 (mono3 (mono2 (covered _ _ _ _ _ hinv1 hp0 h1)))
          · subst hm'
            exact mono4 (mono3 (covered _ _ _ _ _ A1 hp0 h2))
          · subst hm'
            exact mono4 (covered _ _ _ _ _ A2 hp0 h3)
          · subst hm'
            exact covered _ _ _ _ _ A3 hp0 h4
        -- own-cell content after the recursion
        have hcellZ : getCell mz row col = VISC ∨ getCell mz row col = START := by
          have hu1 := (dfs_basic dv fuel _ _ _ _ _ _ _ h1).untouched (row, col)
            (Finset.mem_insert_self _ _)
          have hu2 := (dfs_basic dv fuel _ _ _ _ _ _ _ h2).untouched (row, col)
            (mono1 (Finset.mem_insert_self _ _))
          have hu3 := (dfs_basic dv fuel _ _ _ _ _ _ _ h3).untouched (row, col)
            (mono2 (mono1 (Finset.mem_insert_self _ _)))
          have hu4 := (dfs_basic dv fuel _ _ _ _ _ _ _ h4).untouched (row, col)
            (mono3 (mono2 (mono1 (Finset.mem_insert_self _ _))))
          have : getCell mz row col = getCell (dfsMark m row col) row col := by
            rw [hu4, hu3, hu2, hu1]
          rw [this]
          exact dfsMark_cell m row col ⟨hbr, hbc⟩
        obtain ⟨hskelP, hotherP⟩ := dfsPost_step dv false mz row col hcellZ
        refine ⟨⟨skelEq_trans A4.skel hskelP, ?_, ?_, A4.visPass⟩,
          fun _ => hsubZ (Finset.mem_insert_self _ _), ?_⟩
        · -- atVis after the post-processing
          intro r c hrc
          by_cases hx : (r, c) = (row, col)
          · have : (row, col) ∈ v' := hsubZ (Finset.mem_insert_self _ _)
            rw [hx]
            exact this
          · rw [hotherP (r, c) hx] at hrc
            exact A4.atVis r c hrc
        · -- no star after the post-processing
          intro r c
          by_cases hx : (r, c) = (row, col)
          · unfold dfsPost
            rw [if_neg (fun hcon => Bool.noConfusion hcon.1)]
            by_cases hdv : ¬ dv ∧ getCell mz row col ≠ START
            · rw [if_pos hdv]
              rcases getCell_set_cases mz row col OPENC r c with hc | hc
              · rw [hc]; decide
              · rw [hc]; exact A4.noStar r c
            · rw [if_neg hdv]; exact A4.noStar r c
          · rw [hotherP (r, c) hx]
            exact A4.noStar r c
        · exact root_sat mz v' A4 SAT4 hrootZ hsubZ

/-- Marking the current cell and inserting it into the visited set
preserves the `dfs` invariant. -/
theorem dfsInv_mark {m0 m : Grid} {vis : Finset Coord} {row col : Nat}
    (inv : DfsInv m0 m vis) (hW : getCell m row col ≠ WALL)
    (hend : getCell m row col ≠ ENDC)
    (hpass0 : passable m0 (row, col) = true) :
    DfsInv m0 (dfsMark m row col) (insert (row, col) vis) := by
  refine ⟨?_, ?_, ?_, ?_⟩
  · unfold dfsMark
    by_cases hA : getCell m row col = START
    · rw [if_pos hA]; exact inv.skel
    · rw [if_neg hA]
      exact skelEq_trans inv.skel
        (skelEq_setCell m row col VISC ⟨hW, hend, hA⟩
          (by refine ⟨?_, ?_, ?_⟩ <;> decide))
  · intro r c hrc
    unfold dfsMark at hrc
    by_cases hA : getCell m row col = START
    · rw [if_pos hA] at hrc
      exact Finset.mem_insert_of_mem (inv.atVis r c hrc)
    · rw [if_neg hA] at hrc
      by_cases hsame : r = row ∧ c = col
      · rw [Finset.mem_insert]
        exact Or.inl (Prod.ext hsame.1 hsame.2)
      · rw [getCell_set_ne m row col VISC r c hsame] at hrc
        exact Finset.mem_insert_of_mem (inv.atVis r c hrc)
  · intro r c
    unfold dfsMark
    by_cases hA : getCell m row col = START
    · rw [if_pos hA]; exact inv.noStar r c
    · rw [if_neg hA]
      rcases getCell_set_cases m row col VISC r c with hc | hc
      · rw [hc]; decide
      · rw [hc]; exact inv.noStar r c
  · intro x hx
    rcases Finset.mem_insert.mp hx with hx1 | hx1
    · rw [hx1]; exact hpass0
    · exact inv.visPass x hx1

/-- A successful `dfs` call yields a duplicate-free walk from its root
to an End cell; the interior cells of the walk that do not hold the
Start marker are exactly the cells carrying the path marker in the
returned grid. -/
theorem dfs_true_spec {m0 : Grid} (ctx0 : sized m0) (dv : Bool) :
    ∀ (fuel : Nat) (m : Grid) (row col : Nat) (vis : Finset Coord)
      (m' : Grid) (v' : Finset Coord), DfsInv m0 m vis →
      dfs dv fuel m row col vis = some (true, m', v') →
      passable m0 (row, col) = true ∧ (row, col) ∉ vis ∧ skelEq m0 m' ∧
      ∃ l : List Coord,
        isTrail m0 (row, col) l ∧
        getCell m0 (trailEnd (row, col) l).1
          (trailEnd (row, col) l).2 = ENDC ∧
        ((row, col) :: l).Nodup ∧
        (∀ x ∈ (row, col) :: l, x ∉ vis) ∧
        (∀ x ∈ ((row, col) :: l).dropLast, getCell m0 x.1 x.2 ≠ ENDC) ∧
        (∀ x : Coord, getCell m' x.1 x.2 = PATHC ↔
          (x ∈ ((row, col) :: l).dropLast ∧
            getCell m0 x.1 x.2 ≠ START)) := by
  intro fuel
  induction fuel with
  | zero =>
    intro m row col vis m' v' _ h
    simp only [dfs] at h
    exact Option.noConfusion h
  | succ fuel ih =>
    intro m row col vis m' v' inv h
    simp only [dfs] at h
    by_cases hrej : dfsReject m vis row col
    · rw [if_pos hrej] at h
      have hb := congrArg Prod.fst (Option.some.inj h)
      exact Bool.noConfusion hb
    · rw [if_neg hrej] at h
      obtain ⟨hbr, hbc, hAt, hW, hV⟩ := dfsReject_facts hrej
      have hpass0 : passable m0 (row, col) = true := by
        rw [passable_iff]
        constructor
        · exact (inBounds_of_skelEq inv.skel (row, col)).mpr ⟨hbr, hbc⟩
        · intro hw0
          exact hW ((inv.skel.2.2 row col).1.mp hw0)
      by_cases hend : getCell m row col = ENDC
      · rw [if_pos hend] at h
        have hinj := Option.some.inj h
        have hm : m' = m := (congrArg (fun t => t.2.1) hinj).symm
        subst hm
        refine ⟨hpass0, hV, inv.skel, [], trivial, ?_, by simp, ?_, ?_, ?_⟩
        · exact (inv.skel.2.2 row col).2.1.mpr hend
        · intro x hx
          rcases List.mem_cons.mp hx with h' | h'
          · rw [h']; exact hV
          · exact absurd h' (List.not_mem_nil x)
        · intro x hx
          simp [List.dropLast] at hx
        · intro x
          constructor
          · intro hp
            exact absurd hp (inv.noStar x.1 x.2)
          · rintro ⟨hx, -⟩
            simp [List.dropLast] at hx
      · rw [if_neg hend] at h
        have hend0 : getCell m0 row col ≠ ENDC := by
          intro he0
          exact hend ((inv.skel.2.2 row col).2.1.mp he0)
        have hinv1 : DfsInv m0 (dfsMark m row col) (insert (row, col) vis) :=
          dfsInv_mark inv hW hend hpass0
        -- assembling the conclusion from one succeeding recursive call
        have assemble : ∀ (mA : Grid) (vA : Finset Coord) (r' c' : Nat)
            (mz : Grid) (vz : Finset Coord),
            DfsInv m0 mA vA → insert (row, col) vis ⊆ vA →
            (getCell mA row col = VISC ∨ getCell mA row col = START) →
            (r', c') ∈ neighborCoords row col →
            dfs dv fuel mA r' c' vA = some (true, mz, vz) →
            passable m0 (row, col) = true ∧ (row, col) ∉ vis ∧
            skelEq m0 (dfsPost dv true mz row col) ∧
            ∃ l : List Coord,
              isTrail m0 (row, col) l ∧
              getCell m0 (trailEnd (row, col) l).1
                (trailEnd (row, col) l).2 = ENDC ∧
              ((row, col) :: l).Nodup ∧
              (∀ x ∈ (row, col) :: l, x ∉ vis) ∧
              (∀ x ∈ ((row, col) :: l).dropLast,
                getCell m0 x.1 x.2 ≠ ENDC) ∧
              (∀ x : Coord,
                getCell (dfsPost dv true mz row col) x.1 x.2 = PATHC ↔
                (x ∈ ((row, col) :: l).dropLast ∧
                  getCell m0 x.1 x.2 ≠ START)) := by
          intro mA vA r' c' mz vz hinvA hsubA hrootA hmemN hcall
          obtain ⟨hpn, hnA, hskelz, l_c, htr_c, hendt_c, hnd_c, hnin_c,
            hnend_c, hstar_c⟩ := ih mA r' c' vA mz vz hinvA hcall
          have hu : getCell mz row col = getCell mA row col :=
            (dfs_basic dv fuel mA r' c' vA _ _ _ hcall).untouched (row, col)
              (hsubA (Finset.mem_insert_self _ _))
          have hAz : getCell mz row col = VISC ∨
              getCell mz row col = START := by
            rw [hu]; exact hrootA
          obtain ⟨hskelPost, hother⟩ := dfsPost_step dv true mz row col hAz
          have hinb0 : inBounds m0 (row, col) :=
            ((passable_iff m0 (row, col)).mp hpass0).1
          have hinbn : inBounds m0 (r', c') :=
            ((passable_iff m0 (r', c')).mp hpn).1
          have hadj : adjacent (row, col) (r', c') :=
            (mem_neighborCoords_iff m0 ctx0 (row, col) hinb0 (r', c')
              hinbn).mp hmemN
          have hrootNotc : (row, col) ∉ (r', c') :: l_c := by
            intro hmem
            exact hnin_c (row, col) hmem (hsubA (Finset.mem_insert_self _ _))
          have hdl : (((row, col) :: (r', c') :: l_c).dropLast) =
              (row, col) :: (((r', c') :: l_c).dropLast) := rfl
          refine ⟨hpass0, hV, skelEq_trans hskelz hskelPost,
            (r', c') :: l_c, ⟨hadj, hpn, htr_c⟩, ?_, ?_, ?_, ?_, ?_⟩
          · have hte : trailEnd (row, col) ((r', c') :: l_c) =
                trailEnd (r', c') l_c := List.getLastD_cons _ _ _
            rw [hte]
            exact hendt_c
          · exact List.nodup_cons.mpr ⟨hrootNotc, hnd_c⟩
          · intro x hx
            rcases List.mem_cons.mp hx with h' | h'
            · rw [h']; exact hV
            · intro hxv
              exact hnin_c x h' (hsubA (Finset.mem_insert_of_mem hxv))
          · simp only [hdl]
            intro x hx
            rcases List.mem_cons.mp hx with h' | h'
            · rw [h']; exact hend0
            · exact hnend_c x h'
          · simp only [hdl]
            intro x
            by_cases hxr : x = (row, col)
            · subst hxr
              by_cases hS0 : getCell m0 row col = START
              · have hSz : getCell mz row col = START :=
                  (startCell_of_skelEq hskelz row col).mp hS0
                have hg1 : ¬ (¬ (dv = true) ∧ getCell mz row col ≠ START) :=
                  fun hc => hc.2 hSz
                have hg2 : ¬ ((true = true) ∧ getCell mz row col ≠ START) :=
                  fun hc => hc.2 hSz
                have hmm : dfsPost dv true mz row col = mz := by
                  unfold dfsPost
                  rw [if_neg hg1, if_neg hg2]
                constructor
                · intro hp
                  rw [hmm] at hp
                  exact absurd (hSz.symm.trans hp) (by decide)
                · rintro ⟨-, hne⟩
                  exact absurd hS0 hne
              · have hSzn : getCell mz row col ≠ START := fun hs =>
                  hS0 ((startCell_of_skelEq hskelz row col).mpr hs)
                have hbz : row < mz.length ∧ col < rowLen mz row :=
                  (inBounds_of_skelEq hskelz (row, col)).mp hinb0
                have hval : getCell (dfsPost dv true mz row col) row col
                    = PATHC := by
                  unfold dfsPost
                  by_cases hd : ¬ (dv = true) ∧ getCell mz row col ≠ START
                  · rw [if_pos hd]
                    have hg : getCell (setCell mz row col OPENC) row col
                        ≠ START := by
                      rw [getCell_set_self mz row col OPENC hbz.1 hbz.2]
                      decide
                    have hg2 : (true = true) ∧
                        getCell (setCell mz row col OPENC) row col ≠ START :=
                      ⟨rfl, hg⟩
                    rw [if_pos hg2]
                    exact getCell_set_self _ row col PATHC
                      (by rw [length_setCell]; exact hbz.1)
                      (by rw [rowLen_setCell]; exact hbz.2)
                  · rw [if_neg hd]
                    have hg2 : (true = true) ∧
                        getCell mz row col ≠ START := ⟨rfl, hSzn⟩
                    rw [if_pos hg2]
                    exact getCell_set_self mz row col PATHC hbz.1 hbz.2
                constructor
                · intro _
                  exact ⟨List.mem_cons_self _ _, hS0⟩
                · intro _
                  exact hval
            · have hcell : getCell (dfsPost dv true mz row col) x.1 x.2 =
                  getCell mz x.1 x.2 := hother x hxr
              rw [hcell, hstar_c x]
              constructor
              · rintro ⟨a, b⟩
                exact ⟨List.mem_cons_of_mem _ a, b⟩
              · rintro ⟨a, b⟩
                rcases List.mem_cons.mp a with h' | h'
                · exact absurd h' hxr
                · exact ⟨h', b⟩
        -- walk the four recursive calls
        cases h1 : dfs dv fuel (dfsMark m row col) (wrapAdd row (USIZE - 1))
            (wrapAdd col 0) (insert (row, col) vis) with
        | none => simp only [h1] at h; exact Option.noConfusion h
        | some t1 =>
        obtain ⟨b1, ma, va⟩ := t1
        cases b1 with
        | true =>
          simp only [h1] at h
          have hinj := Option.some.inj h
          have hm : m' = dfsPost dv true ma row col :=
            (congrArg (fun t => t.2.1) hinj).symm
          subst hm
          exact assemble _ _ _ _ _ _ hinv1 (fun x hx => hx)
            (dfsMark_cell m row col ⟨hbr, hbc⟩)
            (by simp [neighborCoords, DIRECTIONS]) h1
        | false =>
        simp only [h1] at h
        have A1 := (dfs_false_spec ctx0 dv fuel _ _ _ _ _ _ hinv1 h1).1
        have mono1 : insert (row, col) vis ⊆ va :=
          (dfs_basic dv fuel _ _ _ _ _ _ _ h1).mono
        have hroot1 : getCell ma row col = VISC ∨
            getCell ma row col = START := by
          rw [(dfs_basic dv fuel _ _ _ _ _ _ _ h1).untouched (row, col)
            (Finset.mem_insert_self _ _)]
          exact dfsMark_cell m row col ⟨hbr, hbc⟩
        cases h2 : dfs dv fuel ma (wrapAdd row 0) (wrapAdd col (USIZE - 1))
            va with
        | none => simp only [h2] at h; exact Option.noConfusion h
        | some t2 =>
        obtain ⟨b2, mb, vb⟩ := t2
        cases b2 with
        | true =>
          simp only [h2] at h
          have hinj := Option.some.inj h
          have hm : m' = dfsPost dv true mb row col :=
            (congrArg (fun t => t.2.1) hinj).symm
          subst hm
          exact assemble _ _ _ _ _ _ A1 mono1 hroot1
            (by simp [neighborCoords, DIRECTIONS]) h2
        | false =>
        simp only [h2] at h
        have A2 := (dfs_false_spec ctx0 dv fuel _ _ _ _ _ _ A1 h2).1
        have mono2 : va ⊆ vb := (dfs_basic dv fuel _ _ _ _ _ _ _ h2).mono
        have hroot2 : getCell mb row col = VISC ∨
            getCell mb row col = START := by
          rw [(dfs_basic dv fuel _ _ _ _ _ _ _ h2).untouched (row, col)
            (mono1 (Finset.mem_insert_self _ _))]
          exact hroot1
        cases h3 : dfs dv fuel mb (wrapAdd row 1) (wrapAdd col 0) vb with
        | none => simp only [h3] at h; exact Option.noConfusion h
        | some t3 =>
        obtain ⟨b3, mc, vc⟩ := t3
        cases b3 with
        | true =>
          simp only [h3] at h
          have hinj := Option.some.inj h
          have hm : m' = dfsPost dv true mc row col :=
            (congrArg (fun t => t.2.1) hinj).symm
          subst hm
          exact assemble _ _ _ _ _ _ A2 (fun x hx => mono2 (mono1 hx)) hroot2
            (by simp [neighborCoords, DIRECTIONS]) h3
        | false =>
        simp only [h3] at h
        have A3 := (dfs_false_spec ctx0 dv fuel _ _ _ _ _ _ A2 h3).1
        have mono3 : vb ⊆ vc := (dfs_basic dv fuel _ _ _ _ _ _ _ h3).mono
        have hroot3 : getCell mc row col = VISC ∨
            getCell mc row col = START := by
          rw [(dfs_basic dv fuel _ _ _ _ _ _ _ h3).untouched (row, col)
            (mono2 (mono1 (Finset.mem_insert_self _ _)))]
          exact hroot2
        cases h4 : dfs dv fuel mc (wrapAdd row 0) (wrapAdd col 1) vc with
        | none => simp only [h4] at h; exact Option.noConfusion h
        | some t4 =>
        obtain ⟨b4, mz, vz⟩ := t4
        cases b4 with
        | false =>
          simp only [h4] at h
          have hb := congrArg Prod.fst (Option.some.inj h)
          exact Bool.noConfusion hb
        | true =>
        simp only [h4] at h
        have hinj := Option.some.inj h
        have hm : m' = dfsPost dv true mz row col :=
          (congrArg (fun t => t.2.1) hinj).symm
        subst hm
        exact assemble _ _ _ _ _ _ A3
          (fun x hx => mono3 (mono2 (mono1 hx))) hroot3
          (by simp [neighborCoords, DIRECTIONS]) h4

/-- From a neighbor-closed set of passable non-End cells containing
the origin, no walk reaches an End cell. -/
theorem closed_noReach {m0 : Grid} (hs : sized m0) {s : Coord}
    {V : Finset Coord} (hsV : s ∈ V)
    (hpass : ∀ x ∈ V, passable m0 x = true)
    (hnend : ∀ x ∈ V, getCell m0 x.1 x.2 ≠ ENDC)
    (hcl : ∀ x ∈ V, ∀ n ∈ nbrFilter m0 x, n ∈ V) :
    ¬ ∃ l, isTrail m0 s l ∧
      getCell m0 (trailEnd s l).1 (trailEnd s l).2 = ENDC := by
  have key : ∀ l, isTrail m0 s l → trailEnd s l ∈ V := by
    intro l
    induction l using List.reverseRecOn with
    | nil => intro _; exact hsV
    | append_singleton l t ihl =>
      intro htr
      rw [isTrail_append_one] at htr
      obtain ⟨h1, h2, h3⟩ := htr
      rw [trailEnd_append_one]
      have he : trailEnd s l ∈ V := ihl h1
      have hein : inBounds m0 (trailEnd s l) :=
        ((passable_iff m0 _).mp (hpass _ he)).1
      apply hcl _ he
      rw [mem_nbrFilter_adj m0 hs _ hein t]
      exact ⟨h2, h3⟩
  rintro ⟨l, htr, hendl⟩
  exact hnend _ (key l htr) hendl

/-- The complete `dfs` run from the Start cell: it returns, preserves
the grid skeleton, and on failure no walk reaches an End cell and no
path marker is written, while on success the marked cells are exactly
the non-Start interior of a duplicate-free walk from Start to an End
cell. -/
theorem dfsRun_spec {m0 : Grid} {s : Coord} (ctx : Ctx m0 s) (dv : Bool) :
    ∃ b m' v', dfsRun m0 s dv = some (b, m', v') ∧ skelEq m0 m' ∧
      (b = false →
        (¬ ∃ l, isTrail m0 s l ∧
          getCell m0 (trailEnd s l).1 (trailEnd s l).2 = ENDC) ∧
        ∀ r c, getCell m' r c ≠ PATHC) ∧
      (b = true → ∃ l, l ≠ [] ∧ isTrail m0 s l ∧
        getCell m0 (trailEnd s l).1 (trailEnd s l).2 = ENDC ∧
        (s :: l).Nodup ∧
        (∀ x ∈ (s :: l).dropLast, getCell m0 x.1 x.2 ≠ ENDC) ∧
        (∀ x : Coord, getCell m' x.1 x.2 = PATHC ↔
          (x ∈ (s :: l).dropLast ∧ getCell m0 x.1 x.2 ≠ START))) := by
  have hinv0 : DfsInv m0 m0 ∅ :=
    ⟨skelEq_refl m0, fun r c h => absurd h (ctx.noVis r c), ctx.noStar,
      fun x hx => absurd hx (Finset.not_mem_empty x)⟩
  have htot := dfs_total dv (dfsFuel m0) m0 s.1 s.2 ∅
    (Finset.empty_subset _) (by simp [dfsFuel])
  obtain ⟨t, ht⟩ := Option.isSome_iff_exists.mp htot
  obtain ⟨b, m', v'⟩ := t
  have hnotrej : ¬ dfsReject m0 ∅ s.1 s.2 := by
    intro hr
    rcases hr with h' | h' | h' | h' | h'
    · exact absurd ctx.sIn.1 (by omega)
    · exact absurd ctx.sIn.2 (by omega)
    · rw [ctx.sA] at h'
      exact absurd h' (by decide)
    · rw [ctx.sA] at h'
      exact absurd h' (by decide)
    · exact absurd h' (Finset.not_mem_empty _)
  cases b with
  | false =>
    obtain ⟨hinv', hroot, hsat⟩ :=
      dfs_false_spec ctx.sz dv (dfsFuel m0) m0 s.1 s.2 ∅ m' v' hinv0 ht
    have hsV : s ∈ v' := hroot hnotrej
    have hnr := closed_noReach ctx.sz hsV
      (fun x hx => (hsat x hx (Finset.not_mem_empty x)).1)
      (fun x hx => (hsat x hx (Finset.not_mem_empty x)).2.1)
      (fun x hx => (hsat x hx (Finset.not_mem_empty x)).2.2)
    exact ⟨false, m', v', ht, hinv'.skel,
      fun _ => ⟨hnr, hinv'.noStar⟩, fun hcon => Bool.noConfusion hcon⟩
  | true =>
    obtain ⟨hp, hnv, hskel, l, htr, hendt, hnd, hnin, hnend, hstar⟩ :=
      dfs_true_spec ctx.sz dv (dfsFuel m0) m0 s.1 s.2 ∅ m' v' hinv0 ht
    have hlne : l ≠ [] := by
      intro hnil
      subst hnil
      exact absurd (ctx.sA.symm.trans hendt) (by decide)
    exact ⟨true, m', v', ht, hskel, fun hcon => Bool.noConfusion hcon,
      fun _ => ⟨l, hlne, htr, hendt, hnd, hnend, hstar⟩⟩

/-- Any frontier discipline pops the sole entry of a singleton
frontier. -/
theorem sel_singleton {sel : List Entry → Option (Entry × List Entry)}
    (hsel : SelSpec sel) (x : Entry) : sel [x] = some (x, []) := by
  cases hpop : sel [x] with
  | none => exact absurd ((hsel.1 [x]).mp hpop) (by simp)
  | some p =>
    obtain ⟨e, rest⟩ := p
    have hperm := hsel.2 [x] e rest hpop
    have hrest : rest = [] := by
      cases rest with
      | nil => rfl
      | cons y ys =>
        have h1 : ([x] : List Entry).length = (e :: y :: ys).length :=
          hperm.length_eq
        simp only [List.length_cons, List.length_nil] at h1
        omega
    subst hrest
    have he : e = x := by
      have hmem : e ∈ [x] := hperm.mem_iff.mpr (List.mem_cons_self _ _)
      simpa using hmem
    rw [he]

/-- Top-level specification of one loop search seeded with the start
entry: on `false` the failure postcondition holds, on `true` the
success postcondition. -/
theorem searchRun_spec {m0 : Grid} {s : Coord} (ctx : Ctx m0 s)
    {sel : List Entry → Option (Entry × List Entry)} (hsel : SelSpec sel)
    (dv : Bool) {b : Bool} {m' : Grid}
    (h : searchLoop sel dv (searchFuel m0) m0 [(s, [])] ∅ = some (b, m')) :
    (b = false → FailPost m0 s m') ∧ (b = true → SuccessPost m0 s m') := by
  obtain ⟨f', hf'⟩ : ∃ f', searchFuel m0 = f' + 1 :=
    ⟨searchFuel m0 - 1, by unfold searchFuel; omega⟩
  rw [hf'] at h
  simp only [searchLoop, sel_singleton hsel (s, []), List.nil_append] at h
  have hsE : getCell m0 s.1 s.2 ≠ ENDC := by
    rw [ctx.sA]; decide
  rw [if_neg hsE] at h
  have hsS : ¬ (dv ∧ getCell m0 s.1 s.2 ≠ START) := fun hc => hc.2 ctx.sA
  rw [if_neg hsS] at h
  exact searchLoop_spec ctx hsel dv _ _ _ _ (LoopInv.init ctx) b m' h

/-- `bfs` meets the success/failure postconditions. -/
theorem bfs_spec {m0 : Grid} {s : Coord} (ctx : Ctx m0 s) (dv : Bool)
    {b : Bool} {m' : Grid} (h : bfs m0 s dv = some (b, m')) :
    (b = false → FailPost m0 s m') ∧ (b = true → SuccessPost m0 s m') :=
  searchRun_spec ctx fifoSel_spec dv h

/-- `greedy_best_first_search` meets the success/failure
postconditions. -/
theorem gbfs_spec {m0 : Grid} {s : Coord} (ctx : Ctx m0 s) (e0 : Coord)
    (dv : Bool) {b : Bool} {m' : Grid}
    (h : greedy_best_first_search m0 s e0 dv = some (b, m')) :
    (b = false → FailPost m0 s m') ∧ (b = true → SuccessPost m0 s m') :=
  searchRun_spec ctx (popMax_spec (keyGBFS e0)) dv h

/-- `a_star` meets the success/failure postconditions. -/
theorem a_star_spec {m0 : Grid} {s : Coord} (ctx : Ctx m0 s) (e0 : Coord)
    (dv : Bool) {b : Bool} {m' : Grid}
    (h : a_star m0 s e0 dv = some (b, m')) :
    (b = false → FailPost m0 s m') ∧ (b = true → SuccessPost m0 s m') :=
  searchRun_spec ctx (popMax_spec (keyAStar e0)) dv h

/-!  ### Claim C3  -/

/-- A validated grid whose canonical End cell (the first in scan
order) is walled off while a second End-marked cell is open. -/
def cexGrid3 : Grid := [['B', '█', '█'], ['█', 'A', 'B']]

set_option maxHeartbeats 20000000 in
/-- Counterexample to C3 as stated: on this validated grid the End
cell located by `get_end` is unreachable from Start through in-bounds
non-Wall cells, yet all four searches return `true` (they stop at the
other, reachable End-marked cell). -/
theorem claim3_counterexample :
    is_maze_valid cexGrid3 = Except.ok () ∧
    get_start cexGrid3 = some (1, 1) ∧
    get_end cexGrid3 = some (0, 0) ∧
    Option.map Prod.fst (dfsRun cexGrid3 (1, 1) false) = some true ∧
    Option.map Prod.fst (bfs cexGrid3 (1, 1) false) = some true ∧
    Option.map Prod.fst
      (greedy_best_first_search cexGrid3 (1, 1) (0, 0) false) = some true ∧
    Option.map Prod.fst (a_star cexGrid3 (1, 1) (0, 0) false) = some true ∧
    ¬ ∃ l, isTrail cexGrid3 (1, 1) l ∧ trailEnd (1, 1) l = (0, 0) := by
  refine ⟨by decide, by decide, by decide, by decide, by decide, by decide,
    by decide, ?_⟩
  rintro ⟨l, htr, hte⟩
  have hmem := trail_mem_ball cexGrid3 (by decide) (1, 1) (by decide) l htr
  have habs := Finset.mem_of_subset
    (ball_absorb cexGrid3 (1, 1) (by decide) l.length) hmem
  rw [hte] at habs
  exact absurd habs (by decide)

/-- C3 (amended): on a validated sized grid with located Start and
End, all four search functions return the same boolean result, true
exactly when some End-marked cell is reachable from Start through
in-bounds, non-Wall cells. -/
theorem claim3_outcome_agreement (m0 : Grid) (s e0 : Coord) (dv : Bool)
    (hsz : sized m0) (hv : is_maze_valid m0 = Except.ok ())
    (hs : get_start m0 = some s) (he : get_end m0 = some e0) :
    ∃ b : Bool,
      Option.map Prod.fst (dfsRun m0 s dv) = some b ∧
      Option.map Prod.fst (bfs m0 s dv) = some b ∧
      Option.map Prod.fst (greedy_best_first_search m0 s e0 dv) = some b ∧
      Option.map Prod.fst (a_star m0 s e0 dv) = some b ∧
      (b = true ↔ reachesEnd m0 s) := by
  have ctx : Ctx m0 s := Ctx.of_valid hsz hv hs
  have hiff := reachesEnd_iff_trail m0 hsz s ctx.sIn
  obtain ⟨bd, md, vd, hd, hskeld, hdf, hdt⟩ := dfsRun_spec ctx dv
  have hdiff : bd = true ↔ reachesEnd m0 s := by
    constructor
    · intro hb
      obtain ⟨l, _, htr, hendt, _⟩ := hdt hb
      exact hiff.mpr ⟨l, htr, hendt⟩
    · intro hr
      cases bd with
      | true => rfl
      | false => exact absurd (hiff.mp hr) (hdf rfl).1
  have loopIff : ∀ (b : Bool) (m' : Grid),
      ((b = false → FailPost m0 s m') ∧ (b = true → SuccessPost m0 s m')) →
      (b = true ↔ reachesEnd m0 s) := by
    intro b m' hpost
    constructor
    · intro hb
      obtain ⟨t, q, htr, hend0, _⟩ := hpost.2 hb
      refine hiff.mpr ⟨q ++ [t], htr, ?_⟩
      rw [trailEnd_append_one]
      exact hend0
    · intro hr
      cases b with
      | true => rfl
      | false => exact absurd (hiff.mp hr) (hpost.1 rfl).1
  obtain ⟨tb, htb⟩ := Option.isSome_iff_exists.mp (bfs_total m0 s dv)
  obtain ⟨bb, mb⟩ := tb
  have hbiff := loopIff bb mb (bfs_spec ctx dv htb)
  obtain ⟨tg, htg⟩ := Option.isSome_iff_exists.mp (gbfs_total m0 s e0 dv)
  obtain ⟨bg, mg⟩ := tg
  have hgiff := loopIff bg mg (gbfs_spec ctx e0 dv htg)
  obtain ⟨ta, hta⟩ := Option.isSome_iff_exists.mp (a_star_total m0 s e0 dv)
  obtain ⟨ba, ma⟩ := ta
  have haiff := loopIff ba ma (a_star_spec ctx e0 dv hta)
  have beq : ∀ x y : Bool, (x = true ↔ reachesEnd m0 s) →
      (y = true ↔ reachesEnd m0 s) → y = x := by
    intro x y h1 h2
    cases x with
    | true => exact h2.mpr (h1.mp rfl)
    | false =>
      cases y with
      | false => rfl
      | true => exact absurd (h2.mp rfl) (fun hr => Bool.noConfusion (h1.mpr hr))
  refine ⟨bd, by rw [hd]; rfl, by rw [htb, beq bd bb hdiff hbiff]; rfl,
    by rw [htg, beq bd bg hdiff hgiff]; rfl,
    by rw [hta, beq bd ba hdiff haiff]; rfl, hdiff⟩

/-- The frame post-processing writes only the frame's own cell. -/
theorem dfsPost_other_cell (dv res : Bool) (g : Grid) (row col r c : Nat)
    (hne : ¬ (r = row ∧ c = col)) :
    getCell (dfsPost dv res g row col) r c = getCell g r c := by
  unfold dfsPost
  by_cases h1 : ¬ (dv = true) ∧ getCell g row col ≠ START
  · rw [if_pos h1]
    by_cases h2 : (res = true) ∧
        getCell (setCell g row col OPENC) row col ≠ START
    · rw [if_pos h2, getCell_set_ne _ row col PATHC r c hne,
        getCell_set_ne g row col OPENC r c hne]
    · rw [if_neg h2, getCell_set_ne g row col OPENC r c hne]
  · rw [if_neg h1]
    by_cases h2 : (res = true) ∧ getCell g row col ≠ START
    · rw [if_pos h2, getCell_set_ne g row col PATHC r c hne]
    · rw [if_neg h2]

/-- With `display_visited` off, a `dfs` call never leaves a new `'@'`
marker behind: every `'@'` of the final grid was already in the
initial grid. -/
theorem dfs_noVis :
    ∀ (fuel : Nat) (m : Grid) (row col : Nat) (vis : Finset Coord)
      (b : Bool) (m' : Grid) (v' : Finset Coord),
      dfs false fuel m row col vis = some (b, m', v') →
      ∀ r c, getCell m' r c = VISC → getCell m r c = VISC := by
  intro fuel
  induction fuel with
  | zero =>
    intro m row col vis b m' v' h
    simp only [dfs] at h
    exact Option.noConfusion h
  | succ fuel ih =>
    intro m row col vis b m' v' h
    simp only [dfs] at h
    by_cases hrej : dfsReject m vis row col
    · rw [if_pos hrej] at h
      have hinj := Option.some.inj h
      have hm : m' = m := (congrArg (fun t => t.2.1) hinj).symm
      subst hm
      exact fun r c hrc => hrc
    · rw [if_neg hrej] at h
      obtain ⟨hbr, hbc, hAt, hW, hV⟩ := dfsReject_facts hrej
      by_cases hend : getCell m row col = ENDC
      · rw [if_pos hend] at h
        have hinj := Option.some.inj h
        have hm : m' = m := (congrArg (fun t => t.2.1) hinj).symm
        subst hm
        exact fun r c hrc => hrc
      · rw [if_neg hend] at h
        have hm1 : ∀ r c, ¬ (r = row ∧ c = col) →
            getCell (dfsMark m row col) r c = getCell m r c := by
          intro r c hne
          unfold dfsMark
          by_cases hA : getCell m row col = START
          · rw [if_pos hA]
          · rw [if_neg hA]
            exact getCell_set_ne m row col VISC r c hne
        -- common exit reasoning, for the grid reached before the
        -- post-processing and the accumulated cell-chain to `dfsMark`
        have exit : ∀ (res : Bool) (mz : Grid),
            (∀ r c, getCell mz r c = VISC →
              getCell (dfsMark m row col) r c = VISC) →
            (row < mz.length ∧ col < rowLen mz row) →
            ∀ r c, getCell (dfsPost false res mz row col) r c = VISC →
              getCell m r c = VISC := by
          intro res mz hchain hbz r c hrc
          by_cases hx : r = row ∧ c = col
          · obtain ⟨rfl, rfl⟩ := hx
            exfalso
            by_cases hS : getCell mz r c = START
            · have h1 : ¬ (¬ (false = true) ∧ getCell mz r c ≠ START) :=
                fun hc => hc.2 hS
              have h2 : ¬ ((res = true) ∧ getCell mz r c ≠ START) :=
                fun hc => hc.2 hS
              unfold dfsPost at hrc
              rw [if_neg h1, if_neg h2] at hrc
              rw [hS] at hrc
              exact absurd hrc (by decide)
            · have h1 : (¬ (false = true) ∧ getCell mz r c ≠ START) :=
                ⟨fun hc => Bool.noConfusion hc, hS⟩
              unfold dfsPost at hrc
              rw [if_pos h1] at hrc
              have hO : getCell (setCell mz r c OPENC) r c = OPENC :=
                getCell_set_self mz r c OPENC hbz.1 hbz.2
              by_cases h2 : (res = true) ∧
                  getCell (setCell mz r c OPENC) r c ≠ START
              · rw [if_pos h2] at hrc
                have hP : getCell (setCell (setCell mz r c OPENC) r c
                    PATHC) r c = PATHC :=
                  getCell_set_self _ r c PATHC
                    (by rw [length_setCell]; exact hbz.1)
                    (by rw [rowLen_setCell]; exact hbz.2)
                rw [hP] at hrc
                exact absurd hrc (by decide)
              · rw [if_neg h2, hO] at hrc
                exact absurd hrc (by decide)
          · rw [dfsPost_other_cell false res mz row col r c hx] at hrc
            have h1 := hchain r c hrc
            rw [hm1 r c hx] at h1
            exact h1
        have hbz0 : row < (dfsMark m row col).length ∧
            col < rowLen (dfsMark m row col) row := by
          unfold dfsMark
          by_cases hA : getCell m row col = START
          · rw [if_pos hA]; exact ⟨hbr, hbc⟩
          · rw [if_neg hA]
            rw [length_setCell, rowLen_setCell]
            exact ⟨hbr, hbc⟩
        cases h1 : dfs false fuel (dfsMark m row col) (wrapAdd row (USIZE - 1))
            (wrapAdd col 0) (insert (row, col) vis) with
        | none => simp only [h1] at h; exact Option.noConfusion h
        | some t1 =>
        obtain ⟨b1, ma, va⟩ := t1
        have hch1 : ∀ r c, getCell ma r c = VISC →
            getCell (dfsMark m row col) r c = VISC :=
          fun r c hrc => ih _ _ _ _ _ _ _ h1 r c hrc
        have hbz1 : row < ma.length ∧ col < rowLen ma row := by
          have hsk := (dfs_basic false fuel _ _ _ _ _ _ _ h1).skel
          rw [← hsk.1, ← hsk.2.1 row]
          exact hbz0
        cases b1 with
        | true =>
          simp only [h1] at h
          have hinj := Option.some.inj h
          have hm : m' = dfsPost false true ma row col :=
            (congrArg (fun t => t.2.1) hinj).symm
          subst hm
          exact exit true ma hch1 hbz1
        | false =>
        simp only [h1] at h
        cases h2 : dfs false fuel ma (wrapAdd row 0) (wrapAdd col (USIZE - 1))
            va with
        | none => simp only [h2] at h; exact Option.noConfusion h
        | some t2 =>
        obtain ⟨b2, mb, vb⟩ := t2
        have hch2 : ∀ r c, getCell mb r c = VISC →
            getCell (dfsMark m row col) r c = VISC :=
          fun r c hrc => hch1 r c (ih _ _ _ _ _ _ _ h2 r c hrc)
        have hbz2 : row < mb.length ∧ col < rowLen mb row := by
          have hsk := (dfs_basic false fuel _ _ _ _ _ _ _ h2).skel
          rw [← hsk.1, ← hsk.2.1 row]
          exact hbz1
        cases b2 with
        | true =>
          simp only [h2] at h
          have hinj := Option.some.inj h
          have hm : m' = dfsPost false true mb row col :=
            (congrArg (fun t => t.2.1) hinj).symm
          subst hm
          exact exit true mb hch2 hbz2
        | false =>
        simp only [h2] at h
        cases h3 : dfs false fuel mb (wrapAdd row 1) (wrapAdd col 0) vb with
        | none => simp only [h3] at h; exact Option.noConfusion h
        | some t3 =>
        obtain ⟨b3, mc, vc⟩ := t3
        have hch3 : ∀ r c, getCell mc r c = VISC →
            getCell (dfsMark m row col) r c = VISC :=
          fun r c hrc => hch2 r c (ih _ _ _ _ _ _ _ h3 r c hrc)
        have hbz3 : row < mc.length ∧ col < rowLen mc row := by
          have hsk := (dfs_basic false fuel _ _ _ _ _ _ _ h3).skel
          rw [← hsk.1, ← hsk.2.1 row]
          exact hbz2
        cases b3 with
        | true =>
          simp only [h3] at h
          have hinj := Option.some.inj h
          have hm : m' = dfsPost false true mc row col :=
            (congrArg (fun t => t.2.1) hinj).symm
          subst hm
          exact exit true mc hch3 hbz3
        | false =>
        simp only [h3] at h
        cases h4 : dfs false fuel mc (wrapAdd row 0) (wrapAdd col 1) vc with
        | none => simp only [h4] at h; exact Option.noConfusion h
        | some t4 =>
        obtain ⟨b4, mz, vz⟩ := t4
        have hch4 : ∀ r c, getCell mz r c = VISC →
            getCell (dfsMark m row col) r c = VISC :=
          fun r c hrc => hch3 r c (ih _ _ _ _ _ _ _ h4 r c hrc)
        have hbz4 : row < mz.length ∧ col < rowLen mz row := by
          have hsk := (dfs_basic false fuel _ _ _ _ _ _ _ h4).skel
          rw [← hsk.1, ← hsk.2.1 row]
          exact hbz3
        simp only [h4] at h
        have hinj := Option.some.inj h
        have hm : m' = dfsPost false b4 mz row col :=
          (congrArg (fun t => t.2.1) hinj).symm
        subst hm
        exact exit b4 mz hch4 hbz4

/-!  ### Claim C6  -/

/-- Counterexample to C6 as stated: the in-progress mark is the
Visited marker `'@'` itself (`dfsMark` writes `'@'`), and with
`display_visited` on it survives into the final grid: on this grid the
successful run leaves `'@'` on the explored dead-end cell. -/
theorem claim6_counterexample :
    dfsMark [['A', ' ']] 0 1 = [['A', '@']] ∧
    Option.map Prod.fst (dfsRun [['A', 'B'], [' ', '█']] (0, 0) true) =
      some true ∧
    Option.map (fun t => getCell t.2.1 1 0)
      (dfsRun [['A', 'B'], [' ', '█']] (0, 0) true) = some VISC :=
  ⟨by decide, by decide, by decide⟩

/-- C6 (amended): the in-progress marker `dfs` writes to cells on the
recursion stack is the Visited marker `'@'` itself, not a dedicated
sentinel; it never appears in the final grid when `display_visited`
is off: every frame then reverts its cell to Open or overwrites it
with Path before returning, so on a validated grid the returned grid
is `'@'`-free. -/
theorem claim6_inprogress_marker (m0 : Grid) (s : Coord)
    (hv : is_maze_valid m0 = Except.ok ()) (hs : get_start m0 = some s) :
    (∀ (m : Grid) (row col : Nat), getCell m row col ≠ START →
      dfsMark m row col = setCell m row col VISC) ∧
    (∀ b md vd, dfsRun m0 s false = some (b, md, vd) →
      ∀ r c, getCell md r c ≠ VISC) := by
  constructor
  · intro m row col hA
    unfold dfsMark
    rw [if_neg hA]
  · intro b md vd hd r c hrc
    exact valid_no_vis hv r c (dfs_noVis (dfsFuel m0) m0 s.1 s.2 ∅ b md vd
      hd r c hrc)

/-- Witness for the amended C6 theorem at a concrete validated
grid. -/
theorem claim6_inprogress_marker_w :
    (∀ (m : Grid) (row col : Nat), getCell m row col ≠ START →
      dfsMark m row col = setCell m row col VISC) ∧
    (∀ b md vd, dfsRun [['A', 'B']] (0, 0) false = some (b, md, vd) →
      ∀ r c, getCell md r c ≠ VISC) :=
  claim6_inprogress_marker [['A', 'B']] (0, 0) (by decide) (by decide)

/-!  ### The display_visited bisimulation  -/

/-- Relation between the grids of a `display_visited = true` run and a
`display_visited = false` run of the same search: the grids have the
same shape and agree cellwise except that an already-visited cell may
carry `'@'` in the first and `' '` in the second. -/
structure DvRel (vis : Finset Coord) (m₁ m₂ : Grid) : Prop where
  len : m₁.length = m₂.length
  rlen : ∀ r, rowLen m₁ r = rowLen m₂ r
  cell : ∀ r c, getCell m₁ r c = getCell m₂ r c ∨
    ((r, c) ∈ vis ∧ getCell m₁ r c = VISC ∧ getCell m₂ r c = OPENC)

theorem DvRel.mono {vis vis' : Finset Coord} {m₁ m₂ : Grid}
    (h : DvRel vis m₁ m₂) (hsub : vis ⊆ vis') : DvRel vis' m₁ m₂ :=
  ⟨h.len, h.rlen, fun r c => by
    rcases h.cell r c with hc | hc
    · exact Or.inl hc
    · exact Or.inr ⟨hsub hc.1, hc.2⟩⟩

/-- Related grids make the same `dfs` rejection decision. -/
theorem DvRel.rejectIff {vis : Finset Coord} {m₁ m₂ : Grid}
    (h : DvRel vis m₁ m₂) (row col : Nat) :
    dfsReject m₁ vis row col ↔ dfsReject m₂ vis row col := by
  unfold dfsReject
  constructor
  · rintro (h' | h' | h' | h' | h')
    · exact Or.inl (by rw [← h.len]; exact h')
    · exact Or.inr (Or.inl (by rw [← h.rlen row]; exact h'))
    · rcases h.cell row col with hc | hc
      · exact Or.inr (Or.inr (Or.inl (hc.symm.trans h')))
      · exact Or.inr (Or.inr (Or.inr (Or.inr hc.1)))
    · rcases h.cell row col with hc | hc
      · exact Or.inr (Or.inr (Or.inr (Or.inl (hc.symm.trans h'))))
      · rw [hc.2.1] at h'
        exact absurd h' (by decide)
    · exact Or.inr (Or.inr (Or.inr (Or.inr h')))
  · rintro (h' | h' | h' | h' | h')
    · exact Or.inl (by rw [h.len]; exact h')
    · exact Or.inr (Or.inl (by rw [h.rlen row]; exact h'))
    · rcases h.cell row col with hc | hc
      · exact Or.inr (Or.inr (Or.inl (hc.trans h')))
      · rw [hc.2.2] at h'
        exact absurd h' (by decide)
    · rcases h.cell row col with hc | hc
      · exact Or.inr (Or.inr (Or.inr (Or.inl (hc.trans h'))))
      · rw [hc.2.2] at h'
        exact absurd h' (by decide)
    · exact Or.inr (Or.inr (Or.inr (Or.inr h')))

/-- Marking the same non-rejected cell preserves the relation. -/
theorem DvRel.mark {vis : Finset Coord} {m₁ m₂ : Grid} {row col : Nat}
    (h : DvRel vis m₁ m₂)
    (hb₁ : row < m₁.length ∧ col < rowLen m₁ row)
    (hroot : getCell m₁ row col = getCell m₂ row col) :
    DvRel (insert (row, col) vis) (dfsMark m₁ row col)
      (dfsMark m₂ row col) := by
  have hb₂ : row < m₂.length ∧ col < rowLen m₂ row :=
    ⟨by rw [← h.len]; exact hb₁.1, by rw [← h.rlen row]; exact hb₁.2⟩
  unfold dfsMark
  by_cases hA : getCell m₁ row col = START
  · rw [if_pos hA, if_pos (hroot.symm.trans hA)]
    exact h.mono (Finset.subset_insert _ _)
  · rw [if_neg hA, if_neg (fun hc => hA (hroot.trans hc))]
    refine ⟨?_, ?_, ?_⟩
    · rw [length_setCell, length_setCell]; exact h.len
    · intro r; rw [rowLen_setCell, rowLen_setCell]; exact h.rlen r
    · intro r c
      by_cases hsame : r = row ∧ c = col
      · obtain ⟨rfl, rfl⟩ := hsame
        rw [getCell_set_self m₁ r c VISC hb₁.1 hb₁.2,
          getCell_set_self m₂ r c VISC hb₂.1 hb₂.2]
        exact Or.inl rfl
      · rw [getCell_set_ne m₁ row col VISC r c hsame,
          getCell_set_ne m₂ row col VISC r c hsame]
        rcases h.cell r c with hc | hc
        · exact Or.inl hc
        · exact Or.inr ⟨Finset.mem_insert_of_mem hc.1, hc.2⟩

/-- Bisimulation of `dfs` under the `display_visited` toggle: from
related states the two runs return the same boolean and visited set,
with related final grids. -/
theorem dfs_bisim :
    ∀ (fuel : Nat) (m₁ m₂ : Grid) (row col : Nat) (vis : Finset Coord)
      (b₁ b₂ : Bool) (m₁' m₂' : Grid) (v₁' v₂' : Finset Coord),
      DvRel vis m₁ m₂ →
      dfs true fuel m₁ row col vis = some (b₁, m₁', v₁') →
      dfs false fuel m₂ row col vis = some (b₂, m₂', v₂') →
      b₁ = b₂ ∧ v₁' = v₂' ∧ DvRel v₁' m₁' m₂' := by
  intro fuel
  induction fuel with
  | zero =>
    intro m₁ m₂ row col vis b₁ b₂ m₁' m₂' v₁' v₂' _ h₁ h₂
    simp only [dfs] at h₁
    exact Option.noConfusion h₁
  | succ fuel ih =>
    intro m₁ m₂ row col vis b₁ b₂ m₁' m₂' v₁' v₂' rel h₁ h₂
    simp only [dfs] at h₁ h₂
    by_cases hrej : dfsReject m₁ vis row col
    · rw [if_pos hrej] at h₁
      rw [if_pos ((rel.rejectIff row col).mp hrej)] at h₂
      have hinj₁ := Option.some.inj h₁
      have hinj₂ := Option.some.inj h₂
      have hb₁ : b₁ = false := (congrArg (fun t => t.1) hinj₁).symm
      have hm₁ : m₁' = m₁ := (congrArg (fun t => t.2.1) hinj₁).symm
      have hv₁ : v₁' = vis := (congrArg (fun t => t.2.2) hinj₁).symm
      have hb₂ : b₂ = false := (congrArg (fun t => t.1) hinj₂).symm
      have hm₂ : m₂' = m₂ := (congrArg (fun t => t.2.1) hinj₂).symm
      have hv₂ : v₂' = vis := (congrArg (fun t => t.2.2) hinj₂).symm
      subst hb₁; subst hm₁; subst hv₁; subst hb₂; subst hm₂; subst hv₂
      exact ⟨rfl, rfl, rel⟩
    · rw [if_neg hrej] at h₁
      rw [if_neg (fun hc => hrej ((rel.rejectIff row col).mpr hc))] at h₂
      obtain ⟨hbr, hbc, hAt, hW, hV⟩ := dfsReject_facts hrej
      have hroot : getCell m₁ row col = getCell m₂ row col := by
        rcases rel.cell row col with hc | hc
        · exact hc
        · exact absurd hc.1 hV
      by_cases hend : getCell m₁ row col = ENDC
      · rw [if_pos hend] at h₁
        rw [if_pos (hroot.symm.trans hend)] at h₂
        have hinj₁ := Option.some.inj h₁
        have hinj₂ := Option.some.inj h₂
        have hb₁ : b₁ = true := (congrArg (fun t => t.1) hinj₁).symm
        have hm₁ : m₁' = m₁ := (congrArg (fun t => t.2.1) hinj₁).symm
        have hv₁ : v₁' = vis := (congrArg (fun t => t.2.2) hinj₁).symm
        have hb₂ : b₂ = true := (congrArg (fun t => t.1) hinj₂).symm
        have hm₂ : m₂' = m₂ := (congrArg (fun t => t.2.1) hinj₂).symm
        have hv₂ : v₂' = vis := (congrArg (fun t => t.2.2) hinj₂).symm
        subst hb₁; subst hm₁; subst hv₁; subst hb₂; subst hm₂; subst hv₂
        exact ⟨rfl, rfl, rel⟩
      · rw [if_neg hend] at h₁
        rw [if_neg (fun hc => hend (hroot.trans hc))] at h₂
        have hrel1 : DvRel (insert (row, col) vis) (dfsMark m₁ row col)
            (dfsMark m₂ row col) := rel.mark ⟨hbr, hbc⟩ hroot
        have hbz0 : row < (dfsMark m₁ row col).length ∧
            col < rowLen (dfsMark m₁ row col) row := by
          unfold dfsMark
          by_cases hA : getCell m₁ row col = START
          · rw [if_pos hA]; exact ⟨hbr, hbc⟩
          · rw [if_neg hA]
            rw [length_setCell, rowLen_setCell]
            exact ⟨hbr, hbc⟩
        -- the common exit through the frame post-processing
        have exit : ∀ (res : Bool) (mz₁ mz₂ : Grid) (vz : Finset Coord),
            DvRel vz mz₁ mz₂ → (row, col) ∈ vz →
            (getCell mz₁ row col = VISC ∨ getCell mz₁ row col = START) →
            (row < mz₁.length ∧ col < rowLen mz₁ row) →
            DvRel vz (dfsPost true res mz₁ row col)
              (dfsPost false res mz₂ row col) := by
          intro res mz₁ mz₂ vz hrel hrv hAz hbz₁
          have hbz₂ : row < mz₂.length ∧ col < rowLen mz₂ row :=
            ⟨by rw [← hrel.len]; exact hbz₁.1,
             by rw [← hrel.rlen row]; exact hbz₁.2⟩
          have hpost₁g1 : ¬ (¬ (true = true) ∧
              getCell mz₁ row col ≠ START) := fun hc => hc.1 rfl
          rcases hAz with hV₁ | hS₁
          · have hS₁n : getCell mz₁ row col ≠ START := by
              rw [hV₁]; decide
            have hS₂n : getCell mz₂ row col ≠ START := by
              rcases hrel.cell row col with hc | hc
              · rw [← hc, hV₁]; decide
              · rw [hc.2.2]; decide
            have hpost₂g1 : (¬ (false = true) ∧
                getCell mz₂ row col ≠ START) :=
              ⟨fun hc => Bool.noConfusion hc, hS₂n⟩
            have hO₂ : getCell (setCell mz₂ row col OPENC) row col =
                OPENC := getCell_set_self mz₂ row col OPENC hbz₂.1 hbz₂.2
            cases res with
            | true =>
              have hg₂₁ : ((true : Bool) = true) ∧
                  getCell mz₁ row col ≠ START := ⟨rfl, hS₁n⟩
              have hg₂₂ : ((true : Bool) = true) ∧
                  getCell (setCell mz₂ row col OPENC) row col ≠ START := by
                refine ⟨rfl, ?_⟩
                rw [hO₂]; decide
              unfold dfsPost
              rw [if_neg hpost₁g1, if_pos hg₂₁, if_pos hpost₂g1,
                if_pos hg₂₂]
              refine ⟨?_, ?_, ?_⟩
              · rw [length_setCell, length_setCell, length_setCell]
                exact hrel.len
              · intro r
                rw [rowLen_setCell, rowLen_setCell, rowLen_setCell]
                exact hrel.rlen r
              · intro r c
                by_cases hsame : r = row ∧ c = col
                · obtain ⟨rfl, rfl⟩ := hsame
                  rw [getCell_set_self mz₁ r c PATHC hbz₁.1 hbz₁.2,
                    getCell_set_self _ r c PATHC
                      (by rw [length_setCell]; exact hbz₂.1)
                      (by rw [rowLen_setCell]; exact hbz₂.2)]
                  exact Or.inl rfl
                · rw [getCell_set_ne mz₁ row col PATHC r c hsame,
                    getCell_set_ne _ row col PATHC r c hsame,
                    getCell_set_ne mz₂ row col OPENC r c hsame]
                  exact hrel.cell r c
            | false =>
              have hg₂f : ¬ (((false : Bool) = true) ∧
                  getCell mz₁ row col ≠ START) :=
                fun hc => Bool.noConfusion hc.1
              have hg₂f₂ : ¬ (((false : Bool) = true) ∧
                  getCell (setCell mz₂ row col OPENC) row col ≠ START) :=
                fun hc => Bool.noConfusion hc.1
              unfold dfsPost
              rw [if_neg hpost₁g1, if_neg hg₂f, if_pos hpost₂g1,
                if_neg hg₂f₂]
              refine ⟨?_, ?_, ?_⟩
              · rw [length_setCell]; exact hrel.len
              · intro r; rw [rowLen_setCell]; exact hrel.rlen r
              · intro r c
                by_cases hsame : r = row ∧ c = col
                · obtain ⟨rfl, rfl⟩ := hsame
                  rw [hO₂, hV₁]
                  exact Or.inr ⟨hrv, rfl, rfl⟩
                · rw [getCell_set_ne mz₂ row col OPENC r c hsame]
                  exact hrel.cell r c
          · have hS₂ : getCell mz₂ row col = START := by
              rcases hrel.cell row col with hc | hc
              · exact hc.symm.trans hS₁
              · rw [hc.2.1] at hS₁
                exact absurd hS₁ (by decide)
            have g₁ : ¬ ((res = true) ∧ getCell mz₁ row col ≠ START) :=
              fun hc => hc.2 hS₁
            have g₂a : ¬ (¬ (false = true) ∧
                getCell mz₂ row col ≠ START) := fun hc => hc.2 hS₂
            have g₂b : ¬ ((res = true) ∧ getCell mz₂ row col ≠ START) :=
              fun hc => hc.2 hS₂
            unfold dfsPost
            rw [if_neg hpost₁g1, if_neg g₁, if_neg g₂a, if_neg g₂b]
            exact hrel
        -- walk the four paired recursive calls
        cases hc₁ : dfs true fuel (dfsMark m₁ row col)
            (wrapAdd row (USIZE - 1)) (wrapAdd col 0)
            (insert (row, col) vis) with
        | none => simp only [hc₁] at h₁; exact Option.noConfusion h₁
        | some t₁ =>
        cases hc₂ : dfs false fuel (dfsMark m₂ row col)
            (wrapAdd row (USIZE - 1)) (wrapAdd col 0)
            (insert (row, col) vis) with
        | none => simp only [hc₂] at h₂; exact Option.noConfusion h₂
        | some t₂ =>
        obtain ⟨ba, ma₁, va₁⟩ := t₁
        obtain ⟨ba', ma₂, va₂⟩ := t₂
        obtain ⟨hbeq, hveq, rela⟩ :=
          ih _ _ _ _ _ _ _ _ _ _ _ hrel1 hc₁ hc₂
        rw [← hbeq, ← hveq] at hc₂
        have hins1 : (row, col) ∈ va₁ :=
          (dfs_basic true fuel _ _ _ _ _ _ _ hc₁).mono
            (Finset.mem_insert_self _ _)
        have hAz1 : getCell ma₁ row col = VISC ∨
            getCell ma₁ row col = START := by
          rw [(dfs_basic true fuel _ _ _ _ _ _ _ hc₁).untouched (row, col)
            (Finset.mem_insert_self _ _)]
          exact dfsMark_cell m₁ row col ⟨hbr, hbc⟩
        have hbz1 : row < ma₁.length ∧ col < rowLen ma₁ row := by
          have hsk := (dfs_basic true fuel _ _ _ _ _ _ _ hc₁).skel
          rw [← hsk.1, ← hsk.2.1 row]
          exact hbz0
        cases ba with
        | true =>
          simp only [hc₁] at h₁
          simp only [hc₂] at h₂
          have hinj₁ := Option.some.inj h₁
          have hinj₂ := Option.some.inj h₂
          have hb₁ : b₁ = true := (congrArg (fun t => t.1) hinj₁).symm
          have hm₁ : m₁' = dfsPost true true ma₁ row col :=
            (congrArg (fun t => t.2.1) hinj₁).symm
          have hv₁ : v₁' = va₁ := (congrArg (fun t => t.2.2) hinj₁).symm
          have hb₂ : b₂ = true := (congrArg (fun t => t.1) hinj₂).symm
          have hm₂ : m₂' = dfsPost false true ma₂ row col :=
            (congrArg (fun t => t.2.1) hinj₂).symm
          have hv₂ : v₂' = va₁ := (congrArg (fun t => t.2.2) hinj₂).symm
          refine ⟨hb₁.trans hb₂.symm, hv₁.trans hv₂.symm, ?_⟩
          rw [hv₁, hm₁, hm₂]
          exact exit true ma₁ ma₂ va₁ rela hins1 hAz1 hbz1
        | false =>
        simp only [hc₁] at h₁
        simp only [hc₂] at h₂
        cases hd₁ : dfs true fuel ma₁ (wrapAdd row 0)
            (wrapAdd col (USIZE - 1)) va₁ with
        | none => simp only [hd₁] at h₁; exact Option.noConfusion h₁
        | some u₁ =>
        cases hd₂ : dfs false fuel ma₂ (wrapAdd row 0)
            (wrapAdd col (USIZE - 1)) va₁ with
        | none => simp only [hd₂] at h₂; exact Option.noConfusion h₂
        | some u₂ =>
        obtain ⟨bb, mb₁, vb₁⟩ := u₁
        obtain ⟨bb', mb₂, vb₂⟩ := u₂
        obtain ⟨hbeq, hveq, relb⟩ :=
          ih _ _ _ _ _ _ _ _ _ _ _ rela hd₁ hd₂
        rw [← hbeq, ← hveq] at hd₂
        have hins2 : (row, col) ∈ vb₁ :=
          (dfs_basic true fuel _ _ _ _ _ _ _ hd₁).mono hins1
        have hAz2 : getCell mb₁ row col = VISC ∨
            getCell mb₁ row col = START := by
          rw [(dfs_basic true fuel _ _ _ _ _ _ _ hd₁).untouched (row, col)
            hins1]
          exact hAz1
        have hbz2 : row < mb₁.length ∧ col < rowLen mb₁ row := by
          have hsk := (dfs_basic true fuel _ _ _ _ _ _ _ hd₁).skel
          rw [← hsk.1, ← hsk.2.1 row]
          exact hbz1
        cases bb with
        | true =>
          simp only [hd₁] at h₁
          simp only [hd₂] at h₂
          have hinj₁ := Option.some.inj h₁
          have hinj₂ := Option.some.inj h₂
          have hb₁ : b₁ = true := (congrArg (fun t => t.1) hinj₁).symm
          have hm₁ : m₁' = dfsPost true true mb₁ row col :=
            (congrArg (fun t => t.2.1) hinj₁).symm
          have hv₁ : v₁' = vb₁ := (congrArg (fun t => t.2.2) hinj₁).symm
          have hb₂ : b₂ = true := (congrArg (fun t => t.1) hinj₂).symm
          have hm₂ : m₂' = dfsPost false true mb₂ row col :=
            (congrArg (fun t => t.2.1) hinj₂).symm
          have hv₂ : v₂' = vb₁ := (congrArg (fun t => t.2.2) hinj₂).symm
          refine ⟨hb₁.trans hb₂.symm, hv₁.trans hv₂.symm, ?_⟩
          rw [hv₁, hm₁, hm₂]
          exact exit true mb₁ mb₂ vb₁ relb hins2 hAz2 hbz2
        | false =>
        simp only [hd₁] at h₁
        simp only [hd₂] at h₂
        cases he₁ : dfs true fuel mb₁ (wrapAdd row 1) (wrapAdd col 0)
            vb₁ with
        | none => simp only [he₁] at h₁; exact Option.noConfusion h₁
        | some w₁ =>
        cases he₂ : dfs false fuel mb₂ (wrapAdd row 1) (wrapAdd col 0)
            vb₁ with
        | none => simp only [he₂] at h₂; exact Option.noConfusion h₂
        | some w₂ =>
        obtain ⟨bc, mc₁, vc₁⟩ := w₁
        obtain ⟨bc', mc₂, vc₂⟩ := w₂
        obtain ⟨hbeq, hveq, relc⟩ :=
          ih _ _ _ _ _ _ _ _ _ _ _ relb he₁ he₂
        rw [← hbeq, ← hveq] at he₂
        have hins3 : (row, col) ∈ vc₁ :=
          (dfs_basic true fuel _ _ _ _ _ _ _ he₁).mono hins2
        have hAz3 : getCell mc₁ row col = VISC ∨
            getCell mc₁ row col = START := by
          rw [(dfs_basic true fuel _ _ _ _ _ _ _ he₁).untouched (row, col)
            hins2]
          exact hAz2
        have hbz3 : row < mc₁.length ∧ col < rowLen mc₁ row := by
          have hsk := (dfs_basic true fuel _ _ _ _ _ _ _ he₁).skel
          rw [← hsk.1, ← hsk.2.1 row]
          exact hbz2
        cases bc with
        | true =>
          simp only [he₁] at h₁
          simp only [he₂] at h₂
          have hinj₁ := Option.some.inj h₁
          have hinj₂ := Option.some.inj h₂
          have hb₁ : b₁ = true := (congrArg (fun t => t.1) hinj₁).symm
          have hm₁ : m₁' = dfsPost true true mc₁ row col :=
            (congrArg (fun t => t.2.1) hinj₁).symm
          have hv₁ : v₁' = vc₁ := (congrArg (fun t => t.2.2) hinj₁).symm
          have hb₂ : b₂ = true := (congrArg (fun t => t.1) hinj₂).symm
          have hm₂ : m₂' = dfsPost false true mc₂ row col :=
            (congrArg (fun t => t.2.1) hinj₂).symm
          have hv₂ : v₂' = vc₁ := (congrArg (fun t => t.2.2) hinj₂).symm
          refine ⟨hb₁.trans hb₂.symm, hv₁.trans hv₂.symm, ?_⟩
          rw [hv₁, hm₁, hm₂]
          exact exit true mc₁ mc₂ vc₁ relc hins3 hAz3 hbz3
        | false =>
        simp only [he₁] at h₁
        simp only [he₂] at h₂
        cases hf₁ : dfs true fuel mc₁ (wrapAdd row 0) (wrapAdd col 1)
            vc₁ with
        | none => simp only [hf₁] at h₁; exact Option.noConfusion h₁
        | some z₁ =>
        cases hf₂ : dfs false fuel mc₂ (wrapAdd row 0) (wrapAdd col 1)
            vc₁ with
        | none => simp only [hf₂] at h₂; exact Option.noConfusion h₂
        | some z₂ =>
        obtain ⟨bz, mz₁, vz₁⟩ := z₁
        obtain ⟨bz', mz₂, vz₂⟩ := z₂
        obtain ⟨hbeq, hveq, relz⟩ :=
          ih _ _ _ _ _ _ _ _ _ _ _ relc hf₁ hf₂
        rw [← hbeq, ← hveq] at hf₂
        have hins4 : (row, col) ∈ vz₁ :=
          (dfs_basic true fuel _ _ _ _ _ _ _ hf₁).mono hins3
        have hAz4 : getCell mz₁ row col = VISC ∨
            getCell mz₁ row col = START := by
          rw [(dfs_basic true fuel _ _ _ _ _ _ _ hf₁).untouched (row, col)
            hins3]
          exact hAz3
        have hbz4 : row < mz₁.length ∧ col < rowLen mz₁ row := by
          have hsk := (dfs_basic true fuel _ _ _ _ _ _ _ hf₁).skel
          rw [← hsk.1, ← hsk.2.1 row]
          exact hbz3
        simp only [hf₁] at h₁
        simp only [hf₂] at h₂
        have hinj₁ := Option.some.inj h₁
        have hinj₂ := Option.some.inj h₂
        have hb₁ : b₁ = bz := (congrArg (fun t => t.1) hinj₁).symm
        have hm₁ : m₁' = dfsPost true bz mz₁ row col :=
          (congrArg (fun t => t.2.1) hinj₁).symm
        have hv₁ : v₁' = vz₁ := (congrArg (fun t => t.2.2) hinj₁).symm
        have hb₂ : b₂ = bz := (congrArg (fun t => t.1) hinj₂).symm
        have hm₂ : m₂' = dfsPost false bz mz₂ row col :=
          (congrArg (fun t => t.2.1) hinj₂).symm
        have hv₂ : v₂' = vz₁ := (congrArg (fun t => t.2.2) hinj₂).symm
        refine ⟨hb₁.trans hb₂.symm, hv₁.trans hv₂.symm, ?_⟩
        rw [hv₁, hm₁, hm₂]
        exact exit bz mz₁ mz₂ vz₁ relz hins4 hAz4 hbz4

/-- Marking the same path in two related grids keeps them related. -/
theorem markPath_pair :
    ∀ (q : List Coord) (g₁ g₂ : Grid),
      g₁.length = g₂.length → (∀ r, rowLen g₁ r = rowLen g₂ r) →
      (∀ r c, getCell g₁ r c = getCell g₂ r c ∨
        (getCell g₁ r c = VISC ∧ getCell g₂ r c = OPENC)) →
      (markPath g₁ q).length = (markPath g₂ q).length ∧
      (∀ r, rowLen (markPath g₁ q) r = rowLen (markPath g₂ q) r) ∧
      (∀ r c, getCell (markPath g₁ q) r c = getCell (markPath g₂ q) r c ∨
        (getCell (markPath g₁ q) r c = VISC ∧
         getCell (markPath g₂ q) r c = OPENC)) := by
  intro q
  induction q with
  | nil => intro g₁ g₂ h1 h2 h3; exact ⟨h1, h2, h3⟩
  | cons rc rest ih =>
    intro g₁ g₂ h1 h2 h3
    simp only [markPath]
    apply ih
    · rw [length_setCell, length_setCell]; exact h1
    · intro r; rw [rowLen_setCell, rowLen_setCell]; exact h2 r
    · intro r c
      by_cases hsame : r = rc.1 ∧ c = rc.2
      · obtain ⟨rfl, rfl⟩ := hsame
        by_cases hb : rc.1 < g₁.length ∧ rc.2 < rowLen g₁ rc.1
        · rw [getCell_set_self g₁ rc.1 rc.2 PATHC hb.1 hb.2,
            getCell_set_self g₂ rc.1 rc.2 PATHC (by rw [← h1]; exact hb.1)
              (by rw [← h2 rc.1]; exact hb.2)]
          exact Or.inl rfl
        · rw [getCell_set_oob g₁ rc.1 rc.2 PATHC hb rc.1 rc.2,
            getCell_set_oob g₂ rc.1 rc.2 PATHC
              (fun hc => hb ⟨by rw [h1]; exact hc.1,
                by rw [h2 rc.1]; exact hc.2⟩) rc.1 rc.2]
          exact h3 rc.1 rc.2
      · rw [getCell_set_ne g₁ rc.1 rc.2 PATHC r c hsame,
          getCell_set_ne g₂ rc.1 rc.2 PATHC r c hsame]
        exact h3 r c

/-- Related grids agree on the neighbor filter. -/
theorem passable_congr {g₁ g₂ : Grid}
    (h1 : g₁.length = g₂.length) (h2 : ∀ r, rowLen g₁ r = rowLen g₂ r)
    (h3 : ∀ r c, getCell g₁ r c = getCell g₂ r c ∨
      (getCell g₁ r c = VISC ∧ getCell g₂ r c = OPENC)) :
    ∀ rc : Coord, passable g₁ rc = passable g₂ rc := by
  intro rc
  unfold passable
  rw [decide_eq_decide]
  rw [h1, h2 rc.1]
  constructor
  · rintro ⟨a, b, c'⟩
    refine ⟨a, b, ?_⟩
    rcases h3 rc.1 rc.2 with hc | hc
    · rw [← hc]; exact c'
    · rw [hc.2]; decide
  · rintro ⟨a, b, c'⟩
    refine ⟨a, b, ?_⟩
    rcases h3 rc.1 rc.2 with hc | hc
    · rw [hc]; exact c'
    · rw [hc.1]; decide

/-- Two grids with the same neighbor filter enqueue identically. -/
theorem enqueueAll_congr {g₁ g₂ : Grid}
    (hp : ∀ rc : Coord, passable g₁ rc = passable g₂ rc)
    (path : List Coord) :
    ∀ (nbrs : List Coord) (fr : List Entry) (vis : Finset Coord),
      enqueueAll g₁ path nbrs fr vis = enqueueAll g₂ path nbrs fr vis := by
  intro nbrs
  induction nbrs with
  | nil => intro fr vis; rfl
  | cons rc rest ih =>
    intro fr vis
    simp only [enqueueAll]
    rw [hp rc]
    by_cases hpc : passable g₂ rc = true
    · rw [if_pos hpc, if_pos hpc]
      by_cases hv : rc ∈ vis
      · rw [if_pos hv, if_pos hv]; exact ih _ _
      · rw [if_neg hv, if_neg hv]; exact ih _ _
    · rw [if_neg hpc, if_neg hpc]; exact ih _ _

/-- Bisimulation of the shared search loop under the `display_visited`
toggle: the visited-displaying run on a marked grid and the plain run
on the original grid return the same boolean, and their final grids
differ only by `'@'` over open floor. -/
theorem searchLoop_bisim {m0 : Grid} {s : Coord} (ctx : Ctx m0 s)
    {sel : List Entry → Option (Entry × List Entry)} (hsel : SelSpec sel)
    (hopen : ∀ r c, r < m0.length → c < rowLen m0 r →
      getCell m0 r c = START ∨ getCell m0 r c = ENDC ∨
      getCell m0 r c = WALL ∨ getCell m0 r c = OPENC) :
    ∀ (fuel : Nat) (m₁ : Grid) (fr : List Entry) (vis : Finset Coord)
      (b₁ b₂ : Bool) (m₁' m₂' : Grid),
      LoopInv m0 s m₁ fr vis →
      (∀ r c, getCell m₁ r c = getCell m0 r c ∨
        ((r, c) ∈ vis ∧ getCell m₁ r c = VISC ∧
          getCell m0 r c = OPENC)) →
      searchLoop sel true fuel m₁ fr vis = some (b₁, m₁') →
      searchLoop sel false fuel m0 fr vis = some (b₂, m₂') →
      b₁ = b₂ ∧ ∀ r c, getCell m₁' r c = getCell m₂' r c ∨
        (getCell m₁' r c = VISC ∧ getCell m₂' r c = OPENC) := by
  intro fuel
  induction fuel with
  | zero =>
    intro m₁ fr vis b₁ b₂ m₁' m₂' _ _ h₁ h₂
    simp only [searchLoop] at h₁
    exact Option.noConfusion h₁
  | succ fuel ih =>
    intro m₁ fr vis b₁ b₂ m₁' m₂' inv rel h₁ h₂
    simp only [searchLoop] at h₁ h₂
    have relw : ∀ r c, getCell m₁ r c = getCell m0 r c ∨
        (getCell m₁ r c = VISC ∧ getCell m0 r c = OPENC) :=
      fun r c => (rel r c).imp id And.right
    have hlen : m₁.length = m0.length := inv.skel.1.symm
    have hrlen : ∀ r, rowLen m₁ r = rowLen m0 r :=
      fun r => (inv.skel.2.1 r).symm
    cases hpop : sel fr with
    | none =>
      simp only [hpop] at h₁ h₂
      have hinj₁ := Option.some.inj h₁
      have hinj₂ := Option.some.inj h₂
      have hb₁ : b₁ = false := (congrArg Prod.fst hinj₁).symm
      have hm₁ : m₁' = m₁ := (congrArg Prod.snd hinj₁).symm
      have hb₂ : b₂ = false := (congrArg Prod.fst hinj₂).symm
      have hm₂ : m₂' = m0 := (congrArg Prod.snd hinj₂).symm
      refine ⟨hb₁.trans hb₂.symm, ?_⟩
      rw [hm₁, hm₂]
      exact relw
    | some p =>
      obtain ⟨e, rest⟩ := p
      simp only [hpop] at h₁ h₂
      have hperm : List.Perm fr (e :: rest) := hsel.2 fr e rest hpop
      have hEinv : entryInv m0 s vis e :=
        inv.entries e (hperm.mem_iff.mpr (List.mem_cons_self e rest))
      have hpe : passable m0 e.1 = true := hEinv.1
      have hein0 : inBounds m0 e.1 := ((passable_iff m0 e.1).mp hpe).1
      by_cases hend : getCell m₁ e.1.1 e.1.2 = ENDC
      · have hend₂ : getCell m0 e.1.1 e.1.2 = ENDC := by
          rcases rel e.1.1 e.1.2 with hc | hc
          · exact hc.symm.trans hend
          · rw [hc.2.1] at hend
            exact absurd hend (by decide)
        rw [if_pos hend] at h₁
        rw [if_pos hend₂] at h₂
        have hinj₁ := Option.some.inj h₁
        have hinj₂ := Option.some.inj h₂
        have hb₁ : b₁ = true := (congrArg Prod.fst hinj₁).symm
        have hm₁ : m₁' = markPath m₁ e.2.tail := (congrArg Prod.snd hinj₁).symm
        have hb₂ : b₂ = true := (congrArg Prod.fst hinj₂).symm
        have hm₂ : m₂' = markPath m0 e.2.tail := (congrArg Prod.snd hinj₂).symm
        refine ⟨hb₁.trans hb₂.symm, ?_⟩
        rw [hm₁, hm₂]
        exact (markPath_pair e.2.tail m₁ m0 hlen hrlen relw).2.2
      · have hend₂ : ¬ getCell m0 e.1.1 e.1.2 = ENDC := by
          intro hc2
          rcases rel e.1.1 e.1.2 with hc | hc
          · exact hend (hc.trans hc2)
          · rw [hc.2.2] at hc2
            exact absurd hc2 (by decide)
        rw [if_neg hend] at h₁
        rw [if_neg hend₂] at h₂
        have hstep := LoopInv.step ctx hsel true inv hpop hend
        by_cases hS : getCell m₁ e.1.1 e.1.2 = START
        case neg =>
          have hneS : getCell m₁ e.1.1 e.1.2 ≠ START := hS
          have hgT : True ∧ getCell m₁ e.1.1 e.1.2 ≠ START := ⟨trivial, hneS⟩
          have hgS : (true = true) ∧ getCell m₁ e.1.1 e.1.2 ≠ START :=
            ⟨rfl, hneS⟩
          rw [if_pos hgT] at h₁
          rw [if_pos hgS] at hstep
          have hg₂ : ¬ ((false = true) ∧
              getCell m0 e.1.1 e.1.2 ≠ START) :=
            fun hc => Bool.noConfusion hc.1
          rw [if_neg hg₂] at h₂
          have hes : e.1 ≠ s := by
            intro hh
            apply hneS
            have hsS := (startCell_of_skelEq inv.skel s.1 s.2).mp ctx.sA
            rw [hh]
            exact hsS
          have hev : e.1 ∈ vis := by
            rcases hEinv.2.1 with h' | h'
            · exact h'
            · exact absurd h' hes
          have hein₁ : e.1.1 < m₁.length ∧ e.1.2 < rowLen m₁ e.1.1 :=
            ⟨by rw [hlen]; exact hein0.1, by rw [hrlen e.1.1]; exact hein0.2⟩
          have relm : ∀ r c,
              getCell (setCell m₁ e.1.1 e.1.2 VISC) r c =
                getCell m0 r c ∨
              ((r, c) ∈ vis ∧
                getCell (setCell m₁ e.1.1 e.1.2 VISC) r c = VISC ∧
                getCell m0 r c = OPENC) := by
            intro r c
            by_cases hsame : r = e.1.1 ∧ c = e.1.2
            · obtain ⟨rfl, rfl⟩ := hsame
              right
              refine ⟨hev, getCell_set_self m₁ e.1.1 e.1.2 VISC
                hein₁.1 hein₁.2, ?_⟩
              rcases rel e.1.1 e.1.2 with hc | hc
              · rcases hopen e.1.1 e.1.2 hein0.1 hein0.2 with h' | h' | h' | h'
                · exact absurd (hc.trans h') hneS
                · exact absurd h' hend₂
                · exact absurd h' ((passable_iff m0 e.1).mp hpe).2
                · exact h'
              · exact hc.2.2
            · rw [getCell_set_ne m₁ e.1.1 e.1.2 VISC r c hsame]
              exact rel r c
          have hpeq : ∀ rc : Coord,
              passable (setCell m₁ e.1.1 e.1.2 VISC) rc = passable m0 rc :=
            passable_congr (by rw [length_setCell]; exact hlen)
              (fun r => by rw [rowLen_setCell]; exact hrlen r)
              (fun r c => (relm r c).imp id And.right)
          have henq := enqueueAll_congr hpeq (e.2 ++ [e.1])
            (neighborCoords e.1.1 e.1.2) rest vis
          rw [← henq] at h₂
          have hmono := enqueueAll_vis_mono (setCell m₁ e.1.1 e.1.2 VISC)
            (e.2 ++ [e.1]) (neighborCoords e.1.1 e.1.2) rest vis
          exact ih _ _ _ _ _ _ _ hstep
            (fun r c => (relm r c).imp id
              (fun hc => ⟨hmono hc.1, hc.2⟩)) h₁ h₂
        case pos =>
          have hgT : ¬ (True ∧ getCell m₁ e.1.1 e.1.2 ≠ START) :=
            fun hc => hc.2 hS
          have hgS : ¬ ((true = true) ∧ getCell m₁ e.1.1 e.1.2 ≠ START) :=
            fun hc => hc.2 hS
          rw [if_neg hgT] at h₁
          rw [if_neg hgS] at hstep
          have hg₂ : ¬ ((false = true) ∧
              getCell m0 e.1.1 e.1.2 ≠ START) :=
            fun hc => Bool.noConfusion hc.1
          rw [if_neg hg₂] at h₂
          have hpeq : ∀ rc : Coord, passable m₁ rc = passable m0 rc :=
            passable_congr hlen hrlen relw
          have henq := enqueueAll_congr hpeq (e.2 ++ [e.1])
            (neighborCoords e.1.1 e.1.2) rest vis
          rw [← henq] at h₂
          have hmono := enqueueAll_vis_mono m₁
            (e.2 ++ [e.1]) (neighborCoords e.1.1 e.1.2) rest vis
          exact ih _ _ _ _ _ _ _ hstep
            (fun r c => (rel r c).imp id
              (fun hc => ⟨hmono hc.1, hc.2⟩)) h₁ h₂

/-!  ### Enqueue traces  -/

/-- `enqueueAll` instrumented with a log of the coordinates actually
pushed (each push also tags the coordinate visited, exactly as in the
source). -/
def enqueueAllT (m : Grid) (path : List Coord) :
    List Coord → List Entry → Finset Coord → List Coord →
      (List Entry × Finset Coord) × List Coord
  | [], fr, vis, log => ((fr, vis), log)
  | rc :: rest, fr, vis, log =>
    if passable m rc then
      if rc ∈ vis then enqueueAllT m path rest fr vis log
      else enqueueAllT m path rest (fr ++ [(rc, path)]) (insert rc vis)
        (log ++ [rc])
    else enqueueAllT m path rest fr vis log

/-- The search loop instrumented with the enqueue log. -/
def searchLoopT (sel : List Entry → Option (Entry × List Entry))
    (dv : Bool) : Nat → Grid → List Entry → Finset Coord → List Coord →
      Option ((Bool × Grid) × List Coord)
  | 0, _, _, _, _ => none
  | fuel + 1, m, fr, vis, log =>
    match sel fr with
    | none => some ((false, m), log)
    | some (e, rest) =>
      if getCell m e.1.1 e.1.2 = ENDC then
        some ((true, markPath m e.2.tail), log)
      else
        let m1 := if dv ∧ getCell m e.1.1 e.1.2 ≠ START then
          setCell m e.1.1 e.1.2 VISC else m
        let path1 := e.2 ++ [e.1]
        let st := enqueueAllT m1 path1 (neighborCoords e.1.1 e.1.2) rest
          vis log
        searchLoopT sel dv fuel m1 st.1.1 st.1.2 st.2

/-- Dropping the log recovers `enqueueAll`. -/
theorem enqueueAllT_fst (m : Grid) (path : List Coord) :
    ∀ (nbrs : List Coord) (fr : List Entry) (vis : Finset Coord)
      (log : List Coord),
      (enqueueAllT m path nbrs fr vis log).1 =
        enqueueAll m path nbrs fr vis := by
  intro nbrs
  induction nbrs with
  | nil => intro fr vis log; rfl
  | cons rc rest ih =>
    intro fr vis log
    simp only [enqueueAllT, enqueueAll]
    by_cases hp : passable m rc = true
    · rw [if_pos hp, if_pos hp]
      by_cases hv : rc ∈ vis
      · rw [if_pos hv, if_pos hv]; exact ih _ _ _
      · rw [if_neg hv, if_neg hv]; exact ih _ _ _
    · rw [if_neg hp, if_neg hp]; exact ih _ _ _

/-- The log stays duplicate-free and inside the visited set: a push
requires the coordinate to be unvisited and tags it visited. -/
theorem enqueueAllT_log (m : Grid) (path : List Coord) :
    ∀ (nbrs : List Coord) (fr : List Entry) (vis : Finset Coord)
      (log : List Coord), log.Nodup → (∀ x ∈ log, x ∈ vis) →
      (enqueueAllT m path nbrs fr vis log).2.Nodup ∧
      (∀ x ∈ (enqueueAllT m path nbrs fr vis log).2,
        x ∈ (enqueueAll m path nbrs fr vis).2) := by
  intro nbrs
  induction nbrs with
  | nil =>
    intro fr vis log h1 h2
    exact ⟨h1, fun x hx => h2 x hx⟩
  | cons rc rest ih =>
    intro fr vis log h1 h2
    simp only [enqueueAllT, enqueueAll]
    by_cases hp : passable m rc = true
    · rw [if_pos hp, if_pos hp]
      by_cases hv : rc ∈ vis
      · rw [if_pos hv, if_pos hv]; exact ih _ _ _ h1 h2
      · rw [if_neg hv, if_neg hv]
        apply ih
        · rw [List.nodup_append]
          refine ⟨h1, List.nodup_singleton rc, ?_⟩
          intro a ha hb
          rw [List.mem_singleton.mp hb] at ha
          exact hv (h2 rc ha)
        · intro x hx
          rcases List.mem_append.mp hx with h' | h'
          · exact Finset.mem_insert_of_mem (h2 x h')
          · rw [List.mem_singleton.mp h']
            exact Finset.mem_insert_self _ _
    · rw [if_neg hp, if_neg hp]; exact ih _ _ _ h1 h2

/-- Dropping the log recovers the search loop. -/
theorem searchLoopT_proj (sel : List Entry → Option (Entry × List Entry))
    (dv : Bool) :
    ∀ (fuel : Nat) (m : Grid) (fr : List Entry) (vis : Finset Coord)
      (log : List Coord),
      Option.map Prod.fst (searchLoopT sel dv fuel m fr vis log) =
        searchLoop sel dv fuel m fr vis := by
  intro fuel
  induction fuel with
  | zero => intro m fr vis log; rfl
  | succ fuel ih =>
    intro m fr vis log
    simp only [searchLoopT, searchLoop]
    cases hpop : sel fr with
    | none => simp only [hpop]; rfl
    | some p =>
      obtain ⟨e, rest⟩ := p
      simp only [hpop]
      by_cases hend : getCell m e.1.1 e.1.2 = ENDC
      · rw [if_pos hend, if_pos hend]
        rfl
      · rw [if_neg hend, if_neg hend]
        rw [enqueueAllT_fst]
        exact ih _ _ _ _

/-- Along any run of the instrumented loop from an invariant state,
the enqueue log never repeats a coordinate, and every logged
coordinate is a cell of the grid. -/
theorem searchLoopT_log_spec {m0 : Grid} {s : Coord} (ctx : Ctx m0 s)
    {sel : List Entry → Option (Entry × List Entry)} (hsel : SelSpec sel)
    (dv : Bool) :
    ∀ (fuel : Nat) (m : Grid) (fr : List Entry) (vis : Finset Coord)
      (log : List Coord), LoopInv m0 s m fr vis → log.Nodup →
      (∀ x ∈ log, x ∈ vis) →
      ∀ (b : Bool) (m' : Grid) (log' : List Coord),
        searchLoopT sel dv fuel m fr vis log = some ((b, m'), log') →
        log'.Nodup ∧ ∀ x ∈ log', x ∈ allCoords m0 := by
  intro fuel
  induction fuel with
  | zero =>
    intro m fr vis log _ _ _ b m' log' h
    simp only [searchLoopT] at h
    exact Option.noConfusion h
  | succ fuel ih =>
    intro m fr vis log inv h1 h2 b m' log' h
    simp only [searchLoopT] at h
    have final : (∀ x ∈ log, x ∈ vis) → log.Nodup → log' = log →
        log'.Nodup ∧ ∀ x ∈ log', x ∈ allCoords m0 := by
      intro hmem hnd heq
      subst heq
      refine ⟨hnd, fun x hx => ?_⟩
      rw [mem_allCoords]
      exact ((passable_iff m0 x).mp (inv.visSub x (hmem x hx))).1
    cases hpop : sel fr with
    | none =>
      simp only [hpop] at h
      have hinj := Option.some.inj h
      exact final h2 h1 (congrArg Prod.snd hinj).symm
    | some p =>
      obtain ⟨e, rest⟩ := p
      simp only [hpop] at h
      by_cases hend : getCell m e.1.1 e.1.2 = ENDC
      · rw [if_pos hend] at h
        have hinj := Option.some.inj h
        exact final h2 h1 (congrArg Prod.snd hinj).symm
      · rw [if_neg hend] at h
        have hfst := enqueueAllT_fst
          (if dv ∧ getCell m e.1.1 e.1.2 ≠ START then
            setCell m e.1.1 e.1.2 VISC else m)
          (e.2 ++ [e.1]) (neighborCoords e.1.1 e.1.2) rest vis log
        obtain ⟨hnd', hmem'⟩ := enqueueAllT_log
          (if dv ∧ getCell m e.1.1 e.1.2 ≠ START then
            setCell m e.1.1 e.1.2 VISC else m)
          (e.2 ++ [e.1]) (neighborCoords e.1.1 e.1.2) rest vis log h1 h2
        rw [hfst] at h
        exact ih _ _ _ _ (LoopInv.step ctx hsel dv inv hpop hend)
          hnd' hmem' b m' log' h

/-- `dfs` instrumented with a log of the cells each frame enters past
the rejection checks. -/
def dfsT (dv : Bool) : Nat → Grid → Nat → Nat → Finset Coord →
    List Coord → Option ((Bool × Grid × Finset Coord) × List Coord)
  | 0, _, _, _, _, _ => none
  | fuel + 1, m, row, col, vis, log =>
    if dfsReject m vis row col then some ((false, m, vis), log)
    else if getCell m row col = ENDC then
      some ((true, m, vis), log ++ [(row, col)])
    else
      let vis1 := insert (row, col) vis
      let log1 := log ++ [(row, col)]
      let m1 := dfsMark m row col
      match dfsT dv fuel m1 (wrapAdd row (USIZE - 1)) (wrapAdd col 0)
          vis1 log1 with
      | none => none
      | some ((true, ma, va), la) =>
        some ((true, dfsPost dv true ma row col, va), la)
      | some ((false, ma, va), la) =>
      match dfsT dv fuel ma (wrapAdd row 0) (wrapAdd col (USIZE - 1))
          va la with
      | none => none
      | some ((true, mb, vb), lb) =>
        some ((true, dfsPost dv true mb row col, vb), lb)
      | some ((false, mb, vb), lb) =>
      match dfsT dv fuel mb (wrapAdd row 1) (wrapAdd col 0) vb lb with
      | none => none
      | some ((true, mc, vc), lc) =>
        some ((true, dfsPost dv true mc row col, vc), lc)
      | some ((false, mc, vc), lc) =>
      match dfsT dv fuel mc (wrapAdd row 0) (wrapAdd col 1) vc lc with
      | none => none
      | some ((res, mz, vz), lz) =>
        some ((res, dfsPost dv res mz row col, vz), lz)

/-- Dropping the log recovers `dfs`. -/
theorem dfsT_proj (dv : Bool) :
    ∀ (fuel : Nat) (m : Grid) (row col : Nat) (vis : Finset Coord)
      (log : List Coord),
      Option.map Prod.fst (dfsT dv fuel m row col vis log) =
        dfs dv fuel m row col vis := by
  intro fuel
  induction fuel with
  | zero => intro m row col vis log; rfl
  | succ fuel ih =>
    intro m row col vis log
    simp only [dfsT, dfs]
    by_cases hrej : dfsReject m vis row col
    · rw [if_pos hrej, if_pos hrej]
      rfl
    · rw [if_neg hrej, if_neg hrej]
      by_cases hend : getCell m row col = ENDC
      · rw [if_pos hend, if_pos hend]
        rfl
      · rw [if_neg hend, if_neg hend]
        cases hT1 : dfsT dv fuel (dfsMark m row col)
            (wrapAdd row (USIZE - 1)) (wrapAdd col 0)
            (insert (row, col) vis) (log ++ [(row, col)]) with
        | none =>
          have hD1 : dfs dv fuel (dfsMark m row col)
              (wrapAdd row (USIZE - 1)) (wrapAdd col 0)
              (insert (row, col) vis) = none := by
            rw [← ih _ _ _ _ (log ++ [(row, col)]), hT1]
            rfl
          simp only [hT1, hD1]
          rfl
        | some t1 =>
        obtain ⟨⟨b1, ma, va⟩, la⟩ := t1
        have hD1 : dfs dv fuel (dfsMark m row col)
            (wrapAdd row (USIZE - 1)) (wrapAdd col 0)
            (insert (row, col) vis) = some (b1, ma, va) := by
          rw [← ih _ _ _ _ (log ++ [(row, col)]), hT1]
          rfl
        cases b1 with
        | true => simp only [hT1, hD1]; rfl
        | false =>
        simp only [hT1, hD1]
        cases hT2 : dfsT dv fuel ma (wrapAdd row 0)
            (wrapAdd col (USIZE - 1)) va la with
        | none =>
          have hD2 : dfs dv fuel ma (wrapAdd row 0)
              (wrapAdd col (USIZE - 1)) va = none := by
            rw [← ih _ _ _ _ la, hT2]
            rfl
          simp only [hT2, hD2]
          rfl
        | some t2 =>
        obtain ⟨⟨b2, mb, vb⟩, lb⟩ := t2
        have hD2 : dfs dv fuel ma (wrapAdd row 0)
            (wrapAdd col (USIZE - 1)) va = some (b2, mb, vb) := by
          rw [← ih _ _ _ _ la, hT2]
          rfl
        cases b2 with
        | true => simp only [hT2, hD2]; rfl
        | false =>
        simp only [hT2, hD2]
        cases hT3 : dfsT dv fuel mb (wrapAdd row 1) (wrapAdd col 0)
            vb lb with
        | none =>
          have hD3 : dfs dv fuel mb (wrapAdd row 1) (wrapAdd col 0)
              vb = none := by
            rw [← ih _ _ _ _ lb, hT3]
            rfl
          simp only [hT3, hD3]
          rfl
        | some t3 =>
        obtain ⟨⟨b3, mc, vc⟩, lc⟩ := t3
        have hD3 : dfs dv fuel mb (wrapAdd row 1) (wrapAdd col 0)
            vb = some (b3, mc, vc) := by
          rw [← ih _ _ _ _ lb, hT3]
          rfl
        cases b3 with
        | true => simp only [hT3, hD3]; rfl
        | false =>
        simp only [hT3, hD3]
        cases hT4 : dfsT dv fuel mc (wrapAdd row 0) (wrapAdd col 1)
            vc lc with
        | none =>
          have hD4 : dfs dv fuel mc (wrapAdd row 0) (wrapAdd col 1)
              vc = none := by
            rw [← ih _ _ _ _ lc, hT4]
            rfl
          simp only [hT4, hD4]
          rfl
        | some t4 =>
        obtain ⟨⟨b4, mz, vz⟩, lz⟩ := t4
        have hD4 : dfs dv fuel mc (wrapAdd row 0) (wrapAdd col 1)
            vc = some (b4, mz, vz) := by
          rw [← ih _ _ _ _ lc, hT4]
          rfl
        simp only [hT4, hD4]
        rfl

/-- Along any run of the instrumented `dfs`, the entry log never
repeats a coordinate; on failure every logged coordinate is in the
returned visited set. -/
theorem dfsT_log_spec (dv : Bool) :
    ∀ (fuel : Nat) (m : Grid) (row col : Nat) (vis : Finset Coord)
      (log : List Coord) (b : Bool) (m' : Grid) (v' : Finset Coord)
      (log' : List Coord),
      log.Nodup → (∀ x ∈ log, x ∈ vis) →
      dfsT dv fuel m row col vis log = some ((b, m', v'), log') →
      log'.Nodup ∧ (b = false → ∀ x ∈ log', x ∈ v') := by
  intro fuel
  induction fuel with
  | zero =>
    intro m row col vis log b m' v' log' _ _ h
    simp only [dfsT] at h
    exact Option.noConfusion h
  | succ fuel ih =>
    intro m row col vis log b m' v' log' h1 h2 h
    simp only [dfsT] at h
    by_cases hrej : dfsReject m vis row col
    · rw [if_pos hrej] at h
      have hinj := Option.some.inj h
      have hv : v' = vis := (congrArg (fun t => t.1.2.2) hinj).symm
      have hl : log' = log := (congrArg Prod.snd hinj).symm
      subst hv
      subst hl
      exact ⟨h1, fun _ => h2⟩
    · rw [if_neg hrej] at h
      obtain ⟨hbr, hbc, hAt, hW, hV⟩ := dfsReject_facts hrej
      have hnd1 : (log ++ [(row, col)]).Nodup := by
        rw [List.nodup_append]
        refine ⟨h1, List.nodup_singleton _, ?_⟩
        intro a ha hb'
        rw [List.mem_singleton.mp hb'] at ha
        exact hV (h2 _ ha)
      by_cases hend : getCell m row col = ENDC
      · rw [if_pos hend] at h
        have hinj := Option.some.inj h
        have hb : b = true := (congrArg (fun t => t.1.1) hinj).symm
        have hl : log' = log ++ [(row, col)] :=
          (congrArg Prod.snd hinj).symm
        subst hb
        subst hl
        exact ⟨hnd1, fun hcon => Bool.noConfusion hcon⟩
      · rw [if_neg hend] at h
        have hmem1 : ∀ x ∈ log ++ [(row, col)],
            x ∈ insert (row, col) vis := by
          intro x hx
          rcases List.mem_append.mp hx with h' | h'
          · exact Finset.mem_insert_of_mem (h2 x h')
          · rw [List.mem_singleton.mp h']
            exact Finset.mem_insert_self _ _
        cases hT1 : dfsT dv fuel (dfsMark m row col)
            (wrapAdd row (USIZE - 1)) (wrapAdd col 0)
            (insert (row, col) vis) (log ++ [(row, col)]) with
        | none => simp only [hT1] at h; exact Option.noConfusion h
        | some t1 =>
        obtain ⟨⟨b1, ma, va⟩, la⟩ := t1
        obtain ⟨hndA, hfA⟩ := ih _ _ _ _ _ _ _ _ _ hnd1 hmem1 hT1
        cases b1 with
        | true =>
          simp only [hT1] at h
          have hinj := Option.some.inj h
          have hb : b = true := (congrArg (fun t => t.1.1) hinj).symm
          have hl : log' = la := (congrArg Prod.snd hinj).symm
          subst hb
          subst hl
          exact ⟨hndA, fun hcon => Bool.noConfusion hcon⟩
        | false =>
        simp only [hT1] at h
        cases hT2 : dfsT dv fuel ma (wrapAdd row 0)
            (wrapAdd col (USIZE - 1)) va la with
        | none => simp only [hT2] at h; exact Option.noConfusion h
        | some t2 =>
        obtain ⟨⟨b2, mb, vb⟩, lb⟩ := t2
        obtain ⟨hndB, hfB⟩ := ih _ _ _ _ _ _ _ _ _ hndA (hfA rfl) hT2
        cases b2 with
        | true =>
          simp only [hT2] at h
          have hinj := Option.some.inj h
          have hb : b = true := (congrArg (fun t => t.1.1) hinj).symm
          have hl : log' = lb := (congrArg Prod.snd hinj).symm
          subst hb
          subst hl
          exact ⟨hndB, fun hcon => Bool.noConfusion hcon⟩
        | false =>
        simp only [hT2] at h
        cases hT3 : dfsT dv fuel mb (wrapAdd row 1) (wrapAdd col 0)
            vb lb with
        | none => simp only [hT3] at h; exact Option.noConfusion h
        | some t3 =>
        obtain ⟨⟨b3, mc, vc⟩, lc⟩ := t3
        obtain ⟨hndC, hfC⟩ := ih _ _ _ _ _ _ _ _ _ hndB (hfB rfl) hT3
        cases b3 with
        | true =>
          simp only [hT3] at h
          have hinj := Option.some.inj h
          have hb : b = true := (congrArg (fun t => t.1.1) hinj).symm
          have hl : log' = lc := (congrArg Prod.snd hinj).symm
          subst hb
          subst hl
          exact ⟨hndC, fun hcon => Bool.noConfusion hcon⟩
        | false =>
        simp only [hT3] at h
        cases hT4 : dfsT dv fuel mc (wrapAdd row 0) (wrapAdd col 1)
            vc lc with
        | none => simp only [hT4] at h; exact Option.noConfusion h
        | some t4 =>
        obtain ⟨⟨b4, mz, vz⟩, lz⟩ := t4
        obtain ⟨hndZ, hfZ⟩ := ih _ _ _ _ _ _ _ _ _ hndC (hfC rfl) hT4
        simp only [hT4] at h
        have hinj := Option.some.inj h
        have hb : b = b4 := (congrArg (fun t => t.1.1) hinj).symm
        have hv : v' = vz := (congrArg (fun t => t.1.2.2) hinj).symm
        have hl : log' = lz := (congrArg Prod.snd hinj).symm
        subst hb
        subst hv
        subst hl
        exact ⟨hndZ, fun hbf => hfZ hbf⟩

/-!  ### Claim C5  -/

theorem count_le_one_of_nodup (x : Coord) :
    ∀ l : List Coord, l.Nodup → List.count x l ≤ 1 := by
  intro l
  induction l with
  | nil => intro h; simp
  | cons a t ih =>
    intro hl
    rcases List.nodup_cons.mp hl with ⟨ha, ht⟩
    rw [List.count_cons]
    by_cases hax : x = a
    · subst hax
      rw [List.count_eq_zero_of_not_mem ha]
      simp
    · rw [if_neg (by simp; exact fun h => hax h.symm)]
      simpa using ih ht

/-- A validated grid on which `bfs` enqueues the Start coordinate a
second time (the seed entry never tags Start visited). -/
def cexGrid5 : Grid := [['A', ' '], [' ', 'B']]

/-- Counterexample to C5 as stated: on this validated grid the
instrumented `bfs` run (whose projection is exactly `bfs`) pushes the
Start coordinate onto the frontier twice — once as the seed and once
again as a fresh neighbor of an adjacent cell. -/
theorem claim5_counterexample :
    Option.map Prod.fst
      (searchLoopT fifoSel false (searchFuel cexGrid5) cexGrid5
        [((0, 0), [])] ∅ []) = bfs cexGrid5 (0, 0) false ∧
    is_maze_valid cexGrid5 = Except.ok () ∧
    get_start cexGrid5 = some (0, 0) ∧
    Option.map
      (fun r => List.count ((0, 0) : Coord) (((0, 0) : Coord) :: r.2))
      (searchLoopT fifoSel false (searchFuel cexGrid5) cexGrid5
        [((0, 0), [])] ∅ []) = some 2 :=
  ⟨searchLoopT_proj fifoSel false (searchFuel cexGrid5) cexGrid5
    [((0, 0), [])] ∅ [], by decide, by decide, by decide⟩

/-- C5 (amended): after the seed, no coordinate is ever enqueued or
recursed into twice: the enqueue log of each instrumented loop search
(whose projection is the original search) is duplicate-free, so each
coordinate is pushed at most once after the seed and the Start
coordinate at most twice in total, the log holds at most rows×cols
entries, and the `dfs` entry log is likewise duplicate-free with the
visited set bounded by rows×cols. -/
theorem claim5_enqueue_once (m0 : Grid) (s e0 : Coord) (dv : Bool)
    (hsz : sized m0) (hv : is_maze_valid m0 = Except.ok ())
    (hs : get_start m0 = some s) (he : get_end m0 = some e0) :
    (Option.map Prod.fst
      (searchLoopT fifoSel dv (searchFuel m0) m0 [(s, [])] ∅ []) =
        bfs m0 s dv) ∧
    (Option.map Prod.fst (searchLoopT (popMax (keyGBFS e0)) dv
      (searchFuel m0) m0 [(s, [])] ∅ []) =
        greedy_best_first_search m0 s e0 dv) ∧
    (Option.map Prod.fst (searchLoopT (popMax (keyAStar e0)) dv
      (searchFuel m0) m0 [(s, [])] ∅ []) = a_star m0 s e0 dv) ∧
    (∀ sel, SelSpec sel → ∀ (b : Bool) (m' : Grid) (log : List Coord),
      searchLoopT sel dv (searchFuel m0) m0 [(s, [])] ∅ [] =
        some ((b, m'), log) →
      log.Nodup ∧ (∀ x : Coord, List.count x log ≤ 1) ∧
      List.count s (s :: log) ≤ 2 ∧ log.length ≤ totalCells m0) ∧
    (Option.map Prod.fst (dfsT dv (dfsFuel m0) m0 s.1 s.2 ∅ []) =
      dfsRun m0 s dv) ∧
    (∀ (b : Bool) (md : Grid) (vd : Finset Coord) (log : List Coord),
      dfsT dv (dfsFuel m0) m0 s.1 s.2 ∅ [] = some ((b, md, vd), log) →
      log.Nodup ∧ (∀ x : Coord, List.count x log ≤ 1) ∧
      vd.card ≤ totalCells m0) := by
  have ctx : Ctx m0 s := Ctx.of_valid hsz hv hs
  refine ⟨searchLoopT_proj fifoSel dv (searchFuel m0) m0 [(s, [])] ∅ [],
    searchLoopT_proj (popMax (keyGBFS e0)) dv (searchFuel m0) m0
      [(s, [])] ∅ [],
    searchLoopT_proj (popMax (keyAStar e0)) dv (searchFuel m0) m0
      [(s, [])] ∅ [], ?_,
    dfsT_proj dv (dfsFuel m0) m0 s.1 s.2 ∅ [], ?_⟩
  · intro sel hsel b m' log h
    obtain ⟨f', hf'⟩ : ∃ f', searchFuel m0 = f' + 1 :=
      ⟨searchFuel m0 - 1, by unfold searchFuel; omega⟩
    rw [hf'] at h
    simp only [searchLoopT, sel_singleton hsel (s, []), List.nil_append]
      at h
    have hsE : getCell m0 s.1 s.2 ≠ ENDC := by
      rw [ctx.sA]; decide
    rw [if_neg hsE] at h
    have hsS : ¬ (dv ∧ getCell m0 s.1 s.2 ≠ START) :=
      fun hc => hc.2 ctx.sA
    rw [if_neg hsS] at h
    have hfst := enqueueAllT_fst m0 [s] (neighborCoords s.1 s.2) [] ∅ []
    rw [hfst] at h
    obtain ⟨hnd0, hmem0⟩ := enqueueAllT_log m0 [s] (neighborCoords s.1 s.2)
      [] ∅ [] List.nodup_nil (fun x hx => absurd hx (List.not_mem_nil x))
    obtain ⟨hnd, hmem⟩ := searchLoopT_log_spec ctx hsel dv f' m0 _ _ _
      (LoopInv.init ctx) hnd0 hmem0 b m' log h
    refine ⟨hnd, fun x => count_le_one_of_nodup x log hnd, ?_, ?_⟩
    · rw [List.count_cons_self]
      have := count_le_one_of_nodup s log hnd
      omega
    · have hcard : log.toFinset.card = log.length :=
        List.toFinset_card_of_nodup hnd
      have hsub : log.toFinset ⊆ allCoords m0 := by
        intro x hx
        exact hmem x (List.mem_toFinset.mp hx)
      have hle := Finset.card_le_card hsub
      rw [hcard, ← totalCells_eq_card] at hle
      exact hle
  · intro b md vd log h
    obtain ⟨hnd, -⟩ := dfsT_log_spec dv (dfsFuel m0) m0 s.1 s.2 ∅ []
      b md vd log List.nodup_nil
      (fun x hx => absurd hx (List.not_mem_nil x)) h
    refine ⟨hnd, fun x => count_le_one_of_nodup x log hnd, ?_⟩
    have hreal : dfs dv (dfsFuel m0) m0 s.1 s.2 ∅ = some (b, md, vd) := by
      rw [← dfsT_proj dv (dfsFuel m0) m0 s.1 s.2 ∅ [], h]
      rfl
    have hsub : vd ⊆ allCoords m0 := by
      intro x hx
      rcases (dfs_basic dv (dfsFuel m0) m0 s.1 s.2 ∅ b md vd hreal).sub
        x hx with h' | h'
      · exact absurd h' (Finset.not_mem_empty x)
      · rw [mem_allCoords]; exact h'
    have hle := Finset.card_le_card hsub
    rw [← totalCells_eq_card] at hle
    exact hle

/-- Witness for the amended C5 theorem at a concrete validated
grid. -/
theorem claim5_enqueue_once_w :
    (Option.map Prod.fst
      (searchLoopT fifoSel false (searchFuel [['A', 'B']]) [['A', 'B']]
        [((0, 0), [])] ∅ []) = bfs [['A', 'B']] (0, 0) false) ∧
    (Option.map Prod.fst (searchLoopT (popMax (keyGBFS (0, 1))) false
      (searchFuel [['A', 'B']]) [['A', 'B']] [((0, 0), [])] ∅ []) =
        greedy_best_first_search [['A', 'B']] (0, 0) (0, 1) false) ∧
    (Option.map Prod.fst (searchLoopT (popMax (keyAStar (0, 1))) false
      (searchFuel [['A', 'B']]) [['A', 'B']] [((0, 0), [])] ∅ []) =
        a_star [['A', 'B']] (0, 0) (0, 1) false) ∧
    (∀ sel, SelSpec sel → ∀ (b : Bool) (m' : Grid) (log : List Coord),
      searchLoopT sel false (searchFuel [['A', 'B']]) [['A', 'B']]
        [((0, 0), [])] ∅ [] = some ((b, m'), log) →
      log.Nodup ∧ (∀ x : Coord, List.count x log ≤ 1) ∧
      List.count ((0, 0) : Coord) ((0, 0) :: log) ≤ 2 ∧
      log.length ≤ totalCells [['A', 'B']]) ∧
    (Option.map Prod.fst
      (dfsT false (dfsFuel [['A', 'B']]) [['A', 'B']] 0 0 ∅ []) =
      dfsRun [['A', 'B']] (0, 0) false) ∧
    (∀ (b : Bool) (md : Grid) (vd : Finset Coord) (log : List Coord),
      dfsT false (dfsFuel [['A', 'B']]) [['A', 'B']] 0 0 ∅ [] =
        some ((b, md, vd), log) →
      log.Nodup ∧ (∀ x : Coord, List.count x log ≤ 1) ∧
      vd.card ≤ totalCells [['A', 'B']]) :=
  claim5_enqueue_once [['A', 'B']] (0, 0) (0, 1) false (by decide)
    (by decide) (by decide) (by decide)

/-!  ### Claim C7  -/

/-- C7: toggling `display_visited` changes neither the boolean outcome
nor the set of cells marked with the Path marker `'*'` in any of the
four searches; the final grids differ only at cells that carry `'@'`
in the displaying run and open floor in the plain run. -/
theorem claim7_display_toggle (m0 : Grid) (s e0 : Coord)
    (hsz : sized m0) (hv : is_maze_valid m0 = Except.ok ())
    (hs : get_start m0 = some s) (he : get_end m0 = some e0) :
    (∀ b₁ b₂ md₁ md₂ v₁ v₂,
      dfsRun m0 s true = some (b₁, md₁, v₁) →
      dfsRun m0 s false = some (b₂, md₂, v₂) →
      b₁ = b₂ ∧
      (∀ r c, getCell md₁ r c = PATHC ↔ getCell md₂ r c = PATHC) ∧
      (∀ r c, getCell md₁ r c ≠ getCell md₂ r c →
        getCell md₁ r c = VISC ∧ getCell md₂ r c = OPENC)) ∧
    (∀ b₁ b₂ m₁ m₂, bfs m0 s true = some (b₁, m₁) →
      bfs m0 s false = some (b₂, m₂) →
      b₁ = b₂ ∧
      (∀ r c, getCell m₁ r c = PATHC ↔ getCell m₂ r c = PATHC) ∧
      (∀ r c, getCell m₁ r c ≠ getCell m₂ r c →
        getCell m₁ r c = VISC ∧ getCell m₂ r c = OPENC)) ∧
    (∀ b₁ b₂ m₁ m₂, greedy_best_first_search m0 s e0 true = some (b₁, m₁) →
      greedy_best_first_search m0 s e0 false = some (b₂, m₂) →
      b₁ = b₂ ∧
      (∀ r c, getCell m₁ r c = PATHC ↔ getCell m₂ r c = PATHC) ∧
      (∀ r c, getCell m₁ r c ≠ getCell m₂ r c →
        getCell m₁ r c = VISC ∧ getCell m₂ r c = OPENC)) ∧
    (∀ b₁ b₂ m₁ m₂, a_star m0 s e0 true = some (b₁, m₁) →
      a_star m0 s e0 false = some (b₂, m₂) →
      b₁ = b₂ ∧
      (∀ r c, getCell m₁ r c = PATHC ↔ getCell m₂ r c = PATHC) ∧
      (∀ r c, getCell m₁ r c ≠ getCell m₂ r c →
        getCell m₁ r c = VISC ∧ getCell m₂ r c = OPENC)) := by
  have ctx : Ctx m0 s := Ctx.of_valid hsz hv hs
  have hopen : ∀ r c, r < m0.length → c < rowLen m0 r →
      getCell m0 r c = START ∨ getCell m0 r c = ENDC ∨
      getCell m0 r c = WALL ∨ getCell m0 r c = OPENC := by
    intro r c h1 h2
    have hmem := valid_cell_mem hv r c h1 h2
    unfold VALID_CHARS at hmem
    simp only [List.mem_cons, List.not_mem_nil, or_false] at hmem
    exact hmem
  -- turn the relation between final grids into the claim's form
  have convert : ∀ (m₁ m₂ : Grid),
      (∀ r c, getCell m₁ r c = getCell m₂ r c ∨
        (getCell m₁ r c = VISC ∧ getCell m₂ r c = OPENC)) →
      (∀ r c, getCell m₁ r c = PATHC ↔ getCell m₂ r c = PATHC) ∧
      (∀ r c, getCell m₁ r c ≠ getCell m₂ r c →
        getCell m₁ r c = VISC ∧ getCell m₂ r c = OPENC) := by
    intro m₁ m₂ hrel
    constructor
    · intro r c
      rcases hrel r c with hc | hc
      · rw [hc]
      · constructor
        · intro hp
          rw [hc.1] at hp
          exact absurd hp (by decide)
        · intro hp
          rw [hc.2] at hp
          exact absurd hp (by decide)
    · intro r c hne
      rcases hrel r c with hc | hc
      · exact absurd hc hne
      · exact hc
  have loopPart : ∀ (sel : List Entry → Option (Entry × List Entry)),
      SelSpec sel → ∀ (b₁ b₂ : Bool) (m₁ m₂ : Grid),
      searchLoop sel true (searchFuel m0) m0 [(s, [])] ∅ = some (b₁, m₁) →
      searchLoop sel false (searchFuel m0) m0 [(s, [])] ∅ = some (b₂, m₂) →
      b₁ = b₂ ∧
      (∀ r c, getCell m₁ r c = PATHC ↔ getCell m₂ r c = PATHC) ∧
      (∀ r c, getCell m₁ r c ≠ getCell m₂ r c →
        getCell m₁ r c = VISC ∧ getCell m₂ r c = OPENC) := by
    intro sel hsel b₁ b₂ m₁ m₂ h₁ h₂
    obtain ⟨f', hf'⟩ : ∃ f', searchFuel m0 = f' + 1 :=
      ⟨searchFuel m0 - 1, by unfold searchFuel; omega⟩
    rw [hf'] at h₁ h₂
    simp only [searchLoop, sel_singleton hsel (s, []), List.nil_append]
      at h₁ h₂
    have hsE : getCell m0 s.1 s.2 ≠ ENDC := by
      rw [ctx.sA]; decide
    rw [if_neg hsE] at h₁ h₂
    rw [if_neg (fun hc => hc.2 ctx.sA :
      ¬ (True ∧ getCell m0 s.1 s.2 ≠ START))] at h₁
    rw [if_neg (fun hc => Bool.noConfusion hc.1 :
      ¬ ((false = true) ∧ getCell m0 s.1 s.2 ≠ START))] at h₂
    obtain ⟨hbeq, hrel⟩ := searchLoop_bisim ctx hsel hopen f' m0 _ _
      b₁ b₂ m₁ m₂ (LoopInv.init ctx) (fun r c => Or.inl rfl) h₁ h₂
    exact ⟨hbeq, convert m₁ m₂ hrel⟩
  refine ⟨?_, ?_, ?_, ?_⟩
  · intro b₁ b₂ md₁ md₂ v₁ v₂ h₁ h₂
    obtain ⟨hbeq, hveq, hrel⟩ := dfs_bisim (dfsFuel m0) m0 m0 s.1 s.2 ∅
      b₁ b₂ md₁ md₂ v₁ v₂ ⟨rfl, fun r => rfl, fun r c => Or.inl rfl⟩ h₁ h₂
    exact ⟨hbeq, convert md₁ md₂
      (fun r c => (hrel.cell r c).imp id And.right)⟩
  · exact loopPart fifoSel fifoSel_spec
  · exact loopPart (popMax (keyGBFS e0)) (popMax_spec (keyGBFS e0))
  · exact loopPart (popMax (keyAStar e0)) (popMax_spec (keyAStar e0))

/-- Witness for C7 at a concrete validated grid. -/
theorem claim7_display_toggle_w :
    (∀ b₁ b₂ md₁ md₂ v₁ v₂,
      dfsRun [['A', 'B']] (0, 0) true = some (b₁, md₁, v₁) →
      dfsRun [['A', 'B']] (0, 0) false = some (b₂, md₂, v₂) →
      b₁ = b₂ ∧
      (∀ r c, getCell md₁ r c = PATHC ↔ getCell md₂ r c = PATHC) ∧
      (∀ r c, getCell md₁ r c ≠ getCell md₂ r c →
        getCell md₁ r c = VISC ∧ getCell md₂ r c = OPENC)) ∧
    (∀ b₁ b₂ m₁ m₂, bfs [['A', 'B']] (0, 0) true = some (b₁, m₁) →
      bfs [['A', 'B']] (0, 0) false = some (b₂, m₂) →
      b₁ = b₂ ∧
      (∀ r c, getCell m₁ r c = PATHC ↔ getCell m₂ r c = PATHC) ∧
      (∀ r c, getCell m₁ r c ≠ getCell m₂ r c →
        getCell m₁ r c = VISC ∧ getCell m₂ r c = OPENC)) ∧
    (∀ b₁ b₂ m₁ m₂,
      greedy_best_first_search [['A', 'B']] (0, 0) (0, 1) true =
        some (b₁, m₁) →
      greedy_best_first_search [['A', 'B']] (0, 0) (0, 1) false =
        some (b₂, m₂) →
      b₁ = b₂ ∧
      (∀ r c, getCell m₁ r c = PATHC ↔ getCell m₂ r c = PATHC) ∧
      (∀ r c, getCell m₁ r c ≠ getCell m₂ r c →
        getCell m₁ r c = VISC ∧ getCell m₂ r c = OPENC)) ∧
    (∀ b₁ b₂ m₁ m₂,
      a_star [['A', 'B']] (0, 0) (0, 1) true = some (b₁, m₁) →
      a_star [['A', 'B']] (0, 0) (0, 1) false = some (b₂, m₂) →
      b₁ = b₂ ∧
      (∀ r c, getCell m₁ r c = PATHC ↔ getCell m₂ r c = PATHC) ∧
      (∀ r c, getCell m₁ r c ≠ getCell m₂ r c →
        getCell m₁ r c = VISC ∧ getCell m₂ r c = OPENC)) :=
  claim7_display_toggle [['A', 'B']] (0, 0) (0, 1) (by decide) (by decide)
    (by decide) (by decide)

/-!  ### Claim C8  -/

/-- C8: wrap-around underflow never escapes the bounds checks. The
'up' neighbor of a row-0 cell and the 'left' neighbor of a column-0
cell wrap to `USIZE - 1`, which the `passable` filter of the loop
searches rejects on every machine-size grid; `enqueueAll` queues only
coordinates passing that filter (hence in bounds), and the `dfs`
rejection check admits only in-bounds coordinates — so no
out-of-bounds coordinate is ever queued or recursed into. -/
theorem claim8_underflow_rejected (m : Grid) (hsz : sized m) :
    wrapAdd 0 (USIZE - 1) = USIZE - 1 ∧
    (∀ c', passable m (wrapAdd 0 (USIZE - 1), c') = false) ∧
    (∀ r', passable m (r', wrapAdd 0 (USIZE - 1)) = false) ∧
    (∀ (path nbrs : List Coord) (fr : List Entry)
      (vis : Finset Coord) (e : Entry),
      e ∈ (enqueueAll m path nbrs fr vis).1 →
      e ∈ fr ∨ (passable m e.1 = true ∧
        e.1.1 < m.length ∧ e.1.2 < rowLen m e.1.1)) ∧
    (∀ (vis : Finset Coord) (row col : Nat), ¬ dfsReject m vis row col →
      row < m.length ∧ col < rowLen m row) := by
  refine ⟨wrapAdd_up_zero, ?_, ?_, ?_, ?_⟩
  · intro c'
    unfold passable
    apply decide_eq_false
    rintro ⟨h1, -, -⟩
    have h1' : wrapAdd 0 (USIZE - 1) < m.length := h1
    rw [wrapAdd_up_zero] at h1'
    have := hsz.1
    omega
  · intro r'
    unfold passable
    apply decide_eq_false
    rintro ⟨-, h2, -⟩
    have h2' : wrapAdd 0 (USIZE - 1) < rowLen m r' := h2
    rw [wrapAdd_up_zero] at h2'
    have := sized_rowLen m hsz r'
    omega
  · intro path nbrs fr vis e he
    obtain ⟨ext, hfr, hext⟩ := enqueueAll_fr m path nbrs fr vis
    rw [hfr] at he
    rcases List.mem_append.mp he with h' | h'
    · exact Or.inl h'
    · have hp := (hext e h').2.2.1
      have hin := ((passable_iff m e.1).mp hp).1
      exact Or.inr ⟨hp, hin.1, hin.2⟩
  · intro vis row col h
    exact ⟨(dfsReject_facts h).1, (dfsReject_facts h).2.1⟩

/-- Witness for C8 at a concrete machine-size grid. -/
theorem claim8_underflow_rejected_w :
    wrapAdd 0 (USIZE - 1) = USIZE - 1 ∧
    (∀ c', passable [['A']] (wrapAdd 0 (USIZE - 1), c') = false) ∧
    (∀ r', passable [['A']] (r', wrapAdd 0 (USIZE - 1)) = false) ∧
    (∀ (path nbrs : List Coord) (fr : List Entry)
      (vis : Finset Coord) (e : Entry),
      e ∈ (enqueueAll [['A']] path nbrs fr vis).1 →
      e ∈ fr ∨ (passable [['A']] e.1 = true ∧
        e.1.1 < ([['A']] : Grid).length ∧
        e.1.2 < rowLen [['A']] e.1.1)) ∧
    (∀ (vis : Finset Coord) (row col : Nat),
      ¬ dfsReject [['A']] vis row col →
      row < ([['A']] : Grid).length ∧ col < rowLen [['A']] row) :=
  claim8_underflow_rejected [['A']] (by decide)

/-!  ### Claim C4  -/

/-- C4: on every validated grid, each search leaves the located Start
cell holding `'A'` and the located End cell holding `'B'`, and on
success the Path-marked cells lie on a 4-adjacent walk from Start to
an End cell (each marked cell 4-adjacent to its predecessor and
successor in the sequence). -/
theorem claim4_markers_and_adjacency (m0 : Grid) (s e0 : Coord) (dv : Bool)
    (hsz : sized m0) (hv : is_maze_valid m0 = Except.ok ())
    (hs : get_start m0 = some s) (he : get_end m0 = some e0) :
    (∀ b md vd, dfsRun m0 s dv = some (b, md, vd) →
      getCell md s.1 s.2 = START ∧ getCell md e0.1 e0.2 = ENDC ∧
      (b = true → ∃ l, isTrail m0 s l ∧
        getCell m0 (trailEnd s l).1 (trailEnd s l).2 = ENDC ∧
        ∀ x : Coord, getCell md x.1 x.2 = PATHC →
          x ∈ (s :: l).dropLast)) ∧
    (∀ b m', bfs m0 s dv = some (b, m') →
      getCell m' s.1 s.2 = START ∧ getCell m' e0.1 e0.2 = ENDC ∧
      (b = true → ∃ t q, isTrail m0 s (q ++ [t]) ∧
        getCell m0 t.1 t.2 = ENDC ∧
        ∀ r c, (getCell m' r c = PATHC ↔ (r, c) ∈ q))) ∧
    (∀ b m', greedy_best_first_search m0 s e0 dv = some (b, m') →
      getCell m' s.1 s.2 = START ∧ getCell m' e0.1 e0.2 = ENDC ∧
      (b = true → ∃ t q, isTrail m0 s (q ++ [t]) ∧
        getCell m0 t.1 t.2 = ENDC ∧
        ∀ r c, (getCell m' r c = PATHC ↔ (r, c) ∈ q))) ∧
    (∀ b m', a_star m0 s e0 dv = some (b, m') →
      getCell m' s.1 s.2 = START ∧ getCell m' e0.1 e0.2 = ENDC ∧
      (b = true → ∃ t q, isTrail m0 s (q ++ [t]) ∧
        getCell m0 t.1 t.2 = ENDC ∧
        ∀ r c, (getCell m' r c = PATHC ↔ (r, c) ∈ q))) := by
  have ctx : Ctx m0 s := Ctx.of_valid hsz hv hs
  have hend0 : getCell m0 e0.1 e0.2 = ENDC := (end_facts he).2
  have loopPart : ∀ (b : Bool) (m' : Grid),
      ((b = false → FailPost m0 s m') ∧ (b = true → SuccessPost m0 s m')) →
      getCell m' s.1 s.2 = START ∧ getCell m' e0.1 e0.2 = ENDC ∧
      (b = true → ∃ t q, isTrail m0 s (q ++ [t]) ∧
        getCell m0 t.1 t.2 = ENDC ∧
        ∀ r c, (getCell m' r c = PATHC ↔ (r, c) ∈ q)) := by
    intro b m' hpost
    cases b with
    | false =>
      obtain ⟨hnr, hns, hendp, hstart⟩ := hpost.1 rfl
      exact ⟨hstart, hendp e0 hend0, fun hcon => Bool.noConfusion hcon⟩
    | true =>
      obtain ⟨t, q, htr, hendt, hnd, hnoEnd, hstar, hendp, hstart, hcnt⟩ :=
        hpost.2 rfl
      exact ⟨hstart, hendp e0 hend0, fun _ => ⟨t, q, htr, hendt, hstar⟩⟩
  refine ⟨?_, ?_, ?_, ?_⟩
  · intro b md vd hd0
    obtain ⟨b', md', vd', hd, hskel, hf, ht⟩ := dfsRun_spec ctx dv
    have hinj := Option.some.inj (hd0.symm.trans hd)
    have hb : b' = b := (congrArg (fun t => t.1) hinj).symm
    have hmd : md' = md := (congrArg (fun t => t.2.1) hinj).symm
    subst hb
    subst hmd
    refine ⟨(startCell_of_skelEq hskel s.1 s.2).mp ctx.sA,
      (endCell_of_skelEq hskel e0.1 e0.2).mp hend0, ?_⟩
    intro hb
    obtain ⟨l, hlne, htr, hendt, hnd, hnend, hstar⟩ := ht hb
    exact ⟨l, htr, hendt, fun x hx => ((hstar x).mp hx).1⟩
  · intro b m' hb
    exact loopPart b m' (bfs_spec ctx dv hb)
  · intro b m' hb
    exact loopPart b m' (gbfs_spec ctx e0 dv hb)
  · intro b m' hb
    exact loopPart b m' (a_star_spec ctx e0 dv hb)

/-- Witness for C4 at a concrete validated grid. -/
theorem claim4_markers_and_adjacency_w :
    (∀ b md vd, dfsRun [['A', 'B']] (0, 0) false = some (b, md, vd) →
      getCell md 0 0 = START ∧ getCell md 0 1 = ENDC ∧
      (b = true → ∃ l, isTrail [['A', 'B']] (0, 0) l ∧
        getCell [['A', 'B']] (trailEnd (0, 0) l).1
          (trailEnd (0, 0) l).2 = ENDC ∧
        ∀ x : Coord, getCell md x.1 x.2 = PATHC →
          x ∈ ((0, 0) :: l).dropLast)) ∧
    (∀ b m', bfs [['A', 'B']] (0, 0) false = some (b, m') →
      getCell m' 0 0 = START ∧ getCell m' 0 1 = ENDC ∧
      (b = true → ∃ t q, isTrail [['A', 'B']] (0, 0) (q ++ [t]) ∧
        getCell [['A', 'B']] t.1 t.2 = ENDC ∧
        ∀ r c, (getCell m' r c = PATHC ↔ (r, c) ∈ q))) ∧
    (∀ b m', greedy_best_first_search [['A', 'B']] (0, 0) (0, 1) false =
        some (b, m') →
      getCell m' 0 0 = START ∧ getCell m' 0 1 = ENDC ∧
      (b = true → ∃ t q, isTrail [['A', 'B']] (0, 0) (q ++ [t]) ∧
        getCell [['A', 'B']] t.1 t.2 = ENDC ∧
        ∀ r c, (getCell m' r c = PATHC ↔ (r, c) ∈ q))) ∧
    (∀ b m', a_star [['A', 'B']] (0, 0) (0, 1) false = some (b, m') →
      getCell m' 0 0 = START ∧ getCell m' 0 1 = ENDC ∧
      (b = true → ∃ t q, isTrail [['A', 'B']] (0, 0) (q ++ [t]) ∧
        getCell [['A', 'B']] t.1 t.2 = ENDC ∧
        ∀ r c, (getCell m' r c = PATHC ↔ (r, c) ∈ q))) :=
  claim4_markers_and_adjacency [['A', 'B']] (0, 0) (0, 1) false (by decide)
    (by decide) (by decide) (by decide)

/-- Witness for the amended C3 theorem at a concrete validated
grid. -/
theorem claim3_outcome_agreement_w :
    ∃ b : Bool,
      Option.map Prod.fst (dfsRun [['A', 'B']] (0, 0) false) = some b ∧
      Option.map Prod.fst (bfs [['A', 'B']] (0, 0) false) = some b ∧
      Option.map Prod.fst
        (greedy_best_first_search [['A', 'B']] (0, 0) (0, 1) false) =
          some b ∧
      Option.map Prod.fst (a_star [['A', 'B']] (0, 0) (0, 1) false) =
        some b ∧
      (b = true ↔ reachesEnd [['A', 'B']] (0, 0)) :=
  claim3_outcome_agreement [['A', 'B']] (0, 0) (0, 1) false (by decide)
    (by decide) (by decide) (by decide)

/-!  ### BFS optimality  -/

/-- Level structure of a FIFO frontier: a block of entries whose
carried paths have length `k` followed by a block of length `k + 1`. -/
def levels (k : Nat) (fr : List Entry) : Prop :=
  ∃ frA frB, fr = frA ++ frB ∧ (∀ e ∈ frA, e.2.length = k) ∧
    (∀ e ∈ frB, e.2.length = k + 1)

/-- The FIFO-specific invariant of `bfs`: the frontier spans two
consecutive levels, every cell within `k` steps of the start is
discovered, undiscovered entries record their exact distance, and no
End-marked cell lies strictly inside the current level. -/
structure FifoInv (m0 : Grid) (s : Coord) (fr : List Entry)
    (vis : Finset Coord) (k : Nat) : Prop where
  lev : levels k fr
  cover : ∀ x ∈ ball m0 s k, x = s ∨ x ∈ vis
  fresh : ∀ e ∈ fr, e.1 = s ∨ e.1 ∉ ball m0 s (e.2.length - 1)
  noEnd : ∀ x ∈ ball m0 s (k - 1), getCell m0 x.1 x.2 ≠ ENDC

/-- When the lower level is exhausted the invariant shifts one level
up: the next ring is fully discovered and still free of End cells. -/
theorem FifoInv.shift {m0 : Grid} {s : Coord} (ctx : Ctx m0 s)
    {m : Grid} {fr : List Entry} {vis : Finset Coord} {k : Nat}
    (inv : LoopInv m0 s m fr vis) (fifo : FifoInv m0 s fr vis k)
    (hall : ∀ e ∈ fr, e.2.length = k + 1) :
    FifoInv m0 s fr vis (k + 1) := by
  refine ⟨⟨fr, [], by simp, hall, by simp⟩, ?_, fifo.fresh, ?_⟩
  · intro x hx
    rw [ball, mem_expandS] at hx
    rcases hx with hx | ⟨z, hz, hn⟩
    · exact fifo.cover x hx
    · rcases fifo.cover z hz with hzs | hzv
      · rw [hzs] at hn
        exact Or.inr (inv.pastSeed x hn)
      · rcases inv.closed z hzv with ⟨e', he', hez⟩ | ⟨_, hnbrs⟩
        · rcases fifo.fresh e' he' with hes | hnb
          · rw [hes] at hez
            rw [← hez] at hn
            exact Or.inr (inv.pastSeed x hn)
          · rw [hall e' he'] at hnb
            have hnb' : e'.1 ∉ ball m0 s k := hnb
            rw [hez] at hnb'
            exact absurd hz hnb'
        · exact Or.inr (hnbrs x hn)
  · intro x hx hend
    have hx' : x ∈ ball m0 s k := hx
    rcases fifo.cover x hx' with hxs | hxv
    · rw [hxs] at hend
      exact absurd (ctx.sA.symm.trans hend) (by decide)
    · rcases inv.closed x hxv with ⟨e', he', hex⟩ | ⟨hne, _⟩
      · rcases fifo.fresh e' he' with hes | hnb
        · rw [hes] at hex
          rw [← hex] at hend
          exact absurd (ctx.sA.symm.trans hend) (by decide)
        · rw [hall e' he'] at hnb
          have hnb' : e'.1 ∉ ball m0 s k := hnb
          rw [hex] at hnb'
          exact absurd hx' hnb'
      · exact hne hend

/-- Expanding the head of the lower level preserves the FIFO
invariant: fresh neighbors join the upper level. -/
theorem fifoInv_step {m0 : Grid} {s : Coord} {fr : List Entry}
    {vis : Finset Coord} {k : Nat} {e : Entry} {rest : List Entry}
    (hfr : fr = e :: rest) (fifo : FifoInv m0 s fr vis k)
    (hlen : e.2.length = k) (hrest : levels k rest) (m1 : Grid) :
    FifoInv m0 s
      (enqueueAll m1 (e.2 ++ [e.1]) (neighborCoords e.1.1 e.1.2) rest vis).1
      (enqueueAll m1 (e.2 ++ [e.1]) (neighborCoords e.1.1 e.1.2) rest vis).2
      k := by
  obtain ⟨ext, hfr1, hext⟩ := enqueueAll_fr m1 (e.2 ++ [e.1])
    (neighborCoords e.1.1 e.1.2) rest vis
  have hvmono := enqueueAll_vis_mono m1 (e.2 ++ [e.1])
    (neighborCoords e.1.1 e.1.2) rest vis
  obtain ⟨frA, frB, hsplit, hA, hB⟩ := hrest
  refine ⟨⟨frA, frB ++ ext, ?_, hA, ?_⟩, ?_, ?_, fifo.noEnd⟩
  · rw [hfr1, hsplit, List.append_assoc]
  · intro x hx
    rcases List.mem_append.mp hx with h | h
    · exact hB x h
    · rw [(hext x h).1, List.length_append, hlen]
      rfl
  · intro x hx
    rcases fifo.cover x hx with h | h
    · exact Or.inl h
    · exact Or.inr (hvmono h)
  · intro x hx
    rw [hfr1] at hx
    rcases List.mem_append.mp hx with h | h
    · exact fifo.fresh x (by rw [hfr]; exact List.mem_cons_of_mem e h)
    · obtain ⟨hpath, _, _, hnv, _⟩ := hext x h
      by_cases hxs : x.1 = s
      · exact Or.inl hxs
      · right
        have hlen1 : x.2.length - 1 = k := by
          rw [hpath, List.length_append, hlen]
          rfl
        rw [hlen1]
        intro hmem
        rcases fifo.cover x.1 hmem with h'' | h''
        · exact hxs h''
        · exact hnv h''

/-- A FIFO pop takes exactly the head of the frontier list. -/
theorem fifoSel_eq {fr : List Entry} {e : Entry} {rest : List Entry}
    (h : fifoSel fr = some (e, rest)) : fr = e :: rest := by
  cases fr with
  | nil => simp [fifoSel] at h
  | cons x xs =>
    simp only [fifoSel, Option.some.injEq, Prod.mk.injEq] at h
    rw [h.1, h.2]

/-- `d` is the least number of steps at which a walk from the start
meets an End-marked cell. -/
def endMinDist (m0 : Grid) (s : Coord) (d : Nat) : Prop :=
  (∃ rc ∈ ball m0 s d, getCell m0 rc.1 rc.2 = ENDC) ∧
  (∀ x ∈ ball m0 s (d - 1), getCell m0 x.1 x.2 ≠ ENDC)

/-- Master optimality lemma for the FIFO loop: from an invariant state,
a successful run marks exactly one less cell than the least distance
to an End-marked cell. -/
theorem fifoLoop_opt {m0 : Grid} {s : Coord} (ctx : Ctx m0 s) (dv : Bool) :
    ∀ (fuel : Nat) (m : Grid) (fr : List Entry) (vis : Finset Coord)
      (k : Nat), LoopInv m0 s m fr vis → FifoInv m0 s fr vis k →
      ∀ m' : Grid, searchLoop fifoSel dv fuel m fr vis = some (true, m') →
      ∃ d, 1 ≤ d ∧ endMinDist m0 s d ∧ countStar m' = d - 1 := by
  intro fuel
  induction fuel with
  | zero =>
    intro m fr vis k _ _ m' h
    simp only [searchLoop] at h
    exact Option.noConfusion h
  | succ fuel ih =>
    intro m fr vis k inv fifo m' h
    simp only [searchLoop] at h
    cases hpop : fifoSel fr with
    | none =>
      rw [hpop] at h
      have hb : (false : Bool) = true := congrArg Prod.fst (Option.some.inj h)
      exact Bool.noConfusion hb
    | some p =>
      obtain ⟨e, rest⟩ := p
      simp only [hpop] at h
      have hfr : fr = e :: rest := fifoSel_eq hpop
      obtain ⟨k', fifo', hel, hrlev⟩ :
          ∃ k', FifoInv m0 s fr vis k' ∧ e.2.length = k' ∧
            levels k' rest := by
        obtain ⟨frA, frB, hsplit, hA, hB⟩ := fifo.lev
        rw [hfr] at hsplit
        cases frA with
        | nil =>
          rw [List.nil_append] at hsplit
          have hall : ∀ x ∈ fr, x.2.length = k + 1 := by
            intro x hx
            rw [hfr] at hx
            exact hB x (hsplit ▸ hx)
          refine ⟨k + 1, FifoInv.shift ctx inv fifo hall,
            hall e (by rw [hfr]; exact List.mem_cons_self e rest),
            ⟨rest, [], by simp, ?_, by simp⟩⟩
          intro x hx
          exact hall x (by rw [hfr]; exact List.mem_cons_of_mem e hx)
        | cons a frA' =>
          rw [List.cons_append] at hsplit
          injection hsplit with h1 h2
          refine ⟨k, fifo, ?_,
            ⟨frA', frB, h2, fun x hx => hA x (List.mem_cons_of_mem a hx),
              hB⟩⟩
          rw [h1]
          exact hA a (List.mem_cons_self a frA')
      by_cases hend : getCell m e.1.1 e.1.2 = ENDC
      · rw [if_pos hend] at h
        have hinj := Option.some.inj h
        have hm : m' = markPath m e.2.tail := (congrArg Prod.snd hinj).symm
        have hEinv : entryInv m0 s vis e :=
          inv.entries e (by rw [hfr]; exact List.mem_cons_self e rest)
        obtain ⟨hEp, _, hEpath⟩ := hEinv
        have hend0 : getCell m0 e.1.1 e.1.2 = ENDC :=
          (endCell_of_skelEq inv.skel e.1.1 e.1.2).mpr hend
        have hes : e.1 ≠ s := by
          intro hh
          rw [hh] at hend0
          rw [ctx.sA] at hend0
          exact absurd hend0 (by decide)
        rcases hEpath with ⟨_, hcon⟩ | ⟨q, hq, htr, _, hnd, _, _⟩
        · exact absurd hcon hes
        · have htail : e.2.tail = q := by rw [hq]; rfl
          have hqin : ∀ x ∈ q, inBounds m x := by
            intro x hx
            have hxin0 : inBounds m0 x := by
              have := isTrail_mem_passable m0 s (q ++ [e.1]) htr x
                (List.mem_append_left [e.1] hx)
              exact ((passable_iff m0 x).mp this).1
            exact (inBounds_of_skelEq inv.skel x).mp hxin0
          refine ⟨e.2.length,
            by rw [hq]; exact Nat.succ_le_succ (Nat.zero_le q.length),
            ⟨?_, ?_⟩, ?_⟩
          · refine ⟨e.1, ?_, hend0⟩
            have hmem := trail_mem_ball m0 ctx.sz s ctx.sIn (q ++ [e.1]) htr
            rw [trailEnd_append_one] at hmem
            have hlq : (q ++ [e.1]).length = e.2.length := by
              rw [hq]
              simp
            rw [hlq] at hmem
            exact hmem
          · rw [hel]
            exact fifo'.noEnd
          · rw [hm, htail]
            have hqin' : ∀ x ∈ q, inBounds (markPath m q) x := by
              intro x hx
              have := hqin x hx
              unfold inBounds at this ⊢
              rw [markPath_length, markPath_rowLen]
              exact this
            have hcs : countStar (markPath m q) = q.length := by
              apply countStar_of_star_iff (markPath m q) q
                (List.nodup_cons.mp hnd).2 hqin'
              intro r c
              rw [markPath_star m q hqin r c]
              constructor
              · rintro (h' | h')
                · exact h'
                · exact absurd h' (inv.noStar r c)
              · exact Or.inl
            rw [hcs, hq]
            simp
      · rw [if_neg hend] at h
        exact ih _ _ _ k' (LoopInv.step ctx fifoSel_spec dv inv hpop hend)
          (fifoInv_step hfr fifo' hel hrlev _) m' h

/-- The FIFO invariant holds after the seed pop, at level one. -/
theorem fifoInv_init {m0 : Grid} {s : Coord} (ctx : Ctx m0 s) :
    FifoInv m0 s
      (enqueueAll m0 [s] (neighborCoords s.1 s.2) [] ∅).1
      (enqueueAll m0 [s] (neighborCoords s.1 s.2) [] ∅).2 1 := by
  obtain ⟨ext, hfr1, hext⟩ := enqueueAll_fr m0 [s] (neighborCoords s.1 s.2)
    [] ∅
  have hvcov := enqueueAll_vis_covers m0 [s] (neighborCoords s.1 s.2) [] ∅
  refine ⟨⟨(enqueueAll m0 [s] (neighborCoords s.1 s.2) [] ∅).1, [],
    by simp, ?_, by simp⟩, ?_, ?_, ?_⟩
  · intro x hx
    rw [hfr1] at hx
    rcases List.mem_append.mp hx with h | h
    · cases h
    · rw [(hext x h).1]
      rfl
  · intro x hx
    rw [ball, mem_expandS] at hx
    rcases hx with hx | ⟨z, hz, hn⟩
    · left
      simpa [ball] using hx
    · have hzs : z = s := by simpa [ball] using hz
      rw [hzs, mem_nbrFilter] at hn
      exact Or.inr (hvcov x hn.1 hn.2)
  · intro x hx
    by_cases hxs : x.1 = s
    · exact Or.inl hxs
    · right
      rw [hfr1] at hx
      rcases List.mem_append.mp hx with h | h
      · cases h
      · have h1 : x.2.length - 1 = 0 := by
          rw [(hext x h).1]
          rfl
        rw [h1]
        intro hmem
        exact hxs (by simpa [ball] using hmem)
  · intro x hx hend
    have hxs : x = s := by simpa [ball] using hx
    rw [hxs] at hend
    exact absurd (ctx.sA.symm.trans hend) (by decide)

/-- Top-level optimality of `bfs`: a successful run marks exactly the
shortest distance to an End-marked cell, less one. -/
theorem bfs_opt {m0 : Grid} {s : Coord} (ctx : Ctx m0 s) (dv : Bool)
    {m' : Grid} (h : bfs m0 s dv = some (true, m')) :
    ∃ d, 1 ≤ d ∧ endMinDist m0 s d ∧ countStar m' = d - 1 := by
  unfold bfs at h
  obtain ⟨f', hf'⟩ : ∃ f', searchFuel m0 = f' + 1 :=
    ⟨searchFuel m0 - 1, by unfold searchFuel; omega⟩
  rw [hf'] at h
  simp only [searchLoop, sel_singleton fifoSel_spec ((s, []) : Entry),
    List.nil_append] at h
  have hsE : getCell m0 s.1 s.2 ≠ ENDC := by
    rw [ctx.sA]
    decide
  rw [if_neg hsE] at h
  have hsS : ¬ (dv ∧ getCell m0 s.1 s.2 ≠ START) := fun hc => hc.2 ctx.sA
  rw [if_neg hsS] at h
  exact fifoLoop_opt ctx dv f' m0 _ _ 1 (LoopInv.init ctx)
    (fifoInv_init ctx) m' h

/-- Any successful loop search marks at least the shortest distance
less one (its reported walk cannot beat the least distance). -/
theorem successPost_lower {m0 : Grid} {s : Coord} (ctx : Ctx m0 s)
    {m' : Grid} (hp : SuccessPost m0 s m') {d : Nat}
    (hmin : endMinDist m0 s d) : d - 1 ≤ countStar m' := by
  obtain ⟨t, q, htr, hend, _, _, _, _, _, hcount⟩ := hp
  rw [hcount]
  by_contra hlt
  push_neg at hlt
  have hmem := trail_mem_ball m0 ctx.sz s ctx.sIn (q ++ [t]) htr
  rw [trailEnd_append_one] at hmem
  have hl : (q ++ [t]).length = q.length + 1 := by simp
  rw [hl] at hmem
  have ht' : t ∈ ball m0 s (d - 1) := ball_mono m0 s (by omega) hmem
  exact hmin.2 t ht' hend

/-- On a grid whose only Start marker is the start cell, a successful
`dfs` marks at least the shortest distance less one. -/
theorem dfs_lower {m0 : Grid} {s : Coord} (ctx : Ctx m0 s)
    (hA1 : ∀ r, r < m0.length → ∀ c, c < rowLen m0 r →
      getCell m0 r c = START → (r, c) = s)
    (dv : Bool) {m' : Grid} {v' : Finset Coord}
    (h : dfsRun m0 s dv = some (true, m', v'))
    {d : Nat} (hmin : endMinDist m0 s d) : d - 1 ≤ countStar m' := by
  obtain ⟨b, m2, v2, heq, hskel, _, htb⟩ := dfsRun_spec ctx dv
  rw [h] at heq
  have hinj := Option.some.inj heq
  have hb : (true : Bool) = b := congrArg (fun t => t.1) hinj
  have hm2 : m' = m2 := congrArg (fun t => t.2.1) hinj
  obtain ⟨l, hlne, htr, hendt, hnd, _, hstar⟩ := htb hb.symm
  rw [← hm2] at hskel hstar
  have hdl : (s :: l).dropLast = s :: l.dropLast := by
    cases l with
    | nil => exact absurd rfl hlne
    | cons a t => rfl
  have hstar' : ∀ x : Coord, getCell m' x.1 x.2 = PATHC ↔ x ∈ l.dropLast := by
    intro x
    rw [hstar x, hdl]
    constructor
    · rintro ⟨hx1, hx2⟩
      rcases List.mem_cons.mp hx1 with h' | h'
      · rw [h'] at hx2
        exact absurd ctx.sA hx2
      · exact h'
    · intro hx
      have hxl : x ∈ l := (List.dropLast_sublist l).subset hx
      have hxp : passable m0 x = true := isTrail_mem_passable m0 s l htr x hxl
      have hxs : x ≠ s := by
        intro hh
        rw [hh] at hxl
        exact (List.nodup_cons.mp hnd).1 hxl
      refine ⟨List.mem_cons_of_mem s hx, ?_⟩
      intro hS
      have hin := ((passable_iff m0 x).mp hxp).1
      have hxeq := hA1 x.1 hin.1 x.2 hin.2 hS
      exact hxs (by simpa using hxeq)
  have hin' : ∀ x ∈ l.dropLast, inBounds m' x := by
    intro x hx
    have hxl : x ∈ l := (List.dropLast_sublist l).subset hx
    have hxp := isTrail_mem_passable m0 s l htr x hxl
    have h0 : inBounds m0 x := ((passable_iff m0 x).mp hxp).1
    exact (inBounds_of_skelEq hskel x).mp h0
  have hndl : l.dropLast.Nodup :=
    ((List.nodup_cons.mp hnd).2).sublist (List.dropLast_sublist l)
  have hcs : countStar m' = l.dropLast.length := by
    apply countStar_of_star_iff m' l.dropLast hndl hin'
    intro r c
    exact hstar' (r, c)
  rw [hcs, List.length_dropLast]
  have hmem := trail_mem_ball m0 ctx.sz s ctx.sIn l htr
  have hdle : d ≤ l.length := by
    by_contra hgt
    push_neg at hgt
    have hball : trailEnd s l ∈ ball m0 s (d - 1) :=
      ball_mono m0 s (by omega) hmem
    exact hmin.2 _ hball hendt
  omega

/-- A validated solvable grid on which `a_star` marks a longer path
than `bfs`. -/
def cexGrid1 : Grid := [['A', ' ', ' ', ' ', ' '], [' ', ' ', ' ', '█', 'B']]

set_option maxHeartbeats 20000000 in
/-- Counterexample to C1 as stated: on this validated solvable grid
both searches succeed but `bfs` marks 4 Path cells (the shortest walk)
while `a_star` marks 6 — their reported path lengths differ. -/
theorem claim1_counterexample :
    is_maze_valid cexGrid1 = Except.ok () ∧
    get_start cexGrid1 = some (0, 0) ∧
    get_end cexGrid1 = some (1, 4) ∧
    reachesEnd cexGrid1 (0, 0) ∧
    Option.map (fun r => (r.1, countStar r.2)) (bfs cexGrid1 (0, 0) false) =
      some (true, 4) ∧
    Option.map (fun r => (r.1, countStar r.2))
      (a_star cexGrid1 (0, 0) (1, 4) false) = some (true, 6) :=
  ⟨by decide, by decide, by decide, by decide, by decide, by decide⟩

/-- C1 (amended): on a validated solvable grid whose only Start marker
is the start cell there is a least walk distance `d ≥ 1` to an
End-marked cell; `bfs` succeeds and marks exactly `d - 1` Path cells,
while `greedy_best_first_search`, `a_star` and `dfs` succeed and mark
at least `d - 1` Path cells (`a_star` may mark more, so only `bfs` is
shortest-path-optimal). -/
theorem claim1_shortest (m0 : Grid) (s e0 : Coord) (dv : Bool)
    (hsz : sized m0) (hv : is_maze_valid m0 = Except.ok ())
    (hs : get_start m0 = some s) (he : get_end m0 = some e0)
    (hA1 : ∀ r, r < m0.length → ∀ c, c < rowLen m0 r →
      getCell m0 r c = START → (r, c) = s)
    (hsolv : reachesEnd m0 s) :
    ∃ d, 1 ≤ d ∧
      (∃ rc ∈ ball m0 s d, getCell m0 rc.1 rc.2 = ENDC) ∧
      (∀ x ∈ ball m0 s (d - 1), getCell m0 x.1 x.2 ≠ ENDC) ∧
      (∃ m', bfs m0 s dv = some (true, m') ∧ countStar m' = d - 1) ∧
      (∃ m', greedy_best_first_search m0 s e0 dv = some (true, m') ∧
        d - 1 ≤ countStar m') ∧
      (∃ m', a_star m0 s e0 dv = some (true, m') ∧ d - 1 ≤ countStar m') ∧
      (∃ m' v', dfsRun m0 s dv = some (true, m', v') ∧
        d - 1 ≤ countStar m') := by
  have ctx : Ctx m0 s := Ctx.of_valid hsz hv hs
  have htrail := (reachesEnd_iff_trail m0 hsz s ctx.sIn).mp hsolv
  have htot : ∀ sel, SelSpec sel →
      (searchLoop sel dv (searchFuel m0) m0 [(s, [])] ∅).isSome := by
    intro sel hsel
    apply searchLoop_total sel hsel dv (searchFuel m0) m0 [(s, [])] ∅
      (Finset.empty_subset _)
    simp only [Finset.card_empty, List.length_singleton]
    unfold searchFuel
    omega
  obtain ⟨pB, hpB⟩ :=
    Option.isSome_iff_exists.mp (htot fifoSel fifoSel_spec)
  obtain ⟨bB, mB⟩ := pB
  have hB : bfs m0 s dv = some (bB, mB) := hpB
  have hbB : bB = true := by
    cases bB with
    | true => rfl
    | false => exact absurd htrail ((bfs_spec ctx dv hB).1 rfl).1
  rw [hbB] at hB
  obtain ⟨d, hd1, hmin, hcnt⟩ := bfs_opt ctx dv hB
  refine ⟨d, hd1, hmin.1, hmin.2, ⟨mB, hB, hcnt⟩, ?_, ?_, ?_⟩
  · obtain ⟨pG, hpG⟩ := Option.isSome_iff_exists.mp
      (htot (popMax (keyGBFS e0)) (popMax_spec (keyGBFS e0)))
    obtain ⟨bG, mG⟩ := pG
    have hG : greedy_best_first_search m0 s e0 dv = some (bG, mG) := hpG
    have hbG : bG = true := by
      cases bG with
      | true => rfl
      | false => exact absurd htrail ((gbfs_spec ctx e0 dv hG).1 rfl).1
    rw [hbG] at hG
    exact ⟨mG, hG,
      successPost_lower ctx ((gbfs_spec ctx e0 dv hG).2 rfl) hmin⟩
  · obtain ⟨pA, hpA⟩ := Option.isSome_iff_exists.mp
      (htot (popMax (keyAStar e0)) (popMax_spec (keyAStar e0)))
    obtain ⟨bA, mA⟩ := pA
    have hA : a_star m0 s e0 dv = some (bA, mA) := hpA
    have hbA : bA = true := by
      cases bA with
      | true => rfl
      | false => exact absurd htrail ((a_star_spec ctx e0 dv hA).1 rfl).1
    rw [hbA] at hA
    exact ⟨mA, hA,
      successPost_lower ctx ((a_star_spec ctx e0 dv hA).2 rfl) hmin⟩
  · obtain ⟨bD, mD, vD, hD, hskelD, hfD, htD⟩ := dfsRun_spec ctx dv
    have hbD : bD = true := by
      cases bD with
      | true => rfl
      | false => exact absurd htrail (hfD rfl).1
    rw [hbD] at hD
    exact ⟨mD, vD, hD, dfs_lower ctx hA1 dv hD hmin⟩

set_option maxHeartbeats 4000000 in
/-- Witness for the amended C1 theorem at a concrete validated
solvable grid. -/
theorem claim1_shortest_w :
    ∃ d, 1 ≤ d ∧
      (∃ rc ∈ ball [['A', 'B']] (0, 0) d,
        getCell [['A', 'B']] rc.1 rc.2 = ENDC) ∧
      (∀ x ∈ ball [['A', 'B']] (0, 0) (d - 1),
        getCell [['A', 'B']] x.1 x.2 ≠ ENDC) ∧
      (∃ m', bfs [['A', 'B']] (0, 0) false = some (true, m') ∧
        countStar m' = d - 1) ∧
      (∃ m', greedy_best_first_search [['A', 'B']] (0, 0) (0, 1) false =
        some (true, m') ∧ d - 1 ≤ countStar m') ∧
      (∃ m', a_star [['A', 'B']] (0, 0) (0, 1) false = some (true, m') ∧
        d - 1 ≤ countStar m') ∧
      (∃ m' v', dfsRun [['A', 'B']] (0, 0) false = some (true, m', v') ∧
        d - 1 ≤ countStar m') :=
  claim1_shortest [['A', 'B']] (0, 0) (0, 1) false (by decide) (by decide)
    (by decide) (by decide) (by decide) (by decide)

end Maze
